import Mathlib

/-!
SPSCQueue and Thread / ThreadManager: a shallow embedding.

Embedding of `src/SPSCQueue.hpp` and `src/Thread.hpp`.

Conventions of the embedding

* A `Node*` is an address (`Nat`) into the node memory `mem : Nat → Node`; address `0` is
  `nullptr`, and `new Node[n]` hands out the `n` consecutive addresses starting at `brk`.
* A `T*` (an item reference) is an address (`Nat`), `0` being `nullptr`; the queue never
  dereferences it.
* `size_t` values are natural numbers (exact integers); the constructor is only meaningful for
  `size ≥ 1` (for `size = 0` the C++ bound `m_size-1` wraps around and the loop writes out of
  bounds).
* A loop that may spin for ever is given a fuel argument that bounds the number of evaluations of
  its loop condition; `none` means that the loop has not returned within that bound.
-/

namespace core

/-! ## SPSCQueue -/

/-- The slot type, `struct Node`; the default value is the one built by `Node()`. -/
structure Node where
  m_data : Nat := 0
  m_next : Nat := 0
  m_ready : Bool := false
deriving DecidableEq, Repr

/-- The object `SPSCQueue<T>` together with the node memory it points into. -/
structure SPSCQueue where
  mem : Nat → Node
  brk : Nat
  m_size : Nat
  m_busytries : Int
  m_num_grows : Nat
  m_autogrow : Bool
  m_head : Nat
  m_write : Nat
  m_read : Nat

namespace SPSCQueue

/-- Store `f (mem a)` at address `a`. -/
def modify (mem : Nat → Node) (a : Nat) (f : Node → Node) : Nat → Node :=
  fun b => if b = a then f (mem a) else mem b

/-- The memory after `new Node[n]` has handed out the block of `n` default-constructed nodes
that starts at address `brk`. -/
def newNodes (mem : Nat → Node) (brk n : Nat) : Nat → Node :=
  fun b => if brk ≤ b ∧ b < brk + n then {} else mem b

/-- Lines 25-29, `write(T* obj)`. -/
def write (s : SPSCQueue) (obj : Nat) : SPSCQueue :=
  let s1 := { s with m_write := (s.mem s.m_write).m_next }
  { s1 with mem := modify s1.mem s1.m_write (fun n => { n with m_data := obj }) }

/-- Lines 31-34, `writeDone()`. -/
def writeDone (s : SPSCQueue) : SPSCQueue :=
  { s with mem := modify s.mem s.m_write (fun n => { n with m_ready := true }) }

/-- Line 43, the body of the loop of `grow()`, on the node memory. -/
def growStep (newData : Nat) (m : Nat → Node) (i : Nat) : Nat → Node :=
  modify m (newData + i) (fun n => { n with m_next := newData + (i + 1) })

/-- Lines 36-48, `grow()`. The block `newData` starts at the address `brk`. -/
def grow (s : SPSCQueue) : SPSCQueue :=
  let p := (s.mem s.m_write).m_next
  let newData := s.brk
  let mem0 := newNodes s.mem s.brk s.m_size
  let mem1 := modify mem0 s.m_write (fun n => { n with m_next := newData })
  let mem2 := (List.range (s.m_size - 1)).foldl (growStep newData) mem1
  let mem3 := modify mem2 (newData + (s.m_size - 1)) (fun n => { n with m_next := p })
  { s with mem := mem3, brk := s.brk + s.m_size, m_size := s.m_size + s.m_size,
           m_num_grows := s.m_num_grows + 1 }

/-- Lines 50-54, `read(T*& obj)`: the new state and the value stored into `obj`. -/
def read (s : SPSCQueue) : SPSCQueue × Nat :=
  let s1 := { s with m_read := (s.mem s.m_read).m_next }
  (s1, (s1.mem s1.m_read).m_data)

/-- Lines 56-59, `readDone()`. -/
def readDone (s : SPSCQueue) : SPSCQueue :=
  { s with mem := modify s.mem s.m_read (fun n => { n with m_ready := false }) }

/-- Lines 70-71, the body of the loop of the constructor. -/
def ctorStep (s : SPSCQueue) (i : Nat) : SPSCQueue :=
  let s1 := { s with mem := modify s.mem s.m_write (fun n => { n with m_next := s.m_head + (i + 1) }) }
  { s1 with m_write := (s1.mem s1.m_write).m_next }

/-- Lines 64-78, the constructor `SPSCQueue(size, autogrow, busytries)`. The node memory starts
out empty, with address `0` reserved for `nullptr`, so that `m_head` is the address `1`;
`m_read` is not initialised before line 76. -/
def new (size : Nat) (autogrow : Bool) (busytries : Int) : SPSCQueue :=
  let s0 : SPSCQueue :=
    { mem := newNodes (fun _ => {}) 1 size, brk := 1 + size, m_size := size,
      m_busytries := busytries, m_num_grows := 0, m_autogrow := autogrow,
      m_head := 1, m_write := 1, m_read := 0 }
  let s1 := (List.range (s0.m_size - 1)).foldl ctorStep s0
  let s2 := { s1 with mem := modify s1.mem s1.m_write (fun n => { n with m_next := s1.m_head }) }
  { s2 with m_read := s2.m_head, m_write := s2.m_head }

/-- The test of line 92 together with line 94: `push` calls `grow()` on this state. -/
def growsOnPush (s : SPSCQueue) : Bool :=
  decide ((s.mem s.m_write).m_next = s.m_read) && s.m_autogrow

/-- Lines 90-107, `push(T* obj)`: the returned flag and the new state. -/
def push (s : SPSCQueue) (obj : Nat) : Bool × SPSCQueue :=
  if (s.mem s.m_write).m_next = s.m_read then
    if s.m_autogrow then
      (true, writeDone (write (grow s) obj))
    else
      (false, s)
  else
    (true, writeDone (write s obj))

/-- The `while` loop of lines 112-126 followed by lines 127-129. `i` is the local counter. Each
unit of fuel pays for one evaluation of the loop condition. The result is the returned flag, the
content of the caller's variable `obj`, and the new state. -/
def popLoop : Nat → SPSCQueue → Nat → Int → Option (Bool × Nat × SPSCQueue)
  | 0, _, _, _ => none
  | fuel + 1, s, obj, i =>
    if (s.mem (s.mem s.m_read).m_next).m_ready = false then
      if s.m_busytries < 0 then
        popLoop fuel s obj i
      else if s.m_busytries > 1 then
        popLoop fuel s obj (i + 1)
      else
        some (false, obj, s)
    else
      let (s1, obj1) := read s
      some (true, obj1, readDone s1)

/-- Lines 109-130, `pop(T*& obj)`; `obj` is the content of the caller's variable on entry. -/
def pop (fuel : Nat) (s : SPSCQueue) (obj : Nat) : Option (Bool × Nat × SPSCQueue) :=
  popLoop fuel s obj 0

/-- Line 132. -/
def size (s : SPSCQueue) : Nat := s.m_size

/-- Line 148. -/
def num_grows (s : SPSCQueue) : Nat := s.m_num_grows

/-- The loop of lines 140-144, started at `ptr` with count `c`. -/
def pendingLoop (s : SPSCQueue) : Nat → Nat → Nat → Option Nat
  | 0, _, _ => none
  | fuel + 1, ptr, c =>
    if ptr ≠ s.m_write then pendingLoop s fuel (s.mem ptr).m_next (c + 1) else some c

/-- Lines 135-146, `pending()`. -/
def pending (fuel : Nat) (s : SPSCQueue) : Option Nat :=
  pendingLoop s fuel s.m_read 0

end SPSCQueue

/-- One call made on a queue: `push(obj)`, or `pop(out)` where `out` is the content of the
caller's variable before the call. -/
inductive Op where
  | push (obj : Nat)
  | pop (out : Nat)
deriving DecidableEq, Repr

/-- What a call returned: the flag of `push` (and whether it called `grow()`), or the flag of
`pop` and the content of the caller's variable afterwards. -/
inductive Ev where
  | pushed (obj : Nat) (ok : Bool) (grew : Bool)
  | popped (ok : Bool) (obj : Nat)
deriving DecidableEq, Repr

/-- Run a sequence of calls, one after the other, on a queue; `fuel` bounds the spinning of each
`pop`. The result is `none` when some `pop` has not returned. -/
def runOps (fuel : Nat) : SPSCQueue → List Op → Option (SPSCQueue × List Ev)
  | s, [] => some (s, [])
  | s, Op.push x :: ops =>
    let r := s.push x
    match runOps fuel r.2 ops with
    | none => none
    | some (s', evs) => some (s', Ev.pushed x r.1 s.growsOnPush :: evs)
  | s, Op.pop out :: ops =>
    match s.pop fuel out with
    | none => none
    | some (ok, obj, s1) =>
      match runOps fuel s1 ops with
      | none => none
      | some (s', evs) => some (s', Ev.popped ok obj :: evs)

/-- The items of the successful pushes, in call order. -/
def pushedItems : List Ev → List Nat
  | [] => []
  | Ev.pushed x true _ :: evs => x :: pushedItems evs
  | _ :: evs => pushedItems evs

/-- The items returned by the successful pops, in call order. -/
def poppedItems : List Ev → List Nat
  | [] => []
  | Ev.popped true x :: evs => x :: poppedItems evs
  | _ :: evs => poppedItems evs

/-- The number of calls of `grow()`. -/
def growCount : List Ev → Nat
  | [] => 0
  | Ev.pushed _ _ true :: evs => growCount evs + 1
  | _ :: evs => growCount evs

/-- Every `push` of the run returned `true`. -/
def allPushesOk : List Ev → Bool
  | [] => true
  | Ev.pushed _ ok _ :: evs => ok && allPushesOk evs
  | _ :: evs => allPushesOk evs


/-- The items passed to `push`, in call order. -/
def pushArgs : List Op → List Nat
  | [] => []
  | Op.push x :: ops => x :: pushArgs ops
  | Op.pop _ :: ops => pushArgs ops

/-- The capacity scenario: on a queue of `cap` slots without autogrow and with `busy_tries = 0`,
the calls `push(a)`, `push(b)`, `push(c)`, `pop`, `push(c)`, `pop`, `pop`, `pop`; every `pop` is
handed a variable that holds `nullptr`. -/
def capacityScenario (cap a b c : Nat) : Option (List Ev) :=
  (runOps 1 (SPSCQueue.new cap false 0)
    [Op.push a, Op.push b, Op.push c, Op.pop 0, Op.push c, Op.pop 0, Op.pop 0, Op.pop 0]).map
    (fun r => r.2)

/-! ## Thread -/

/-- What has become of the thread of execution behind a `std::thread` that `start()` spawned:
it has not yet evaluated the loop condition of `execute` (line 129); it has returned from
`execute`; or it is inside the task loop, which it never leaves, since nothing sets `stop_` back
to `false`. -/
inductive OsState where
  | spawned
  | returned
  | looping
deriving DecidableEq, Repr

/-- The `std::thread` object owned by `thr_`: whether it is joinable (it stands for a thread of
execution that has not been joined), and the state of that thread of execution. -/
structure OsThread where
  joinable : Bool
  state : OsState
deriving DecidableEq, Repr

/-- The object `Thread`. A callable (`std::function<void()>`) is named by a number; a run of a
callable is an entry of the trace of `execute`. The member `thr_` is `none` while the
`unique_ptr` is empty. -/
structure Thread where
  cpu_ : Int
  sched_policy_ : Int
  priority_ : Int
  tid_ : Nat
  started_ : Bool
  stop_ : Bool
  occupy_core_ : Bool
  name_ : String
  tasks_ : List Nat
  setup_tasks_ : List Nat
  task_names_ : List String
  time_val_ : Nat
  thr_ : Option OsThread
deriving DecidableEq, Repr

/-- The collaborators of `utilities.hpp` and the surroundings of a running `execute`:
the thread id returned by the `gettid` system call, the status returned by
`core::set_thread_affinity` and `core::set_scheduler_policy`, the value of
`Thread::thread_manager_time_val_seconds` read at the end of pass `k`, and whether some other
party has called `stop()` on the Thread by the time the loop condition is evaluated for the
`k`-th time (`k` counted from 0). -/
structure Env where
  gettid : Nat
  set_thread_affinity : Int → Int
  set_scheduler_policy : Int → Int → Int
  manager_time : Nat → Nat
  stop_called : Nat → Bool

/-- One entry of the trace of `execute`: a call of a collaborator or of a callable. -/
inductive Call where
  | set_thread_affinity (cpu : Int)
  | set_scheduler_policy (policy priority : Int)
  | setup (f : Nat)
  | task (f : Nat)
deriving DecidableEq, Repr

/-- What `execute` has done within the given number of evaluations of its loop condition:
whether it has returned, the Thread object, and the calls made so far. -/
structure Run where
  finished : Bool
  thread : Thread
  trace : List Call
deriving DecidableEq, Repr

namespace Thread

/-- Lines 42-43, the constructor `Thread(n)`; `now` is the value of
`core::local_timespec().spec.tv_sec` (line 29) and `tid_` is not initialised. -/
def new (n : String) (now : Nat) : Thread :=
  { cpu_ := -1, sched_policy_ := -1, priority_ := -1, tid_ := 0, started_ := false,
    stop_ := false, occupy_core_ := false, name_ := n, tasks_ := [], setup_tasks_ := [],
    task_names_ := [], time_val_ := now, thr_ := none }

/-- Line 58, the setter `cpu(int c)`. -/
def set_cpu (t : Thread) (c : Int) : Thread := { t with cpu_ := c }

/-- Line 59, the getter `cpu()`. -/
def cpu (t : Thread) : Int := t.cpu_

/-- Line 67, the setter `exclusively_occupy_core(bool b)`. -/
def set_exclusively_occupy_core (t : Thread) (b : Bool) : Thread := { t with occupy_core_ := b }

/-- Line 68, the getter `exclusively_occupy_core()`. -/
def exclusively_occupy_core (t : Thread) : Bool := t.occupy_core_

/-- Line 70. -/
def name (t : Thread) : String := t.name_

/-- Line 71. -/
def task_names (t : Thread) : List String := t.task_names_

/-- Lines 75-77, the setter `timeval(uint64_t val)`. -/
def timeval (t : Thread) (val : Nat) : Thread := { t with time_val_ := val }

/-- Lines 92-96, `add_setup_task(f)`. -/
def add_setup_task (t : Thread) (f : Nat) : Thread :=
  { t with setup_tasks_ := t.setup_tasks_ ++ [f] }

/-- Lines 98-103, `add_task(f, name)`. -/
def add_task (t : Thread) (f : Nat) (name : String) : Thread :=
  { t with tasks_ := t.tasks_ ++ [f], task_names_ := t.task_names_ ++ [name] }

/-- Lines 148-152, `stop()`. -/
def stop (t : Thread) : Thread := { t with started_ := false, stop_ := true }

/-- Lines 31-39, `set_affinity()`: the returned status and the collaborator calls made. -/
def set_affinity (env : Env) (t : Thread) : Int × List Call :=
  if t.cpu_ < 0 then
    (-1, [])
  else
    (env.set_thread_affinity t.cpu_, [Call.set_thread_affinity t.cpu_])

/-- Lines 81-90, `set_sched_policy(policy, priority)`. -/
def set_sched_policy (env : Env) (t : Thread) (policy priority : Int) :
    Int × Thread × List Call :=
  let r := env.set_scheduler_policy policy priority
  let t1 := if r = 0 then { t with sched_policy_ := policy, priority_ := priority } else t
  (r, t1, [Call.set_scheduler_policy policy priority])

/-- Lines 129-138, the `while` loop of `execute`. `k` counts the evaluations of the loop
condition made so far and each unit of fuel pays for one more; `stop_` is volatile, so a `stop()`
made by another party is seen at the next evaluation. -/
def taskLoop (env : Env) : Nat → Nat → Thread → List Call → Run
  | 0, _, t, tr => { finished := false, thread := t, trace := tr }
  | fuel + 1, k, t, tr =>
    let t1 := if env.stop_called k then t.stop else t
    if t1.stop_ then
      taskLoop env fuel (k + 1) (t1.timeval (env.manager_time k))
        (tr ++ t1.tasks_.map Call.task)
    else
      { finished := true, thread := t1, trace := tr }

/-- Lines 110-139, `execute()`. -/
def execute (fuel : Nat) (env : Env) (t : Thread) : Run :=
  let t1 := { t with tid_ := env.gettid }
  let tr1 := if t1.cpu_ ≥ 0 then (set_affinity env t1).2 else []
  let r2 := if t1.sched_policy_ > 0 ∧ t1.priority_ ≥ 0
    then (set_sched_policy env t1 t1.sched_policy_ t1.priority_).2 else (t1, [])
  let tr3 := tr1 ++ r2.2 ++ r2.1.setup_tasks_.map Call.setup
  taskLoop env fuel 0 r2.1 tr3

/-- Lines 142-146, `start()`. The result is `none` when `thr_.reset` destroys a `std::thread`
that is still joinable, which calls `std::terminate`. -/
def start (t : Thread) : Option Thread :=
  match t.thr_ with
  | some h =>
    if h.joinable then
      none
    else
      some { t with thr_ := some { joinable := true, state := OsState.spawned },
                    started_ := true }
  | none =>
    some { t with thr_ := some { joinable := true, state := OsState.spawned }, started_ := true }

/-- The thread of execution spawned by `start()` gets to run: it executes `execute` up to the
first evaluation of the loop condition (line 129), in the surroundings `env`. It returns if it
finds `stop_` clear and is in the task loop for good otherwise (where it goes on calling the
tasks and writing `time_val_`). A Thread whose thread of execution is past that point, or that
has none, is left as it is. -/
def runs (env : Env) (t : Thread) : Thread :=
  match t.thr_ with
  | some h =>
    if h.state = OsState.spawned then
      { (t.execute 1 env).thread with
          thr_ := some { joinable := h.joinable,
                         state := if (t.execute 1 env).finished then OsState.returned
                                  else OsState.looping } }
    else
      t
  | none => t

/-- Lines 105-108, `join()`, called while the spawned thread of execution has the surroundings
`env`: the caller waits until `execute` has returned. The result is `none` when the call does
not return normally: `thr_` is empty (a null pointer is dereferenced), the `std::thread` is not
joinable (`std::thread::join` throws), or the thread of execution is in the task loop for good
(the caller waits for ever). -/
def join (env : Env) (t : Thread) : Option Thread :=
  match (t.runs env).thr_ with
  | none => none
  | some h =>
    if h.joinable ∧ h.state = OsState.returned then
      some { t.runs env with thr_ := some { joinable := false, state := OsState.returned } }
    else
      none

end Thread

/-- The calls of task callables in a trace, in order. -/
def taskCalls : List Call → List Nat
  | [] => []
  | Call.task f :: tr => f :: taskCalls tr
  | _ :: tr => taskCalls tr

/-- Collaborators that always report success, a frozen clock, and nobody calling `stop()`. -/
def quietEnv : Env :=
  { gettid := 1, set_thread_affinity := fun _ => 0, set_scheduler_policy := fun _ _ => 0,
    manager_time := fun _ => 0, stop_called := fun _ => false }

/-- A Thread with the recurring tasks `1` (named T1) and `2` (named T2), registered in that
order. -/
def twoTaskThread : Thread :=
  ((Thread.new "" 0).add_task 1 "T1").add_task 2 "T2"

/-! ## ThreadManager -/

/-- The condition raised through `core::ExceptionBuilder`: the core is held by an exclusive
thread (line 176), or an exclusive use of a shared core is asked for (line 180); each names the
core and the thread. -/
inductive ConfigError where
  | exclusive (c : Int) (name : String)
  | shared (c : Int) (name : String)
deriving DecidableEq, Repr

/-- The object `ThreadManager` together with the `Thread` objects it has created with `new`:
`objs` holds them by address (a `Thread*` is a `Nat`, `0` being `nullptr`), `nobjs` is the next
address to hand out, and `threads_` lists the entries of the `unordered_map`. -/
structure ThreadManager where
  objs : Nat → Thread
  nobjs : Nat
  threads_ : List (Int × Nat)
  floating_core_id_ : Int

/-- Modelled from the spec: `ExceptionBuilder.hpp` is not among the sources; the statement
`core::ExceptionBuilder<>() << ...` is the collaborator `report_fatal_configuration_error`,
which "raises an unrecoverable condition", so the registration does not proceed. -/
def report_fatal_configuration_error {α : Type} (e : ConfigError) : Except ConfigError α :=
  Except.error e

namespace ThreadManager

/-- Line 163, the constructor; no Thread object exists yet. -/
def new : ThreadManager :=
  { objs := fun _ => Thread.new "" 0, nobjs := 1, threads_ := [], floating_core_id_ := -1 }

/-- The lookup `threads_.find(c)`: `none` for `threads_.end()`. -/
def find (m : ThreadManager) (c : Int) : Option Nat := m.threads_.lookup c

/-- The assignment `threads_[c] = thr`. -/
def assign (m : ThreadManager) (c : Int) (thr : Nat) : ThreadManager :=
  { m with threads_ :=
      if (m.threads_.lookup c).isSome
      then m.threads_.map (fun e => if e.1 = c then (c, thr) else e)
      else m.threads_ ++ [(c, thr)] }

/-- The expression `new Thread(name)`: the address of the fresh object. -/
def newThread (m : ThreadManager) (name : String) (now : Nat) : Nat × ThreadManager :=
  (m.nobjs, { m with objs := fun a => if a = m.nobjs then Thread.new name now else m.objs a,
                     nobjs := m.nobjs + 1 })

/-- A member call `thr->f(...)` that changes the object at `thr`. -/
def update (m : ThreadManager) (thr : Nat) (f : Thread → Thread) : ThreadManager :=
  { m with objs := fun a => if a = thr then f (m.objs thr) else m.objs a }

/-- Lines 165-198, `get_thread(c, occupy, name)`. Line 187 calls `thr->occupy_core(occupy)`, a
name that `Thread` does not declare; it is read as the setter of `occupy_core_` (line 67). -/
def get_thread (m : ThreadManager) (now : Nat) (c : Int) (occupy : Bool) (name : String) :
    Except ConfigError (Nat × ThreadManager) :=
  if c ≥ 0 then
    match m.find c with
    | some thr =>
      if (m.objs thr).exclusively_occupy_core then
        report_fatal_configuration_error (ConfigError.exclusive c (m.objs thr).name)
      else if occupy then
        report_fatal_configuration_error (ConfigError.shared c (m.objs thr).name)
      else
        Except.ok (thr, m)
    | none =>
      let (thr, m1) := m.newThread name now
      let m2 := m1.update thr (fun t => t.set_cpu c)
      let m3 := m2.update thr (fun t => t.set_exclusively_occupy_core occupy)
      Except.ok (thr, m3.assign c thr)
  else
    let (thr, m1) := m.newThread name now
    let m2 := m1.update thr (fun t => t.set_cpu m1.floating_core_id_)
    let m3 := { m2 with floating_core_id_ := m2.floating_core_id_ - 1 }
    Except.ok (thr, m3.assign m3.floating_core_id_ thr)

/-- Lines 208-218, `add_task_to_thread(f1, f2, c, occupy, task_name, thr_name)`. -/
def add_task_to_thread (m : ThreadManager) (now : Nat) (f1 f2 : Nat) (c : Int) (occupy : Bool)
    (task_name thr_name : String) : Except ConfigError (Nat × ThreadManager) :=
  match m.get_thread now c occupy thr_name with
  | Except.error e => Except.error e
  | Except.ok (thr, m1) =>
    if thr ≠ 0 then
      let m2 := m1.update thr (fun t => t.add_setup_task f1)
      let m3 := m2.update thr (fun t => t.add_task f2 task_name)
      Except.ok (thr, m3)
    else
      Except.ok (thr, m1)

/-- Lines 232-238, `stop_threads()`. -/
def stop_threads (m : ThreadManager) : ThreadManager :=
  m.threads_.foldl (fun m1 kv => m1.update kv.2 Thread.stop) m

/-- Line 246, the effect of `join_threads()` on the registry: `threads_.clear()`. -/
def clear (m : ThreadManager) : ThreadManager := { m with threads_ := [] }

end ThreadManager

/-- The registry after lines 185-188 and 214-215 have run for a core `c` that was not
registered: a fresh Thread at address `nobjs`, configured, entered under `c`, with one setup
callable and one task attached. -/
def registered (m : ThreadManager) (c : Int) (occupy : Bool) (name : String) (now f1 f2 : Nat)
    (task_name : String) : ThreadManager :=
  ((((((m.newThread name now).2.update m.nobjs (fun t => t.set_cpu c)).update m.nobjs
    (fun t => t.set_exclusively_occupy_core occupy)).assign c m.nobjs).update m.nobjs
    (fun t => t.add_setup_task f1)).update m.nobjs (fun t => t.add_task f2 task_name))

/-- The registry after lines 193-195 and 214-215 have run for a negative core id: a fresh Thread
at address `nobjs` carrying the counter as cpu index, the counter decremented, the Thread entered
under the decremented counter, with one setup callable and one task attached. -/
def floated (m : ThreadManager) (name : String) (now f1 f2 : Nat) (task_name : String) :
    ThreadManager :=
  ((({ (m.newThread name now).2.update m.nobjs (fun t => t.set_cpu m.floating_core_id_) with
        floating_core_id_ := m.floating_core_id_ - 1 }.assign
      (m.floating_core_id_ - 1) m.nobjs).update m.nobjs
    (fun t => t.add_setup_task f1)).update m.nobjs (fun t => t.add_task f2 task_name))

/-- The two registries agree on the map, the counters, and the cpu index, exclusivity flag and
name of every Thread. -/
def SameRegistry (m m2 : ThreadManager) : Prop :=
  m2.threads_ = m.threads_ ∧ m2.nobjs = m.nobjs ∧
  m2.floating_core_id_ = m.floating_core_id_ ∧
  ∀ a, (m2.objs a).cpu_ = (m.objs a).cpu_ ∧ (m2.objs a).occupy_core_ = (m.objs a).occupy_core_ ∧
    (m2.objs a).name_ = (m.objs a).name_

/-- The state in which `push` reaches line 104 (when it does not return at line 100): the state
left by `grow()` if lines 92 and 94 both hold, the state on entry otherwise. -/
def SPSCQueue.beforeWrite (s : SPSCQueue) : SPSCQueue :=
  if s.growsOnPush then s.grow else s

/-- The calls of the CPU-affinity collaborator in a trace, with their argument. -/
def affinityCalls : List Call → List Int
  | [] => []
  | Call.set_thread_affinity c :: tr => c :: affinityCalls tr
  | _ :: tr => affinityCalls tr

/-- The calls of setup and task callables in a trace, in order. -/
def callableCalls : List Call → List Call
  | [] => []
  | Call.setup f :: tr => Call.setup f :: callableCalls tr
  | Call.task f :: tr => Call.task f :: callableCalls tr
  | _ :: tr => callableCalls tr

/-- The loop of lines 222-229 over the entries `l`: `start()` on every Thread that is not
started; `none` as soon as a `start()` does not return. -/
def ThreadManager.startAll : List (Int × Nat) → ThreadManager → Option ThreadManager
  | [], m => some m
  | kv :: l, m =>
    if (m.objs kv.2).started_ then
      startAll l m
    else
      match (m.objs kv.2).start with
      | none => none
      | some t => startAll l (m.update kv.2 (fun _ => t))

/-- Lines 220-230, `start_threads()`. -/
def ThreadManager.start_threads (m : ThreadManager) : Option ThreadManager :=
  ThreadManager.startAll m.threads_ m

/-- The loop of lines 242-245 over the entries `l`: `join()` on every Thread; `none` as soon as
a `join()` does not return normally. `envs a` is the surroundings of the thread of execution of
the Thread at address `a`. -/
def ThreadManager.joinAll (envs : Nat → Env) :
    List (Int × Nat) → ThreadManager → Option ThreadManager
  | [], m => some m
  | kv :: l, m =>
    match (m.objs kv.2).join (envs kv.2) with
    | none => none
    | some t => joinAll envs l (m.update kv.2 (fun _ => t))

/-- Lines 240-247, `join_threads()`: every Thread of the registry is joined, then
`threads_.clear()`. -/
def ThreadManager.join_threads (envs : Nat → Env) (m : ThreadManager) : Option ThreadManager :=
  (ThreadManager.joinAll envs m.threads_ m).map ThreadManager.clear

/-- One step of a run of the registry: an operation made on it by its caller, or the thread of
execution of the Thread at address `thr` getting to run (see `Thread.runs`), which may happen at
any moment between two operations. -/
inductive MgrOp where
  | add_task_to_thread (now f1 f2 : Nat) (c : Int) (occupy : Bool) (task_name thr_name : String)
  | start_threads
  | stop_threads
  | join_threads
  | thread_runs (thr : Nat)
deriving DecidableEq, Repr

/-- Apply one step: the new registry and, for a registration that succeeded, the returned
Thread handle with the cpu index it carries. A registration that raises leaves the registry as
it was. The result is `none` when the operation does not return normally (see `Thread.start`
and `Thread.join`). -/
def ThreadManager.step (envs : Nat → Env) (m : ThreadManager) :
    MgrOp → Option (ThreadManager × List (Nat × Int))
  | MgrOp.add_task_to_thread now f1 f2 c occupy task_name thr_name =>
    match m.add_task_to_thread now f1 f2 c occupy task_name thr_name with
    | Except.ok (thr, m1) => some (m1, [(thr, (m1.objs thr).cpu)])
    | Except.error _ => some (m, [])
  | MgrOp.start_threads =>
    match m.start_threads with
    | none => none
    | some m1 => some (m1, [])
  | MgrOp.stop_threads => some (m.stop_threads, [])
  | MgrOp.join_threads =>
    match m.join_threads envs with
    | none => none
    | some m1 => some (m1, [])
  | MgrOp.thread_runs thr => some (m.update thr (Thread.runs (envs thr)), [])

/-- Apply a sequence of steps: the final registry and the handles returned on the way, or
`none` when some operation does not return normally. -/
def ThreadManager.runMgr (envs : Nat → Env) :
    ThreadManager → List MgrOp → Option (ThreadManager × List (Nat × Int))
  | m, [] => some (m, [])
  | m, op :: ops =>
    match m.step envs op with
    | none => none
    | some (m1, l1) =>
      match runMgr envs m1 ops with
      | none => none
      | some (m2, l2) => some (m2, l1 ++ l2)

/-- Surroundings in which every thread of execution has the collaborators of `quietEnv`. -/
def quietEnvs : Nat → Env := fun _ => quietEnv

/-- Whether a registration returned a Thread (rather than raising). -/
def succeeded (r : Except ConfigError (Nat × ThreadManager)) : Bool :=
  match r with
  | Except.ok _ => true
  | Except.error _ => false

/-- What holds of every registry reached from the fresh one: the floating counter is negative
and below every negative key and every cpu index handed out, and the handles of the map are
addresses of created Threads. -/
structure MInv (m : ThreadManager) : Prop where
  counter : m.floating_core_id_ ≤ -1
  nobjs_pos : 1 ≤ m.nobjs
  keys : ∀ e ∈ m.threads_, m.floating_core_id_ ≤ e.1
  handles : ∀ e ∈ m.threads_, 1 ≤ e.2 ∧ e.2 < m.nobjs
  ids : ∀ a, 1 ≤ a → a < m.nobjs → m.floating_core_id_ < (m.objs a).cpu_

/-! ## The ring invariant -/

/-- `Seg mem a l b`: following the `m_next` links from `a` visits the slots of `l`, in order,
and ends at `b`. -/
def Seg (mem : Nat → Node) : Nat → List Nat → Nat → Prop
  | a, [], b => a = b
  | a, x :: l, b => (mem a).m_next = x ∧ Seg mem x l b

/-- The ring of a queue, seen from the read cursor: `pend` are the slots after the read cursor up
to and including the write cursor (filled, unread), `free` the slots after the write cursor up to
the read cursor (empty). -/
structure Inv (s : SPSCQueue) (pend free : List Nat) : Prop where
  seg_pend : Seg s.mem s.m_read pend s.m_write
  seg_free : Seg s.mem s.m_write (free ++ [s.m_read]) s.m_read
  nodup : (s.m_read :: (pend ++ free)).Nodup
  ready_pend : ∀ a ∈ pend, (s.mem a).m_ready = true
  ready_free : ∀ a ∈ free, (s.mem a).m_ready = false
  ready_read : (s.mem s.m_read).m_ready = false
  len : (pend ++ free).length + 1 = s.m_size
  alloc : ∀ a ∈ s.m_read :: (pend ++ free), 1 ≤ a ∧ a < s.brk
  brk_eq : s.brk = s.m_size + 1

/-- The items stored in the slots `l`. -/
def items (s : SPSCQueue) (l : List Nat) : List Nat := l.map (fun a => (s.mem a).m_data)

theorem seg_append (mem : Nat → Node) (l1 l2 : List Nat) (a c : Nat) :
    Seg mem a (l1 ++ l2) c ↔ ∃ b, Seg mem a l1 b ∧ Seg mem b l2 c := by
  induction l1 generalizing a with
  | nil => simp [Seg]
  | cons x l ih =>
    show ((mem a).m_next = x ∧ Seg mem x (l ++ l2) c) ↔
      ∃ b, ((mem a).m_next = x ∧ Seg mem x l b) ∧ Seg mem b l2 c
    rw [ih]
    constructor
    · rintro ⟨h1, b, h2, h3⟩
      exact ⟨b, ⟨h1, h2⟩, h3⟩
    · rintro ⟨b, ⟨h1, h2⟩, h3⟩
      exact ⟨h1, b, h2, h3⟩

theorem seg_mem_end (mem : Nat → Node) (l : List Nat) (a b : Nat) (h : Seg mem a l b) :
    b ∈ a :: l := by
  induction l generalizing a with
  | nil => simp [Seg] at h; simp [h]
  | cons x l ih =>
    have := ih x h.2
    exact List.mem_cons_of_mem _ this

theorem seg_congr (mem mem2 : Nat → Node) (l : List Nat) (a b : Nat)
    (hnd : (a :: l).Nodup)
    (hm : ∀ x, x ∈ a :: l → x ≠ b → (mem2 x).m_next = (mem x).m_next)
    (h : Seg mem a l b) : Seg mem2 a l b := by
  induction l generalizing a with
  | nil => exact h
  | cons x l ih =>
    obtain ⟨h1, h2⟩ := h
    have hb : b ∈ x :: l := seg_mem_end mem l x b h2
    have hab : a ≠ b := by
      rintro rfl
      exact (List.nodup_cons.1 hnd).1 hb
    refine ⟨?_, ih x (List.nodup_cons.1 hnd).2 (fun y hy hyb => hm y (List.mem_cons_of_mem _ hy) hyb) h2⟩
    rw [hm a (List.mem_cons_self _ _) hab]
    exact h1

theorem seg_congr_all (mem mem2 : Nat → Node) (l : List Nat) (a b : Nat)
    (hm : ∀ x, (mem2 x).m_next = (mem x).m_next)
    (h : Seg mem a l b) : Seg mem2 a l b := by
  induction l generalizing a with
  | nil => exact h
  | cons x l ih => exact ⟨by rw [hm a]; exact h.1, ih x h.2⟩

/-- A block of consecutive addresses, each linked to the address after it. -/
theorem seg_block (mem : Nat → Node) (n base : Nat)
    (hm : ∀ a, base ≤ a → a < base + n → (mem a).m_next = a + 1) :
    Seg mem base (List.range' (base + 1) n) (base + n) := by
  induction n generalizing base with
  | zero => simp [Seg]
  | succ n ih =>
    rw [List.range'_succ]
    refine ⟨hm base (le_refl _) (by omega), ?_⟩
    have := ih (base + 1) (fun a h1 h2 => hm a (by omega) (by omega))
    rw [show base + (n + 1) = base + 1 + n by omega]
    exact this

theorem foldl_links (base k : Nat) (m0 : Nat → Node) (a : Nat) :
    ((List.range k).foldl (SPSCQueue.growStep base) m0) a
      = if base ≤ a ∧ a < base + k then { m0 a with m_next := a + 1 } else m0 a := by
  induction k with
  | zero =>
    have : ¬ (base ≤ a ∧ a < base + 0) := by omega
    rw [if_neg this]
    rfl
  | succ k ih =>
    rw [List.range_succ, List.foldl_append]
    simp only [List.foldl_cons, List.foldl_nil, SPSCQueue.growStep, SPSCQueue.modify]
    by_cases h : a = base + k
    · subst h
      rw [if_pos rfl, ih, if_neg (by omega), if_pos (by omega)]
      rfl
    · rw [if_neg h, ih]
      by_cases h2 : base ≤ a ∧ a < base + k
      · rw [if_pos h2, if_pos ⟨h2.1, by omega⟩]
      · rw [if_neg h2, if_neg (by omega)]

theorem ctor_loop (k : Nat) (s0 : SPSCQueue) (h : s0.m_write = s0.m_head) :
    (List.range k).foldl SPSCQueue.ctorStep s0
      = { s0 with
            m_write := s0.m_head + k,
            mem := fun a => if s0.m_head ≤ a ∧ a < s0.m_head + k
                      then { s0.mem a with m_next := a + 1 } else s0.mem a } := by
  induction k with
  | zero =>
    have : (fun a => if s0.m_head ≤ a ∧ a < s0.m_head + 0
                      then { s0.mem a with m_next := a + 1 } else s0.mem a) = s0.mem := by
      funext a
      rw [if_neg (by omega)]
    rw [this]
    cases s0
    simp at h
    simp [h]
  | succ k ih =>
    rw [List.range_succ, List.foldl_append, ih]
    simp only [List.foldl_cons, List.foldl_nil, SPSCQueue.ctorStep]
    congr 1
    · funext a
      simp only [SPSCQueue.modify]
      by_cases h1 : a = s0.m_head + k
      · subst h1
        rw [if_pos rfl, if_neg (by omega), if_pos (by omega)]
        rfl
      · rw [if_neg h1]
        by_cases h2 : s0.m_head ≤ a ∧ a < s0.m_head + k
        · rw [if_pos h2, if_pos ⟨h2.1, by omega⟩]
        · rw [if_neg h2, if_neg (by omega)]
    · simp only [SPSCQueue.modify, if_pos]

theorem new_fields (c : Nat) (ag : Bool) (bt : Int) :
    (SPSCQueue.new c ag bt).m_read = 1 ∧ (SPSCQueue.new c ag bt).m_write = 1 ∧
    (SPSCQueue.new c ag bt).m_size = c ∧ (SPSCQueue.new c ag bt).brk = 1 + c ∧
    (SPSCQueue.new c ag bt).m_num_grows = 0 ∧ (SPSCQueue.new c ag bt).m_autogrow = ag ∧
    (SPSCQueue.new c ag bt).m_busytries = bt := by
  simp [SPSCQueue.new, ctor_loop]

theorem new_mem (c : Nat) (ag : Bool) (bt : Int) (hc : 1 ≤ c) :
    (∀ a, ((SPSCQueue.new c ag bt).mem a).m_ready = false) ∧
    (∀ a, 1 ≤ a → a < c → ((SPSCQueue.new c ag bt).mem a).m_next = a + 1) ∧
    ((SPSCQueue.new c ag bt).mem c).m_next = 1 := by
  simp only [SPSCQueue.new, SPSCQueue.newNodes, ctor_loop, SPSCQueue.modify]
  have e : 1 + (c - 1) = c := by omega
  simp only [e]
  refine ⟨?_, ?_, ?_⟩
  · intro a
    by_cases h1 : a = c
    · simp [h1]
    · simp only [h1, if_false]
      split <;> split <;> rfl
  · intro a h1 h2
    have h3 : a ≠ c := by omega
    simp [h3, h1, h2]
  · simp

theorem cons_range' (b n : Nat) : b :: List.range' (b + 1) n = List.range' b (n + 1) := rfl

theorem inv_new (c : Nat) (ag : Bool) (bt : Int) (hc : 1 ≤ c) :
    Inv (SPSCQueue.new c ag bt) [] (List.range' 2 (c - 1)) := by
  obtain ⟨hr, hw, hs, hb, -, -, -⟩ := new_fields c ag bt
  obtain ⟨hrdy, hnext, hlast⟩ := new_mem c ag bt hc
  refine ⟨?_, ?_, ?_, ?_, ?_, ?_, ?_, ?_, ?_⟩
  · rw [hr, hw]; rfl
  · rw [hr, hw, seg_append]
    refine ⟨1 + (c - 1), seg_block _ (c - 1) 1 (fun a h1 h2 => hnext a h1 (by omega)), ?_, rfl⟩
    rw [show 1 + (c - 1) = c by omega]
    exact hlast
  · rw [hr, List.nil_append, cons_range']
    exact List.nodup_range' _ _
  · intro a ha; simp at ha
  · intro a _; exact hrdy a
  · exact hrdy _
  · rw [hs]; simp; omega
  · intro a ha
    rw [hr, List.nil_append, cons_range', List.mem_range'_1] at ha
    rw [hb]; omega
  · rw [hb, hs]; omega

theorem grow_fields (s : SPSCQueue) :
    (SPSCQueue.grow s).m_read = s.m_read ∧ (SPSCQueue.grow s).m_write = s.m_write ∧
    (SPSCQueue.grow s).m_size = s.m_size + s.m_size ∧
    (SPSCQueue.grow s).brk = s.brk + s.m_size ∧
    (SPSCQueue.grow s).m_num_grows = s.m_num_grows + 1 ∧
    (SPSCQueue.grow s).m_autogrow = s.m_autogrow ∧
    (SPSCQueue.grow s).m_busytries = s.m_busytries :=
  ⟨rfl, rfl, rfl, rfl, rfl, rfl, rfl⟩

theorem grow_mem_val (s : SPSCQueue) (a : Nat) :
    (SPSCQueue.grow s).mem a =
      if a = s.brk + (s.m_size - 1) then
        { (if s.brk ≤ a ∧ a < s.brk + (s.m_size - 1) then
            { (if a = s.m_write then
                { (SPSCQueue.newNodes s.mem s.brk s.m_size s.m_write) with m_next := s.brk }
              else SPSCQueue.newNodes s.mem s.brk s.m_size a) with m_next := a + 1 }
          else
            (if a = s.m_write then
                { (SPSCQueue.newNodes s.mem s.brk s.m_size s.m_write) with m_next := s.brk }
              else SPSCQueue.newNodes s.mem s.brk s.m_size a)) with
          m_next := (s.mem s.m_write).m_next }
      else if s.brk ≤ a ∧ a < s.brk + (s.m_size - 1) then
        { (if a = s.m_write then
            { (SPSCQueue.newNodes s.mem s.brk s.m_size s.m_write) with m_next := s.brk }
          else SPSCQueue.newNodes s.mem s.brk s.m_size a) with m_next := a + 1 }
      else if a = s.m_write then
        { (SPSCQueue.newNodes s.mem s.brk s.m_size s.m_write) with m_next := s.brk }
      else SPSCQueue.newNodes s.mem s.brk s.m_size a := by
  simp only [SPSCQueue.grow, SPSCQueue.modify, foldl_links]
  by_cases h : a = s.brk + (s.m_size - 1)
  · subst h
    simp only [if_true]
  · simp only [h, if_false]

theorem grow_mem (s : SPSCQueue) (hw : s.m_write < s.brk) :
    (∀ a, a < s.brk → ((SPSCQueue.grow s).mem a).m_ready = (s.mem a).m_ready ∧
        ((SPSCQueue.grow s).mem a).m_data = (s.mem a).m_data) ∧
    (∀ a, a < s.brk → a ≠ s.m_write →
        ((SPSCQueue.grow s).mem a).m_next = (s.mem a).m_next) ∧
    ((SPSCQueue.grow s).mem s.m_write).m_next = s.brk ∧
    (∀ a, s.brk ≤ a → a < s.brk + (s.m_size - 1) →
        ((SPSCQueue.grow s).mem a).m_next = a + 1) ∧
    ((SPSCQueue.grow s).mem (s.brk + (s.m_size - 1))).m_next = (s.mem s.m_write).m_next ∧
    (∀ a, s.brk ≤ a → a < s.brk + s.m_size →
        ((SPSCQueue.grow s).mem a).m_ready = false) := by
  refine ⟨?_, ?_, ?_, ?_, ?_, ?_⟩
  · intro a ha
    rw [grow_mem_val, if_neg (by omega), if_neg (by omega)]
    by_cases h : a = s.m_write
    · subst h
      simp only [if_true, SPSCQueue.newNodes]
      rw [if_neg (by omega)]
      exact ⟨rfl, rfl⟩
    · simp only [h, if_false, SPSCQueue.newNodes]
      rw [if_neg (by omega)]
      exact ⟨rfl, rfl⟩
  · intro a ha h
    rw [grow_mem_val, if_neg (by omega), if_neg (by omega), if_neg h]
    simp only [SPSCQueue.newNodes]
    rw [if_neg (by omega)]
  · rw [grow_mem_val, if_neg (by omega), if_neg (by omega), if_pos rfl]
  · intro a h1 h2
    rw [grow_mem_val, if_neg (by omega), if_pos ⟨h1, h2⟩]
  · rw [grow_mem_val, if_pos rfl]
  · intro a h1 h2
    have hne : a ≠ s.m_write := by omega
    have hnew : SPSCQueue.newNodes s.mem s.brk s.m_size a = {} := by
      simp only [SPSCQueue.newNodes]
      rw [if_pos ⟨h1, h2⟩]
    rw [grow_mem_val]
    simp only [hne, if_false, hnew]
    split
    · split <;> rfl
    · split <;> rfl

theorem inv_grow (s : SPSCQueue) (pend : List Nat) (h : Inv s pend []) :
    Inv (SPSCQueue.grow s) pend (List.range' s.brk s.m_size) ∧
    items (SPSCQueue.grow s) pend = items s pend := by
  obtain ⟨hr, hw, hs, hb, -, -, -⟩ := grow_fields s
  have hwmem : s.m_write ∈ s.m_read :: pend := seg_mem_end _ _ _ _ h.seg_pend
  have hwb : s.m_write < s.brk :=
    (h.alloc _ (by simpa using hwmem)).2
  obtain ⟨hrd, hnx, hnw, hblk, hlast, hnewrdy⟩ := grow_mem s hwb
  have hlen : pend.length + 1 = s.m_size := by simpa using h.len
  have hnd : (s.m_read :: pend).Nodup := by simpa using h.nodup
  have hlt : ∀ a ∈ s.m_read :: pend, a < s.brk := fun a ha =>
    (h.alloc a (by simpa using ha)).2
  have hp : (s.mem s.m_write).m_next = s.m_read := h.seg_free.1
  refine ⟨⟨?_, ?_, ?_, ?_, ?_, ?_, ?_, ?_, ?_⟩, ?_⟩
  · rw [hr, hw]
    exact seg_congr _ _ _ _ _ hnd (fun x hx hxb => hnx x (hlt x hx) hxb) h.seg_pend
  · rw [hr, hw]
    obtain ⟨m, hm⟩ : ∃ m, s.m_size = m + 1 := ⟨s.m_size - 1, by omega⟩
    rw [hm, ← cons_range', List.cons_append]
    refine ⟨hnw, ?_⟩
    rw [seg_append]
    refine ⟨s.brk + m, seg_block _ m s.brk (fun a h1 h2 => hblk a h1 (by omega)), ?_, rfl⟩
    have := hlast
    rw [hm, Nat.add_sub_cancel, hp] at this
    exact this
  · rw [hr, ← List.cons_append]
    refine List.Nodup.append hnd (List.nodup_range' _ _) ?_
    intro a ha1 ha2
    have := hlt a ha1
    rw [List.mem_range'_1] at ha2
    omega
  · intro a ha
    rw [(hrd a (hlt a (List.mem_cons_of_mem _ ha))).1]
    exact h.ready_pend a ha
  · intro a ha
    rw [List.mem_range'_1] at ha
    exact hnewrdy a ha.1 ha.2
  · rw [hr, (hrd _ (hlt _ (List.mem_cons_self _ _))).1]
    exact h.ready_read
  · rw [hs]
    simp
    omega
  · intro a ha
    rw [hr, ← List.cons_append, List.mem_append, List.mem_range'_1] at ha
    rw [hb]
    rcases ha with ha | ha
    · have := h.alloc a (by simpa using ha)
      omega
    · have := h.brk_eq
      omega
  · rw [hb, hs, h.brk_eq]
    omega
  · unfold items
    apply List.map_congr_left
    intro a ha
    exact (hrd a (hlt a (List.mem_cons_of_mem _ ha))).2

theorem write_fields (s : SPSCQueue) (x : Nat) :
    (SPSCQueue.writeDone (SPSCQueue.write s x)).m_read = s.m_read ∧
    (SPSCQueue.writeDone (SPSCQueue.write s x)).m_write = (s.mem s.m_write).m_next ∧
    (SPSCQueue.writeDone (SPSCQueue.write s x)).m_size = s.m_size ∧
    (SPSCQueue.writeDone (SPSCQueue.write s x)).brk = s.brk ∧
    (SPSCQueue.writeDone (SPSCQueue.write s x)).m_num_grows = s.m_num_grows ∧
    (SPSCQueue.writeDone (SPSCQueue.write s x)).m_autogrow = s.m_autogrow ∧
    (SPSCQueue.writeDone (SPSCQueue.write s x)).m_busytries = s.m_busytries :=
  ⟨rfl, rfl, rfl, rfl, rfl, rfl, rfl⟩

theorem write_mem (s : SPSCQueue) (x : Nat) :
    (∀ a, ((SPSCQueue.writeDone (SPSCQueue.write s x)).mem a).m_next = (s.mem a).m_next) ∧
    (∀ a, a ≠ (s.mem s.m_write).m_next →
      (SPSCQueue.writeDone (SPSCQueue.write s x)).mem a = s.mem a) ∧
    ((SPSCQueue.writeDone (SPSCQueue.write s x)).mem (s.mem s.m_write).m_next).m_ready = true ∧
    ((SPSCQueue.writeDone (SPSCQueue.write s x)).mem (s.mem s.m_write).m_next).m_data = x := by
  simp only [SPSCQueue.writeDone, SPSCQueue.write, SPSCQueue.modify]
  refine ⟨?_, ?_, ?_, ?_⟩
  · intro a
    by_cases h : a = (s.mem s.m_write).m_next
    · simp [h]
    · simp [h]
  · intro a h
    simp [h]
  · simp
  · simp

theorem read_fields (s : SPSCQueue) :
    (SPSCQueue.readDone (SPSCQueue.read s).1).m_read = (s.mem s.m_read).m_next ∧
    (SPSCQueue.readDone (SPSCQueue.read s).1).m_write = s.m_write ∧
    (SPSCQueue.readDone (SPSCQueue.read s).1).m_size = s.m_size ∧
    (SPSCQueue.readDone (SPSCQueue.read s).1).brk = s.brk ∧
    (SPSCQueue.readDone (SPSCQueue.read s).1).m_num_grows = s.m_num_grows ∧
    (SPSCQueue.readDone (SPSCQueue.read s).1).m_autogrow = s.m_autogrow ∧
    (SPSCQueue.readDone (SPSCQueue.read s).1).m_busytries = s.m_busytries ∧
    (SPSCQueue.read s).2 = (s.mem (s.mem s.m_read).m_next).m_data :=
  ⟨rfl, rfl, rfl, rfl, rfl, rfl, rfl, rfl⟩

theorem read_mem (s : SPSCQueue) :
    (∀ a, ((SPSCQueue.readDone (SPSCQueue.read s).1).mem a).m_next = (s.mem a).m_next) ∧
    (∀ a, ((SPSCQueue.readDone (SPSCQueue.read s).1).mem a).m_data = (s.mem a).m_data) ∧
    (∀ a, a ≠ (s.mem s.m_read).m_next →
      (SPSCQueue.readDone (SPSCQueue.read s).1).mem a = s.mem a) ∧
    ((SPSCQueue.readDone (SPSCQueue.read s).1).mem (s.mem s.m_read).m_next).m_ready = false := by
  simp only [SPSCQueue.readDone, SPSCQueue.read, SPSCQueue.modify]
  refine ⟨?_, ?_, ?_, ?_⟩
  · intro a
    by_cases h : a = (s.mem s.m_read).m_next
    · simp [h]
    · simp [h]
  · intro a
    by_cases h : a = (s.mem s.m_read).m_next
    · simp [h]
    · simp [h]
  · intro a h
    simp [h]
  · simp

theorem inv_write (s : SPSCQueue) (pend free : List Nat) (f x : Nat)
    (h : Inv s pend (f :: free)) :
    Inv (SPSCQueue.writeDone (SPSCQueue.write s x)) (pend ++ [f]) free ∧
    items (SPSCQueue.writeDone (SPSCQueue.write s x)) (pend ++ [f]) = items s pend ++ [x] := by
  obtain ⟨hr, hw, hs, hb, -, -, -⟩ := write_fields s x
  obtain ⟨hnx, hsame, hrdy, hdat⟩ := write_mem s x
  have hf : (s.mem s.m_write).m_next = f := h.seg_free.1
  rw [hf] at hw hsame hrdy hdat
  have hnd : (s.m_read :: (pend ++ f :: free)).Nodup := h.nodup
  have hnd2 : (f :: (s.m_read :: (pend ++ free))).Nodup :=
    (List.perm_middle :
      List.Perm ((s.m_read :: pend) ++ f :: free) (f :: ((s.m_read :: pend) ++ free))).nodup_iff.1 hnd
  have hfn : f ∉ s.m_read :: (pend ++ free) := (List.nodup_cons.1 hnd2).1
  have hne : ∀ a ∈ s.m_read :: (pend ++ free), a ≠ f := fun a ha e => hfn (e ▸ ha)
  refine ⟨⟨?_, ?_, ?_, ?_, ?_, ?_, ?_, ?_, ?_⟩, ?_⟩
  · rw [hr, hw, seg_append]
    exact ⟨s.m_write, seg_congr_all _ _ _ _ _ hnx h.seg_pend, by rw [hnx]; exact hf, rfl⟩
  · rw [hr, hw]
    exact seg_congr_all _ _ _ _ _ hnx h.seg_free.2
  · rw [hr]
    have e : s.m_read :: (pend ++ [f] ++ free) = s.m_read :: (pend ++ f :: free) := by simp
    rw [e]
    exact hnd
  · intro a ha
    rcases List.mem_append.1 ha with ha | ha
    · rw [hsame a (hne a (by simp [ha]))]
      exact h.ready_pend a ha
    · rw [List.mem_singleton.1 ha]
      exact hrdy
  · intro a ha
    rw [hsame a (hne a (by simp [ha]))]
    exact h.ready_free a (List.mem_cons_of_mem _ ha)
  · rw [hr, hsame _ (hne _ (List.mem_cons_self _ _))]
    exact h.ready_read
  · rw [hs, ← h.len]
    simp
  · intro a ha
    rw [hb]
    exact h.alloc a (by simp at ha ⊢; tauto)
  · rw [hb, hs]
    exact h.brk_eq
  · unfold items
    rw [List.map_append, List.map_singleton, hdat]
    congr 1
    apply List.map_congr_left
    intro a ha
    rw [hsame a (hne a (by simp [ha]))]

theorem inv_read (s : SPSCQueue) (pend free : List Nat) (p : Nat)
    (h : Inv s (p :: pend) free) :
    Inv (SPSCQueue.readDone (SPSCQueue.read s).1) pend (free ++ [s.m_read]) ∧
    items (SPSCQueue.readDone (SPSCQueue.read s).1) pend = items s pend ∧
    (SPSCQueue.read s).2 = (s.mem p).m_data := by
  obtain ⟨hr, hw, hs, hb, -, -, -, hobj⟩ := read_fields s
  obtain ⟨hnx, hdata, hsame, hrdy⟩ := read_mem s
  have hp : (s.mem s.m_read).m_next = p := h.seg_pend.1
  rw [hp] at hr hsame hrdy hobj
  have hnd : (s.m_read :: (p :: pend ++ free)).Nodup := h.nodup
  have hnd2 : (p :: (s.m_read :: (pend ++ free))).Nodup :=
    (List.Perm.swap p s.m_read (pend ++ free)).nodup_iff.1 (by simpa using hnd)
  have hpn : p ∉ s.m_read :: (pend ++ free) := (List.nodup_cons.1 hnd2).1
  have hne : ∀ a ∈ s.m_read :: (pend ++ free), a ≠ p := fun a ha e => hpn (e ▸ ha)
  refine ⟨⟨?_, ?_, ?_, ?_, ?_, ?_, ?_, ?_, ?_⟩, ?_, hobj⟩
  · rw [hr, hw]
    exact seg_congr_all _ _ _ _ _ hnx h.seg_pend.2
  · rw [hr, hw, seg_append]
    exact ⟨s.m_read, seg_congr_all _ _ _ _ _ hnx h.seg_free, by rw [hnx]; exact hp, rfl⟩
  · rw [hr]
    have e : p :: (pend ++ (free ++ [s.m_read])) = (p :: (pend ++ free)) ++ [s.m_read] := by simp
    rw [e]
    exact (List.perm_append_singleton s.m_read (p :: (pend ++ free))).nodup_iff.2
      (by simpa using hnd)
  · intro a ha
    rw [hsame a (hne a (by simp [ha]))]
    exact h.ready_pend a (List.mem_cons_of_mem _ ha)
  · intro a ha
    rcases List.mem_append.1 ha with ha | ha
    · rw [hsame a (hne a (by simp [ha]))]
      exact h.ready_free a ha
    · rw [List.mem_singleton.1 ha, hsame _ (hne _ (List.mem_cons_self _ _))]
      exact h.ready_read
  · rw [hr]
    exact hrdy
  · rw [hs, ← h.len]
    simp
    omega
  · intro a ha
    rw [hb]
    rw [hr] at ha
    exact h.alloc a (by simp at ha ⊢; tauto)
  · rw [hb, hs]
    exact h.brk_eq
  · unfold items
    apply List.map_congr_left
    intro a _
    rw [hdata a]

/-! ## What one call does to a well-formed ring -/

theorem push_spec (s : SPSCQueue) (pend free : List Nat) (x : Nat) (h : Inv s pend free) :
    ∃ pend2 free2, Inv (s.push x).2 pend2 free2 ∧
      items (s.push x).2 pend2 = items s pend ++ (if (s.push x).1 then [x] else []) ∧
      pend2.length = pend.length + (if (s.push x).1 then 1 else 0) ∧
      (s.push x).1 = (!free.isEmpty || s.m_autogrow) ∧
      ((s.push x).1 = false → (s.push x).2 = s) ∧
      (s.push x).2.m_autogrow = s.m_autogrow ∧
      (s.push x).2.m_busytries = s.m_busytries := by
  cases free with
  | nil =>
    have hfull : (s.mem s.m_write).m_next = s.m_read := h.seg_free.1
    by_cases hag : s.m_autogrow = true
    · have hp : s.push x = (true, SPSCQueue.writeDone (SPSCQueue.write (SPSCQueue.grow s) x)) := by
        simp [SPSCQueue.push, hfull, hag]
      obtain ⟨hg, hgi⟩ := inv_grow s pend h
      have hlen : pend.length + 1 = s.m_size := by simpa using h.len
      obtain ⟨m, hm⟩ : ∃ m, s.m_size = m + 1 := ⟨s.m_size - 1, by omega⟩
      rw [hm, ← cons_range'] at hg
      obtain ⟨h2, h2i⟩ := inv_write _ pend _ s.brk x hg
      refine ⟨pend ++ [s.brk], List.range' (s.brk + 1) m, ?_, ?_, ?_, ?_, ?_, ?_, ?_⟩
      · rw [hp]; exact h2
      · rw [hp]; simp only [if_true]; rw [h2i, hgi]
      · rw [hp]; simp
      · rw [hp]; simp [hag]
      · rw [hp]; simp
      · rw [hp]; rfl
      · rw [hp]; rfl
    · have hag2 : s.m_autogrow = false := by simpa using hag
      have hp : s.push x = (false, s) := by
        simp [SPSCQueue.push, hfull, hag2]
      refine ⟨pend, [], ?_, ?_, ?_, ?_, ?_, ?_, ?_⟩
      · rw [hp]; exact h
      · rw [hp]; simp
      · rw [hp]; simp
      · rw [hp]; simp [hag2]
      · rw [hp]; simp
      · rw [hp]
      · rw [hp]
  | cons f free =>
    have hf : (s.mem s.m_write).m_next = f := h.seg_free.1
    have hne : f ≠ s.m_read := by
      have := (List.nodup_cons.1 h.nodup).1
      intro e
      apply this
      rw [← e]
      simp
    have hp : s.push x = (true, SPSCQueue.writeDone (SPSCQueue.write s x)) := by
      simp [SPSCQueue.push, hf, hne]
    obtain ⟨h2, h2i⟩ := inv_write s pend free f x h
    refine ⟨pend ++ [f], free, ?_, ?_, ?_, ?_, ?_, ?_, ?_⟩
    · rw [hp]; exact h2
    · rw [hp]; simp only [if_true]; rw [h2i]
    · rw [hp]; simp
    · rw [hp]; simp
    · rw [hp]; simp
    · rw [hp]; rfl
    · rw [hp]; rfl

theorem pop_empty (s : SPSCQueue) (free : List Nat) (h : Inv s [] free)
    (hb0 : 0 ≤ s.m_busytries) (hb1 : s.m_busytries ≤ 1) (fuel out : Nat) :
    s.pop (fuel + 1) out = some (false, out, s) := by
  have hw : s.m_read = s.m_write := h.seg_pend
  have hrdy : (s.mem (s.mem s.m_read).m_next).m_ready = false := by
    cases free with
    | nil =>
      have : (s.mem s.m_write).m_next = s.m_read := h.seg_free.1
      rw [hw, this]
      exact h.ready_read
    | cons f free =>
      have : (s.mem s.m_write).m_next = f := h.seg_free.1
      rw [hw, this]
      exact h.ready_free f (List.mem_cons_self _ _)
  unfold SPSCQueue.pop SPSCQueue.popLoop
  rw [if_pos hrdy, if_neg (by omega), if_neg (by omega)]

theorem pop_nonempty (s : SPSCQueue) (pend free : List Nat) (p : Nat)
    (h : Inv s (p :: pend) free) (fuel out : Nat) :
    s.pop (fuel + 1) out
      = some (true, (s.mem p).m_data, SPSCQueue.readDone (SPSCQueue.read s).1) := by
  have hp : (s.mem s.m_read).m_next = p := h.seg_pend.1
  have hrdy : (s.mem (s.mem s.m_read).m_next).m_ready = true := by
    rw [hp]
    exact h.ready_pend p (List.mem_cons_self _ _)
  unfold SPSCQueue.pop SPSCQueue.popLoop
  rw [if_neg (by simp [hrdy])]
  have := (inv_read s pend free p h).2.2
  simp only [← this]

theorem pushedItems_pushed (x : Nat) (ok g : Bool) (evs : List Ev) :
    pushedItems (Ev.pushed x ok g :: evs) = (if ok then [x] else []) ++ pushedItems evs := by
  cases ok <;> rfl

theorem pushedItems_popped (ok : Bool) (x : Nat) (evs : List Ev) :
    pushedItems (Ev.popped ok x :: evs) = pushedItems evs := rfl

theorem poppedItems_pushed (x : Nat) (ok g : Bool) (evs : List Ev) :
    poppedItems (Ev.pushed x ok g :: evs) = poppedItems evs := rfl

theorem poppedItems_popped (ok : Bool) (x : Nat) (evs : List Ev) :
    poppedItems (Ev.popped ok x :: evs) = (if ok then [x] else []) ++ poppedItems evs := by
  cases ok <;> rfl

theorem growCount_pushed (x : Nat) (ok g : Bool) (evs : List Ev) :
    growCount (Ev.pushed x ok g :: evs) = growCount evs + (if g then 1 else 0) := by
  cases g <;> rfl

theorem growCount_popped (ok : Bool) (x : Nat) (evs : List Ev) :
    growCount (Ev.popped ok x :: evs) = growCount evs := rfl

theorem runOps_push (fuel : Nat) (s : SPSCQueue) (x : Nat) (ops : List Op)
    (s2 : SPSCQueue) (evs : List Ev) (h : runOps fuel (s.push x).2 ops = some (s2, evs)) :
    runOps fuel s (Op.push x :: ops)
      = some (s2, Ev.pushed x (s.push x).1 s.growsOnPush :: evs) := by
  simp only [runOps, h]

theorem runOps_pop (fuel : Nat) (s : SPSCQueue) (out : Nat) (ops : List Op)
    (ok : Bool) (obj : Nat) (s1 s2 : SPSCQueue) (evs : List Ev)
    (h1 : s.pop fuel out = some (ok, obj, s1))
    (h : runOps fuel s1 ops = some (s2, evs)) :
    runOps fuel s (Op.pop out :: ops) = some (s2, Ev.popped ok obj :: evs) := by
  simp only [runOps, h1, h]

/-- Running calls on a well-formed ring whose `pop` does not wait: every call returns, the ring
stays well formed, and the items still stored are the pushed ones minus the popped ones. -/
theorem run_spec (fuel : Nat) (ops : List Op) :
    ∀ (s : SPSCQueue) (pend free : List Nat), Inv s pend free →
      0 ≤ s.m_busytries → s.m_busytries ≤ 1 →
      ∃ s2 evs pend2 free2, runOps (fuel + 1) s ops = some (s2, evs) ∧ Inv s2 pend2 free2 ∧
        items s pend ++ pushedItems evs = poppedItems evs ++ items s2 pend2 ∧
        pend.length + (pushedItems evs).length = (poppedItems evs).length + pend2.length ∧
        s2.m_busytries = s.m_busytries ∧ s2.m_autogrow = s.m_autogrow ∧
        (s.m_autogrow = true → allPushesOk evs = true ∧ pushedItems evs = pushArgs ops) := by
  induction ops with
  | nil =>
    intro s pend free h _ _
    exact ⟨s, [], pend, free, rfl, h, by simp [pushedItems, poppedItems],
      by simp [pushedItems, poppedItems], rfl, rfl, fun _ => ⟨rfl, rfl⟩⟩
  | cons op ops ih =>
    intro s pend free h hb0 hb1
    cases op with
    | push x =>
      obtain ⟨pend1, free1, h1, hi1, hl1, hok, -, hag1, hbt1⟩ := push_spec s pend free x h
      obtain ⟨s2, evs, pend2, free2, hrun, h2, hi2, hl2, hbt2, hag2, hall⟩ :=
        ih _ pend1 free1 h1 (by rw [hbt1]; exact hb0) (by rw [hbt1]; exact hb1)
      refine ⟨s2, _, pend2, free2, runOps_push _ _ _ _ _ _ hrun, h2, ?_, ?_, ?_, ?_, ?_⟩
      · rw [pushedItems_pushed, poppedItems_pushed, ← List.append_assoc, ← hi1, hi2]
      · rw [pushedItems_pushed, poppedItems_pushed, List.length_append, ← hl2, hl1]
        split
        · simp
          omega
        · simp
      · rw [hbt2, hbt1]
      · rw [hag2, hag1]
      · intro hag
        have hok1 : (s.push x).1 = true := by rw [hok, hag]; simp
        obtain ⟨ha, hb⟩ := hall (by rw [hag1]; exact hag)
        refine ⟨?_, ?_⟩
        · simp [allPushesOk, hok1, ha]
        · rw [pushedItems_pushed, hok1, hb]
          rfl
    | pop out =>
      cases pend with
      | nil =>
        have hpop := pop_empty s free h hb0 hb1 fuel out
        obtain ⟨s2, evs, pend2, free2, hrun, h2, hi2, hl2, hbt2, hag2, hall⟩ :=
          ih s [] free h hb0 hb1
        refine ⟨s2, _, pend2, free2, runOps_pop _ _ _ _ _ _ _ _ _ hpop hrun, h2, ?_, ?_,
          hbt2, hag2, ?_⟩
        · rw [pushedItems_popped, poppedItems_popped]
          simpa using hi2
        · rw [pushedItems_popped, poppedItems_popped]
          simpa using hl2
        · intro hag
          exact hall hag
      | cons p pend =>
        have hpop := pop_nonempty s pend free p h fuel out
        obtain ⟨h1, hi1, -⟩ := inv_read s pend free p h
        obtain ⟨-, -, -, -, -, hag1, hbt1, -⟩ := read_fields s
        obtain ⟨s2, evs, pend2, free2, hrun, h2, hi2, hl2, hbt2, hag2, hall⟩ :=
          ih _ pend _ h1 (by rw [hbt1]; exact hb0) (by rw [hbt1]; exact hb1)
        refine ⟨s2, _, pend2, free2, runOps_pop _ _ _ _ _ _ _ _ _ hpop hrun, h2, ?_, ?_, ?_, ?_, ?_⟩
        · rw [pushedItems_popped, poppedItems_popped]
          rw [hi1] at hi2
          simp only [items, List.map_cons, if_true, List.cons_append, List.nil_append] at hi2 ⊢
          rw [hi2]
        · rw [pushedItems_popped, poppedItems_popped]
          simp only [if_true, List.length_cons, List.length_append, List.length_nil]
          omega
        · rw [hbt2, hbt1]
        · rw [hag2, hag1]
        · intro hag
          exact hall (by rw [hag1]; exact hag)

theorem drain_spec (fuel : Nat) (pend : List Nat) :
    ∀ (s : SPSCQueue) (free : List Nat), Inv s pend free →
      0 ≤ s.m_busytries → s.m_busytries ≤ 1 →
      ∃ s2, runOps (fuel + 1) s (List.replicate (pend.length + 1) (Op.pop 0))
        = some (s2, (items s pend).map (Ev.popped true) ++ [Ev.popped false 0]) := by
  induction pend with
  | nil =>
    intro s free h hb0 hb1
    exact ⟨s, runOps_pop _ _ _ _ _ _ _ _ _ (pop_empty s free h hb0 hb1 fuel 0) rfl⟩
  | cons p pend ih =>
    intro s free h hb0 hb1
    have hpop := pop_nonempty s pend free p h fuel 0
    obtain ⟨h1, hi1, -⟩ := inv_read s pend free p h
    obtain ⟨-, -, -, -, -, -, hbt1, -⟩ := read_fields s
    obtain ⟨s2, hrun⟩ := ih _ _ h1 (by rw [hbt1]; exact hb0) (by rw [hbt1]; exact hb1)
    refine ⟨s2, ?_⟩
    rw [hi1] at hrun
    exact runOps_pop _ _ _ _ _ _ _ _ _ hpop hrun

theorem pending_walk (s : SPSCQueue) (l : List Nat) :
    ∀ (a c fuel : Nat), Seg s.mem a l s.m_write → (a :: l).Nodup → l.length < fuel →
      SPSCQueue.pendingLoop s fuel a c = some (c + l.length) := by
  induction l with
  | nil =>
    intro a c fuel h _ hf
    obtain ⟨k, rfl⟩ : ∃ k, fuel = k + 1 := ⟨fuel - 1, by simp at hf; omega⟩
    have ha : a = s.m_write := h
    simp [SPSCQueue.pendingLoop, ha]
  | cons x l ih =>
    intro a c fuel h hnd hf
    obtain ⟨k, rfl⟩ : ∃ k, fuel = k + 1 := ⟨fuel - 1, by simp at hf; omega⟩
    have hw : s.m_write ∈ x :: l := seg_mem_end _ _ _ _ h.2
    have hne : a ≠ s.m_write := by
      rintro rfl
      exact (List.nodup_cons.1 hnd).1 hw
    unfold SPSCQueue.pendingLoop
    rw [if_pos hne, h.1, ih x (c + 1) k h.2 (List.nodup_cons.1 hnd).2 (by simp at hf; omega)]
    simp
    omega

theorem pending_inv (s : SPSCQueue) (pend free : List Nat) (h : Inv s pend free)
    (fuel : Nat) (hf : pend.length < fuel) : s.pending fuel = some pend.length := by
  have hnd : (s.m_read :: pend).Nodup := by
    have := h.nodup
    rw [← List.cons_append] at this
    exact (List.nodup_append.1 this).1
  have := pending_walk s pend s.m_read 0 fuel h.seg_pend hnd hf
  simpa [SPSCQueue.pending] using this

theorem popLoop_spin (s : SPSCQueue)
    (hrdy : (s.mem (s.mem s.m_read).m_next).m_ready = false)
    (hbt : s.m_busytries < 0 ∨ 1 < s.m_busytries) :
    ∀ (fuel obj : Nat) (i : Int), SPSCQueue.popLoop fuel s obj i = none := by
  intro fuel
  induction fuel with
  | zero => intro obj i; rfl
  | succ k ih =>
    intro obj i
    unfold SPSCQueue.popLoop
    rw [if_pos hrdy]
    rcases hbt with hbt | hbt
    · rw [if_pos hbt]
      exact ih obj i
    · rw [if_neg (by omega), if_pos (by omega)]
      exact ih obj (i + 1)

theorem popLoop_fields (fuel : Nat) :
    ∀ (s : SPSCQueue) (obj : Nat) (i : Int) (ok : Bool) (o : Nat) (s1 : SPSCQueue),
      SPSCQueue.popLoop fuel s obj i = some (ok, o, s1) →
      s1.m_size = s.m_size ∧ s1.m_num_grows = s.m_num_grows := by
  induction fuel with
  | zero => intro s obj i ok o s1 h; simp [SPSCQueue.popLoop] at h
  | succ k ih =>
    intro s obj i ok o s1 h
    unfold SPSCQueue.popLoop at h
    split at h
    · split at h
      · exact ih _ _ _ _ _ _ h
      · split at h
        · exact ih _ _ _ _ _ _ h
        · simp at h
          obtain ⟨-, -, rfl⟩ := h
          exact ⟨rfl, rfl⟩
    · simp at h
      obtain ⟨-, -, rfl⟩ := h
      exact ⟨rfl, rfl⟩

theorem push_fields (s : SPSCQueue) (x : Nat) :
    (s.push x).2.m_size = s.m_size * 2 ^ (if s.growsOnPush then 1 else 0) ∧
    (s.push x).2.m_num_grows = s.m_num_grows + (if s.growsOnPush then 1 else 0) := by
  unfold SPSCQueue.push SPSCQueue.growsOnPush
  by_cases h1 : (s.mem s.m_write).m_next = s.m_read
  · by_cases h2 : s.m_autogrow = true
    · simp only [h1, h2, if_true, decide_True, Bool.and_self]
      refine ⟨?_, rfl⟩
      show s.m_size + s.m_size = _
      omega
    · simp [h1, h2]
  · simp only [h1, if_false, decide_False, Bool.false_and]
    refine ⟨?_, rfl⟩
    show s.m_size = _
    simp

theorem run_growth (fuel : Nat) (ops : List Op) :
    ∀ (s s2 : SPSCQueue) (evs : List Ev), runOps fuel s ops = some (s2, evs) →
      s2.m_size = s.m_size * 2 ^ growCount evs ∧
      s2.m_num_grows = s.m_num_grows + growCount evs := by
  induction ops with
  | nil =>
    intro s s2 evs h
    simp only [runOps, Option.some.injEq, Prod.mk.injEq] at h
    obtain ⟨rfl, rfl⟩ := h
    simp [growCount]
  | cons op ops ih =>
    intro s s2 evs h
    cases op with
    | push x =>
      simp only [runOps] at h
      cases hr : runOps fuel (s.push x).2 ops with
      | none => rw [hr] at h; simp at h
      | some r =>
        obtain ⟨s3, evs3⟩ := r
        rw [hr] at h
        simp only [Option.some.injEq, Prod.mk.injEq] at h
        obtain ⟨rfl, rfl⟩ := h
        obtain ⟨h1, h2⟩ := ih _ _ _ hr
        obtain ⟨h3, h4⟩ := push_fields s x
        rw [growCount_pushed, h1, h2, h3, h4]
        refine ⟨?_, by omega⟩
        rw [mul_assoc, ← pow_add, add_comm]
    | pop out =>
      simp only [runOps] at h
      cases hp : s.pop fuel out with
      | none => rw [hp] at h; simp at h
      | some r1 =>
        obtain ⟨ok, obj, s1⟩ := r1
        rw [hp] at h
        simp only at h
        cases hr : runOps fuel s1 ops with
        | none => rw [hr] at h; simp at h
        | some r =>
          obtain ⟨s3, evs3⟩ := r
          rw [hr] at h
          simp only [Option.some.injEq, Prod.mk.injEq] at h
          obtain ⟨rfl, rfl⟩ := h
          obtain ⟨h1, h2⟩ := ih _ _ _ hr
          obtain ⟨h3, h4⟩ := popLoop_fields _ _ _ _ _ _ _ hp
          rw [growCount_popped, h1, h2, h3, h4]
          exact ⟨rfl, rfl⟩

theorem taskCalls_append (a b : List Call) : taskCalls (a ++ b) = taskCalls a ++ taskCalls b := by
  induction a with
  | nil => rfl
  | cons x a ih =>
    cases x <;> simp [taskCalls, ih]

theorem taskCalls_setup (l : List Nat) : taskCalls (l.map Call.setup) = [] := by
  induction l with
  | nil => rfl
  | cons x l ih => simpa [taskCalls] using ih

theorem taskCalls_task (l : List Nat) : taskCalls (l.map Call.task) = l := by
  induction l with
  | nil => rfl
  | cons x l ih => simp [taskCalls, ih]

theorem taskCalls_prologue (env : Env) (t : Thread) :
    taskCalls ((if t.cpu_ ≥ 0 then (Thread.set_affinity env t).2 else []) ++
      (if t.sched_policy_ > 0 ∧ t.priority_ ≥ 0
        then (Thread.set_sched_policy env t t.sched_policy_ t.priority_).2 else (t, [])).2) = [] := by
  rw [taskCalls_append]
  have h1 : taskCalls (if t.cpu_ ≥ 0 then (Thread.set_affinity env t).2 else []) = [] := by
    unfold Thread.set_affinity
    split
    · split <;> rfl
    · rfl
  have h2 : taskCalls (if t.sched_policy_ > 0 ∧ t.priority_ ≥ 0
        then (Thread.set_sched_policy env t t.sched_policy_ t.priority_).2 else (t, [])).2 = [] := by
    unfold Thread.set_sched_policy
    split <;> rfl
  rw [h1, h2]
  rfl

theorem prologue_thread (env : Env) (t : Thread) :
    (if t.sched_policy_ > 0 ∧ t.priority_ ≥ 0
        then (Thread.set_sched_policy env t t.sched_policy_ t.priority_).2 else (t, [])).1.stop_
      = t.stop_ ∧
    (if t.sched_policy_ > 0 ∧ t.priority_ ≥ 0
        then (Thread.set_sched_policy env t t.sched_policy_ t.priority_).2 else (t, [])).1.tasks_
      = t.tasks_ ∧
    (if t.sched_policy_ > 0 ∧ t.priority_ ≥ 0
        then (Thread.set_sched_policy env t t.sched_policy_ t.priority_).2
        else (t, [])).1.setup_tasks_
      = t.setup_tasks_ := by
  unfold Thread.set_sched_policy
  split
  · simp only
    split <;> exact ⟨rfl, rfl, rfl⟩
  · exact ⟨rfl, rfl, rfl⟩

theorem taskLoop_exits (env : Env) (fuel k : Nat) (t : Thread) (tr : List Call)
    (hs : t.stop_ = false) (he : env.stop_called k = false) :
    Thread.taskLoop env (fuel + 1) k t tr = { finished := true, thread := t, trace := tr } := by
  unfold Thread.taskLoop
  simp [he, hs]

theorem taskLoop_spins (env : Env) (fuel : Nat) :
    ∀ (k : Nat) (t : Thread) (tr : List Call), t.stop_ = true ∨ env.stop_called k = true →
      (Thread.taskLoop env fuel k t tr).finished = false ∧
      taskCalls (Thread.taskLoop env fuel k t tr).trace
        = taskCalls tr ++ (List.replicate fuel t.tasks_).flatten := by
  induction fuel with
  | zero =>
    intro k t tr _
    simp [Thread.taskLoop]
  | succ n ih =>
    intro k t tr hs
    unfold Thread.taskLoop
    by_cases he : env.stop_called k = true
    · simp only [he, if_true]
      have h1 : (Thread.stop t).stop_ = true := rfl
      rw [if_pos h1]
      obtain ⟨ha, hb⟩ := ih (k + 1) ((Thread.stop t).timeval (env.manager_time k))
        (tr ++ (Thread.stop t).tasks_.map Call.task) (Or.inl rfl)
      refine ⟨ha, ?_⟩
      rw [hb, taskCalls_append, taskCalls_task]
      simp [Thread.stop, Thread.timeval, List.replicate_succ]
    · have he2 : env.stop_called k = false := by simpa using he
      have hs2 : t.stop_ = true := hs.resolve_right he
      simp only [he2, Bool.false_eq_true, if_false]
      rw [if_pos hs2]
      obtain ⟨ha, hb⟩ := ih (k + 1) (t.timeval (env.manager_time k))
        (tr ++ t.tasks_.map Call.task) (Or.inl hs2)
      refine ⟨ha, ?_⟩
      rw [hb, taskCalls_append, taskCalls_task]
      simp [Thread.timeval, List.replicate_succ]

theorem lookup_none_ne (c : Int) (l : List (Int × Nat)) (h : l.lookup c = none) :
    ∀ e ∈ l, e.1 ≠ c := by
  induction l with
  | nil => intro e he; simp at he
  | cons x l ih =>
    obtain ⟨k, v⟩ := x
    intro e he
    by_cases hk : c = k
    · subst hk
      simp [List.lookup] at h
    · have hb : (c == k) = false := by simpa using hk
      rw [List.lookup, hb] at h
      rcases List.mem_cons.1 he with rfl | he
      · exact fun e2 => hk e2.symm
      · exact ih h e he

theorem lookup_append_new (c : Int) (v : Nat) (l : List (Int × Nat)) (h : l.lookup c = none) :
    (l ++ [(c, v)]).lookup c = some v := by
  induction l with
  | nil => simp [List.lookup]
  | cons x l ih =>
    obtain ⟨k, w⟩ := x
    by_cases hk : c = k
    · subst hk
      simp [List.lookup] at h
    · have hb : (c == k) = false := by simpa using hk
      rw [List.lookup, hb] at h
      rw [List.cons_append, List.lookup, hb]
      exact ih h

/-- The registry after a first registration for the unregistered core `c ≥ 0`. -/
theorem add_task_fresh (m : ThreadManager) (c : Int) (hc : 0 ≤ c) (hnew : m.find c = none)
    (hobj : m.nobjs ≠ 0) (now f1 f2 : Nat) (occupy : Bool) (n name : String) :
    m.add_task_to_thread now f1 f2 c occupy n name
      = Except.ok (m.nobjs, registered m c occupy name now f1 f2 n) := by
  simp only [ThreadManager.add_task_to_thread, ThreadManager.get_thread, ge_iff_le, hc,
    if_true, hnew, ne_eq, hobj, not_false_eq_true, registered, ThreadManager.newThread]

/-- A further registration on a core held by a sharing thread attaches to that thread. -/
theorem add_task_shared (m : ThreadManager) (c : Int) (hc : 0 ≤ c) (thr : Nat)
    (hfind : m.find c = some thr) (hthr : thr ≠ 0)
    (hshared : (m.objs thr).occupy_core_ = false) (now g1 g2 : Nat) (n name : String) :
    m.add_task_to_thread now g1 g2 c false n name
      = Except.ok (thr, (m.update thr (fun t => t.add_setup_task g1)).update thr
          (fun t => t.add_task g2 n)) := by
  simp only [ThreadManager.add_task_to_thread, ThreadManager.get_thread, ge_iff_le, hc,
    if_true, hfind, Thread.exclusively_occupy_core, hshared, Bool.false_eq_true, if_false,
    ne_eq, hthr, not_false_eq_true]

/-! ## The claims -/

/-- C1. FIFO delivery: on a queue built with any capacity `c ≥ 1`, autogrow enabled and
`busy_tries = 0`, every sequence of `push` and `pop` calls returns, every `push` reports success,
the items returned by the successful pops are a prefix of the items pushed, in push order, and
popping until `pop` reports empty returns the remaining items, each once and in order, and then
reports empty. -/
theorem fifo_delivery (c : Nat) (hc : 1 ≤ c) (ops : List Op) (fuel : Nat) (hf : 1 ≤ fuel) :
    ∃ s evs rest s2,
      runOps fuel (SPSCQueue.new c true 0) ops = some (s, evs) ∧
      allPushesOk evs = true ∧ pushedItems evs = pushArgs ops ∧
      poppedItems evs <+: pushArgs ops ∧
      pushArgs ops = poppedItems evs ++ rest ∧
      runOps fuel s (List.replicate (rest.length + 1) (Op.pop 0))
        = some (s2, rest.map (Ev.popped true) ++ [Ev.popped false 0]) := by
  obtain ⟨k, rfl⟩ : ∃ k, fuel = k + 1 := ⟨fuel - 1, by omega⟩
  obtain ⟨-, -, -, -, -, hag, hbt⟩ := new_fields c true 0
  obtain ⟨s, evs, pend, free, hrun, hinv, hitems, -, hbt2, -, hall⟩ :=
    run_spec k ops _ _ _ (inv_new c true 0 hc) (by rw [hbt]) (by rw [hbt]; decide)
  obtain ⟨hok, hpushed⟩ := hall hag
  have hsplit : pushArgs ops = poppedItems evs ++ items s pend := by
    rw [← hpushed, ← hitems]
    rfl
  obtain ⟨s2, hdrain⟩ := drain_spec k pend s free hinv (by rw [hbt2, hbt]) (by rw [hbt2, hbt]; decide)
  refine ⟨s, evs, items s pend, s2, hrun, hok, hpushed, ⟨items s pend, hsplit.symm⟩, hsplit, ?_⟩
  have hl : (items s pend).length = pend.length := by simp [items]
  rw [hl]
  exact hdrain

/-- Witness of C1: capacity 1, two pushes and one pop. -/
theorem fifo_delivery_witness :
    ∃ s evs rest s2,
      runOps 1 (SPSCQueue.new 1 true 0) [Op.push 10, Op.push 20, Op.pop 0] = some (s, evs) ∧
      allPushesOk evs = true ∧
      pushedItems evs = pushArgs [Op.push 10, Op.push 20, Op.pop 0] ∧
      poppedItems evs <+: pushArgs [Op.push 10, Op.push 20, Op.pop 0] ∧
      pushArgs [Op.push 10, Op.push 20, Op.pop 0] = poppedItems evs ++ rest ∧
      runOps 1 s (List.replicate (rest.length + 1) (Op.pop 0))
        = some (s2, rest.map (Ev.popped true) ++ [Ev.popped false 0]) :=
  fifo_delivery 1 (le_refl 1) [Op.push 10, Op.push 20, Op.pop 0] 1 (le_refl 1)

/-- C2, the scenario as written fails: on a queue of capacity 2 the second `push` already
reports full, so the outcomes are not those of the claim. -/
theorem capacity2_scenario_counterexample :
    capacityScenario 2 10 20 30 ≠
      some [Ev.pushed 10 true false, Ev.pushed 20 true false, Ev.pushed 30 false false,
            Ev.popped true 10, Ev.pushed 30 true false, Ev.popped true 20, Ev.popped true 30,
            Ev.popped false 0] := by
  decide

/-- C2, amended. A ring of `n` slots holds at most `n - 1` items. On a queue of capacity 2
(autogrow disabled, `busy_tries = 0`): `push(a)` succeeds, `push(b)` and `push(c)` report full,
`pop` returns `a`, `push(c)` succeeds, `pop` returns `c`, and the two further pops report empty
and leave the caller's variable alone. The outcomes of the claim (`push(a)`, `push(b)` succeed,
`push(c)` reports full, `pop` returns `a`, `push(c)` succeeds, the pops return `b`, then `c`, then
report empty) are those of a queue of capacity 3. -/
theorem capacity_scenario (a b c : Nat) :
    capacityScenario 2 a b c =
      some [Ev.pushed a true false, Ev.pushed b false false, Ev.pushed c false false,
            Ev.popped true a, Ev.pushed c true false, Ev.popped true c, Ev.popped false 0,
            Ev.popped false 0] ∧
    capacityScenario 3 a b c =
      some [Ev.pushed a true false, Ev.pushed b true false, Ev.pushed c false false,
            Ev.popped true a, Ev.pushed c true false, Ev.popped true b, Ev.popped true c,
            Ev.popped false 0] := by
  constructor <;> (unfold capacityScenario; simp [runOps, SPSCQueue.push, SPSCQueue.pop, SPSCQueue.popLoop, SPSCQueue.new, SPSCQueue.write, SPSCQueue.writeDone, SPSCQueue.read, SPSCQueue.readDone, SPSCQueue.modify, SPSCQueue.newNodes, SPSCQueue.growsOnPush, SPSCQueue.ctorStep, List.range, List.range.loop])

/-- C3 (the code departs from the claim). While `stop()` has not been requested, `execute`
returns at the first evaluation of the loop condition `while(stop_)` and its trace holds no call
of a task callable: no loop pass is made. -/
theorem execute_makes_no_pass (env : Env) (t : Thread) (fuel : Nat)
    (hs : t.stop_ = false) (he : ∀ k, env.stop_called k = false) :
    (t.execute (fuel + 1) env).finished = true ∧
    taskCalls (t.execute (fuel + 1) env).trace = [] := by
  unfold Thread.execute
  simp only
  have hp := prologue_thread env { t with tid_ := env.gettid }
  rw [taskLoop_exits env fuel 0 _ _ (by rw [hp.1]; exact hs) (he 0)]
  refine ⟨rfl, ?_⟩
  simp only
  rw [taskCalls_append, taskCalls_setup, taskCalls_prologue env { t with tid_ := env.gettid }]
  rfl

/-- Witness of C3: the Thread with tasks T1, T2, nobody calling `stop()`. -/
theorem execute_makes_no_pass_witness :
    (twoTaskThread.execute 1 quietEnv).finished = true ∧
    taskCalls (twoTaskThread.execute 1 quietEnv).trace = [] :=
  execute_makes_no_pass quietEnv twoTaskThread 0 rfl (fun _ => rfl)

/-- C4 (the code departs from the claim). Once the stop flag is set when the loop condition is
first evaluated (by a `stop()` made before `execute`, or by another party in the meantime),
`execute` never returns: whatever the number `fuel` of evaluations of the loop condition, it has
not finished and has started `fuel` passes over the task list. -/
theorem execute_spins_after_stop (env : Env) (t : Thread) (fuel : Nat)
    (hs : t.stop_ = true ∨ env.stop_called 0 = true) :
    (t.execute fuel env).finished = false ∧
    taskCalls (t.execute fuel env).trace = (List.replicate fuel t.tasks_).flatten := by
  unfold Thread.execute
  simp only
  have hp := prologue_thread env { t with tid_ := env.gettid }
  obtain ⟨ha, hb⟩ := taskLoop_spins env fuel 0 _
    (((if ({ t with tid_ := env.gettid } : Thread).cpu_ ≥ 0
        then (Thread.set_affinity env { t with tid_ := env.gettid }).2 else []) ++
      (if ({ t with tid_ := env.gettid } : Thread).sched_policy_ > 0 ∧
          ({ t with tid_ := env.gettid } : Thread).priority_ ≥ 0
        then (Thread.set_sched_policy env { t with tid_ := env.gettid }
          ({ t with tid_ := env.gettid } : Thread).sched_policy_
          ({ t with tid_ := env.gettid } : Thread).priority_).2
        else ({ t with tid_ := env.gettid }, [])).2) ++
      (if ({ t with tid_ := env.gettid } : Thread).sched_policy_ > 0 ∧
          ({ t with tid_ := env.gettid } : Thread).priority_ ≥ 0
        then (Thread.set_sched_policy env { t with tid_ := env.gettid }
          ({ t with tid_ := env.gettid } : Thread).sched_policy_
          ({ t with tid_ := env.gettid } : Thread).priority_).2
        else ({ t with tid_ := env.gettid }, [])).1.setup_tasks_.map Call.setup)
    (by rw [hp.1]; exact hs)
  refine ⟨ha, ?_⟩
  rw [hb, taskCalls_append, taskCalls_setup, taskCalls_prologue env { t with tid_ := env.gettid },
    hp.2.1]
  rfl

/-- Witness of C4: `stop()` then `execute()` on the Thread with tasks T1, T2. -/
theorem execute_spins_after_stop_witness :
    (twoTaskThread.stop.execute 3 quietEnv).finished = false ∧
    taskCalls (twoTaskThread.stop.execute 3 quietEnv).trace
      = (List.replicate 3 twoTaskThread.stop.tasks_).flatten :=
  execute_spins_after_stop quietEnv twoTaskThread.stop 3 (Or.inl rfl)

/-- C5 (the code departs from the claim). On a fresh queue built with `busy_tries = N ≥ 2`,
`pop` never returns: whatever the number of evaluations of the loop condition, the loop is still
spinning; the counter `i` is never compared with `N`. -/
theorem bounded_spin_never_returns (c : Nat) (hc : 1 ≤ c) (ag : Bool) (N : Int) (hN : 2 ≤ N)
    (fuel out : Nat) :
    (SPSCQueue.new c ag N).pop fuel out = none := by
  obtain ⟨-, -, -, -, -, -, hbt⟩ := new_fields c ag N
  obtain ⟨hrdy, -, -⟩ := new_mem c ag N hc
  exact popLoop_spin _ (hrdy _) (Or.inr (by rw [hbt]; omega)) fuel out 0

/-- Witness of C5: capacity 2, `busy_tries = 2`, a thousand evaluations of the loop condition. -/
theorem bounded_spin_never_returns_witness :
    (SPSCQueue.new 2 true 2).pop 1000 0 = none :=
  bounded_spin_never_returns 2 (by decide) true 2 (by decide) 1000 0

/-- C6. A rejected push is atomic: on any queue with autogrow disabled whose slot after the
write cursor is the read cursor, `push` returns failure and leaves the queue as it was, so
`size()`, `num_grows()`, `pending()` and the outcome of the next `pop` are unchanged. -/
theorem rejected_push_unchanged (s : SPSCQueue) (x : Nat)
    (hag : s.m_autogrow = false) (hfull : (s.mem s.m_write).m_next = s.m_read) :
    (s.push x).1 = false ∧ (s.push x).2 = s ∧
    (s.push x).2.size = s.size ∧ (s.push x).2.num_grows = s.num_grows ∧
    (∀ fuel, (s.push x).2.pending fuel = s.pending fuel) ∧
    (∀ fuel out, (s.push x).2.pop fuel out = s.pop fuel out) := by
  have hp : s.push x = (false, s) := by
    simp [SPSCQueue.push, hfull, hag]
  rw [hp]
  exact ⟨rfl, rfl, rfl, rfl, fun _ => rfl, fun _ _ => rfl⟩

/-- The full queue used as witness of C6: capacity 2, one item pushed. -/
theorem rejected_push_unchanged_witness :
    (((SPSCQueue.new 2 false 0).push 10).2.push 20).1 = false ∧
    (((SPSCQueue.new 2 false 0).push 10).2.push 20).2 = ((SPSCQueue.new 2 false 0).push 10).2 ∧
    (((SPSCQueue.new 2 false 0).push 10).2.push 20).2.size
      = ((SPSCQueue.new 2 false 0).push 10).2.size ∧
    (((SPSCQueue.new 2 false 0).push 10).2.push 20).2.num_grows
      = ((SPSCQueue.new 2 false 0).push 10).2.num_grows ∧
    (∀ fuel, (((SPSCQueue.new 2 false 0).push 10).2.push 20).2.pending fuel
      = ((SPSCQueue.new 2 false 0).push 10).2.pending fuel) ∧
    (∀ fuel out, (((SPSCQueue.new 2 false 0).push 10).2.push 20).2.pop fuel out
      = ((SPSCQueue.new 2 false 0).push 10).2.pop fuel out) :=
  rejected_push_unchanged ((SPSCQueue.new 2 false 0).push 10).2 20 (by decide) (by decide)

/-- C7. Growth arithmetic: on a queue built with capacity `c ≥ 1`, after any calls during which
`grow()` ran `N` times, `size() = c * 2 ^ N` and `num_grows() = N`; after further calls the same
holds with the further growth events added, so `size()` has not decreased. -/
theorem growth_arithmetic (c : Nat) (hc : 1 ≤ c) (ag : Bool) (bt : Int) (fuel : Nat)
    (ops1 ops2 : List Op) (s1 s2 : SPSCQueue) (evs1 evs2 : List Ev)
    (h1 : runOps fuel (SPSCQueue.new c ag bt) ops1 = some (s1, evs1))
    (h2 : runOps fuel s1 ops2 = some (s2, evs2)) :
    s1.size = c * 2 ^ growCount evs1 ∧ s1.num_grows = growCount evs1 ∧
    s2.size = c * 2 ^ (growCount evs1 + growCount evs2) ∧
    s2.num_grows = growCount evs1 + growCount evs2 ∧
    s1.size ≤ s2.size ∧ 1 ≤ s1.size := by
  obtain ⟨-, -, hs, -, hg, -, -⟩ := new_fields c ag bt
  obtain ⟨a1, a2⟩ := run_growth fuel ops1 _ _ _ h1
  obtain ⟨b1, b2⟩ := run_growth fuel ops2 _ _ _ h2
  rw [hs] at a1
  rw [hg, Nat.zero_add] at a2
  have hpos : 1 ≤ 2 ^ growCount evs2 := Nat.one_le_two_pow
  have hpos1 : 1 ≤ 2 ^ growCount evs1 := Nat.one_le_two_pow
  refine ⟨a1, a2, ?_, ?_, ?_, ?_⟩
  · show s2.m_size = _
    rw [b1, a1, pow_add, mul_assoc]
  · show s2.m_num_grows = _
    rw [b2, a2]
  · show s1.m_size ≤ s2.m_size
    rw [b1]
    exact Nat.le_mul_of_pos_right _ hpos
  · show 1 ≤ s1.m_size
    rw [a1]
    exact Nat.mul_le_mul hc hpos1

/-- Witness of C7: capacity 1 with autogrow; two pushes grow the ring twice, a third call does
not. -/
theorem growth_arithmetic_witness :
    ∃ s1 s2 evs1 evs2,
      runOps 1 (SPSCQueue.new 1 true 0) [Op.push 10, Op.push 20] = some (s1, evs1) ∧
      runOps 1 s1 [Op.push 30] = some (s2, evs2) ∧
      growCount evs1 = 2 ∧
      s1.size = 1 * 2 ^ growCount evs1 ∧ s1.num_grows = growCount evs1 ∧
      s2.size = 1 * 2 ^ (growCount evs1 + growCount evs2) ∧
      s2.num_grows = growCount evs1 + growCount evs2 ∧
      s1.size ≤ s2.size ∧ 1 ≤ s1.size :=
  ⟨_, _, _, _, rfl, rfl, by decide,
    growth_arithmetic 1 (le_refl 1) true 0 1 [Op.push 10, Op.push 20] [Op.push 30] _ _ _ _ rfl rfl⟩

/-- C8. `pending()` is exact when idle: on a queue built with capacity `c ≥ 1` and
`busy_tries = 0`, with autogrow on or off, after any sequence of `push` and `pop` calls the walk
of `pending()` ends within `size()` steps and returns the number of successful pushes minus the
number of successful pops. -/
theorem pending_exact (c : Nat) (hc : 1 ≤ c) (ag : Bool) (ops : List Op)
    (fuel : Nat) (hf : 1 ≤ fuel) :
    ∃ s evs, runOps fuel (SPSCQueue.new c ag 0) ops = some (s, evs) ∧
      (poppedItems evs).length ≤ (pushedItems evs).length ∧
      ∀ pf, s.size ≤ pf →
        s.pending pf = some ((pushedItems evs).length - (poppedItems evs).length) := by
  obtain ⟨k, rfl⟩ : ∃ k, fuel = k + 1 := ⟨fuel - 1, by omega⟩
  obtain ⟨-, -, -, -, -, -, hbt⟩ := new_fields c ag 0
  obtain ⟨s, evs, pend, free, hrun, hinv, -, hlen, -, -, -⟩ :=
    run_spec k ops _ _ _ (inv_new c ag 0 hc) (by rw [hbt]) (by rw [hbt]; decide)
  simp only [List.length_nil, Nat.zero_add] at hlen
  refine ⟨s, evs, hrun, by omega, ?_⟩
  intro pf hpf
  have hl := hinv.len
  rw [List.length_append] at hl
  have hsz : s.size = s.m_size := rfl
  rw [pending_inv s pend free hinv pf (by omega)]
  congr 1
  omega

/-- Witness of C8: capacity 2 without autogrow; of three pushes one succeeds, then one pop. -/
theorem pending_exact_witness :
    ∃ s evs, runOps 1 (SPSCQueue.new 2 false 0)
        [Op.push 10, Op.push 20, Op.push 30, Op.pop 0] = some (s, evs) ∧
      (poppedItems evs).length ≤ (pushedItems evs).length ∧
      ∀ pf, s.size ≤ pf →
        s.pending pf = some ((pushedItems evs).length - (poppedItems evs).length) :=
  pending_exact 2 (by decide) false [Op.push 10, Op.push 20, Op.push 30, Op.pop 0] 1 (le_refl 1)

/-- C9. Non-blocking pop: on a queue built with capacity `c ≥ 1` and `busy_tries = 0`, after any
sequence of calls, with `q` the items pushed and not yet popped: if `q` is empty, `pop` returns
failure after one check of the ready flag and leaves the caller's variable and the whole queue
(read cursor, slots) as they were; if `q` is not empty, `pop` returns success and the oldest item
of `q` after one check, the read cursor moves to the next slot, whose ready flag was set and is
now cleared. -/
theorem pop_nonblocking (c : Nat) (hc : 1 ≤ c) (ag : Bool) (ops : List Op)
    (fuel : Nat) (hf : 1 ≤ fuel) (out : Nat) :
    ∃ s evs q, runOps fuel (SPSCQueue.new c ag 0) ops = some (s, evs) ∧
      pushedItems evs = poppedItems evs ++ q ∧
      (q = [] → ∀ k, s.pop (k + 1) out = some (false, out, s)) ∧
      (∀ x q2, q = x :: q2 → ∃ s2, (∀ k, s.pop (k + 1) out = some (true, x, s2)) ∧
        (s.mem (s.mem s.m_read).m_next).m_ready = true ∧
        s2.m_read = (s.mem s.m_read).m_next ∧
        (s2.mem s2.m_read).m_ready = false) := by
  obtain ⟨k, rfl⟩ : ∃ k, fuel = k + 1 := ⟨fuel - 1, by omega⟩
  obtain ⟨-, -, -, -, -, -, hbt⟩ := new_fields c ag 0
  obtain ⟨s, evs, pend, free, hrun, hinv, hitems, -, hbt2, -, -⟩ :=
    run_spec k ops _ _ _ (inv_new c ag 0 hc) (by rw [hbt]) (by rw [hbt]; decide)
  rw [hbt] at hbt2
  refine ⟨s, evs, items s pend, hrun, by simpa [items] using hitems, ?_, ?_⟩
  · intro hq j
    have hp : pend = [] := by
      cases pend with
      | nil => rfl
      | cons p l => simp [items] at hq
    subst hp
    exact pop_empty s free hinv (by rw [hbt2]) (by rw [hbt2]; decide) j out
  · intro x q2 hq
    cases pend with
    | nil => simp [items] at hq
    | cons p l =>
      simp only [items, List.map_cons, List.cons.injEq] at hq
      obtain ⟨hx, -⟩ := hq
      obtain ⟨h1, -, -⟩ := inv_read s l free p hinv
      have hp : (s.mem s.m_read).m_next = p := hinv.seg_pend.1
      refine ⟨SPSCQueue.readDone (SPSCQueue.read s).1, ?_, ?_, ?_, ?_⟩
      · intro j
        rw [pop_nonempty s l free p hinv j out, hx]
      · rw [hp]
        exact hinv.ready_pend p (List.mem_cons_self _ _)
      · rfl
      · exact h1.ready_read

/-- Witness of C9: capacity 1 with autogrow, two items pushed, one popped. -/
theorem pop_nonblocking_witness :
    ∃ s evs q, runOps 1 (SPSCQueue.new 1 true 0) [Op.push 10, Op.push 20, Op.pop 0]
        = some (s, evs) ∧
      pushedItems evs = poppedItems evs ++ q ∧
      (q = [] → ∀ k, s.pop (k + 1) 7 = some (false, 7, s)) ∧
      (∀ x q2, q = x :: q2 → ∃ s2, (∀ k, s.pop (k + 1) 7 = some (true, x, s2)) ∧
        (s.mem (s.mem s.m_read).m_next).m_ready = true ∧
        s2.m_read = (s.mem s.m_read).m_next ∧
        (s2.mem s2.m_read).m_ready = false) :=
  pop_nonblocking 1 (le_refl 1) true [Op.push 10, Op.push 20, Op.pop 0] 1 (le_refl 1) 7

/-- C10. Shared-core registration: for a core `c ≥ 0` not yet registered (in a registry whose
next Thread address is not the null address), two successive
`add_task_to_thread` calls for `c` with `exclusive = false` both succeed and return the same
Thread, the registry holds exactly one entry for `c`, and that Thread's setup list, task list and
task-name list hold the two registered entries in registration order. -/
theorem shared_core_registration (m : ThreadManager) (c : Int) (hc : 0 ≤ c)
    (hnew : m.find c = none) (hobj : m.nobjs ≠ 0)
    (now1 now2 f1 f2 g1 g2 : Nat) (n1 n2 name1 name2 : String) :
    ∃ thr m1 m2,
      m.add_task_to_thread now1 f1 f2 c false n1 name1 = Except.ok (thr, m1) ∧
      m1.add_task_to_thread now2 g1 g2 c false n2 name2 = Except.ok (thr, m2) ∧
      m2.find c = some thr ∧
      (m2.threads_.filter (fun e => decide (e.1 = c))).length = 1 ∧
      (m2.objs thr).setup_tasks_ = [f1, g1] ∧
      (m2.objs thr).tasks_ = [f2, g2] ∧
      (m2.objs thr).task_names = [n1, n2] := by
  have hl : m.threads_.lookup c = none := hnew
  have hfilter : (m.threads_.filter (fun e => decide (e.1 = c))) = [] := by
    rw [List.filter_eq_nil_iff]
    intro e he
    simpa using lookup_none_ne c m.threads_ hl e he
  have e1 := add_task_fresh m c hc hnew hobj now1 f1 f2 false n1 name1
  have hthreads : (registered m c false name1 now1 f1 f2 n1).threads_
      = m.threads_ ++ [(c, m.nobjs)] := by
    simp [registered, ThreadManager.update, ThreadManager.assign, ThreadManager.newThread, hl]
  have hfind : (registered m c false name1 now1 f1 f2 n1).find c = some m.nobjs := by
    unfold ThreadManager.find
    rw [hthreads]
    exact lookup_append_new c m.nobjs m.threads_ hl
  have hshared : ((registered m c false name1 now1 f1 f2 n1).objs m.nobjs).occupy_core_ = false := by
    simp [registered, ThreadManager.update, ThreadManager.assign, ThreadManager.newThread,
      Thread.add_setup_task, Thread.add_task, Thread.set_cpu, Thread.set_exclusively_occupy_core]
  have e2 := add_task_shared (registered m c false name1 now1 f1 f2 n1) c hc m.nobjs hfind hobj
    hshared now2 g1 g2 n2 name2
  refine ⟨m.nobjs, _, _, e1, e2, ?_, ?_, ?_, ?_, ?_⟩
  · exact hfind
  · show (List.filter _ (registered m c false name1 now1 f1 f2 n1).threads_).length = 1
    rw [hthreads, List.filter_append, hfilter]
    simp
  · simp [registered, ThreadManager.update, Thread.add_setup_task, Thread.add_task, Thread.new,
      Thread.set_cpu, Thread.set_exclusively_occupy_core, ThreadManager.assign,
      ThreadManager.newThread]
  · simp [registered, ThreadManager.update, Thread.add_setup_task, Thread.add_task, Thread.new,
      Thread.set_cpu, Thread.set_exclusively_occupy_core, ThreadManager.assign,
      ThreadManager.newThread]
  · simp [registered, ThreadManager.update, Thread.add_setup_task, Thread.add_task, Thread.new,
      Thread.set_cpu, Thread.set_exclusively_occupy_core, ThreadManager.assign,
      ThreadManager.newThread, Thread.task_names]

/-- Witness of C10: core 3 on a fresh registry. -/
theorem shared_core_registration_witness :
    ∃ thr m1 m2,
      ThreadManager.new.add_task_to_thread 0 11 12 3 false "a" "w" = Except.ok (thr, m1) ∧
      m1.add_task_to_thread 0 21 22 3 false "b" "w" = Except.ok (thr, m2) ∧
      m2.find 3 = some thr ∧
      (m2.threads_.filter (fun e => decide (e.1 = 3))).length = 1 ∧
      (m2.objs thr).setup_tasks_ = [11, 21] ∧
      (m2.objs thr).tasks_ = [12, 22] ∧
      (m2.objs thr).task_names = ["a", "b"] :=
  shared_core_registration ThreadManager.new 3 (by decide) rfl (by decide)
    0 0 11 12 21 22 "a" "b" "w" "w"

/-! ## Reachable rings -/

theorem empty_not_ready (s : SPSCQueue) (free : List Nat) (h : Inv s [] free) :
    (s.mem (s.mem s.m_read).m_next).m_ready = false := by
  have hw : s.m_read = s.m_write := h.seg_pend
  cases free with
  | nil =>
    have : (s.mem s.m_write).m_next = s.m_read := h.seg_free.1
    rw [hw, this]
    exact h.ready_read
  | cons f free =>
    have : (s.mem s.m_write).m_next = f := h.seg_free.1
    rw [hw, this]
    exact h.ready_free f (List.mem_cons_self _ _)

/-- A `pop` that returns keeps the ring well formed, whatever `busy_tries` is. -/
theorem pop_inv (s : SPSCQueue) (pend free : List Nat) (h : Inv s pend free)
    (fuel out : Nat) (ok : Bool) (o : Nat) (s1 : SPSCQueue)
    (hp : s.pop fuel out = some (ok, o, s1)) :
    ∃ pend2 free2, Inv s1 pend2 free2 ∧
      pend.length = pend2.length + (if ok then 1 else 0) ∧
      s1.m_autogrow = s.m_autogrow ∧ s1.m_size = s.m_size := by
  cases fuel with
  | zero => simp [SPSCQueue.pop, SPSCQueue.popLoop] at hp
  | succ k =>
    cases pend with
    | nil =>
      by_cases hb : 0 ≤ s.m_busytries ∧ s.m_busytries ≤ 1
      · rw [pop_empty s free h hb.1 hb.2 k out] at hp
        simp only [Option.some.injEq, Prod.mk.injEq] at hp
        obtain ⟨rfl, -, rfl⟩ := hp
        exact ⟨[], free, h, by simp, rfl, rfl⟩
      · have := popLoop_spin s (empty_not_ready s free h) (by omega) (k + 1) out 0
        rw [SPSCQueue.pop, this] at hp
        simp at hp
    | cons p pend =>
      rw [pop_nonempty s pend free p h k out] at hp
      simp only [Option.some.injEq, Prod.mk.injEq] at hp
      obtain ⟨rfl, -, rfl⟩ := hp
      obtain ⟨h1, -, -⟩ := inv_read s pend free p h
      exact ⟨pend, free ++ [s.m_read], h1, by simp, rfl, rfl⟩

/-- Every state reached by calls that returned has a well-formed ring, whose filled slots are as
many as the successful pushes minus the successful pops. -/
theorem run_reach (fuel : Nat) (ops : List Op) :
    ∀ (s s2 : SPSCQueue) (evs : List Ev) (pend free : List Nat), Inv s pend free →
      runOps fuel s ops = some (s2, evs) →
      ∃ pend2 free2, Inv s2 pend2 free2 ∧
        pend.length + (pushedItems evs).length = (poppedItems evs).length + pend2.length ∧
        s2.m_autogrow = s.m_autogrow ∧
        (s.m_autogrow = false → s2.m_size = s.m_size) := by
  induction ops with
  | nil =>
    intro s s2 evs pend free h hr
    simp only [runOps, Option.some.injEq, Prod.mk.injEq] at hr
    obtain ⟨rfl, rfl⟩ := hr
    exact ⟨pend, free, h, by simp [pushedItems, poppedItems], rfl, fun _ => rfl⟩
  | cons op ops ih =>
    intro s s2 evs pend free h hr
    cases op with
    | push x =>
      simp only [runOps] at hr
      cases hr1 : runOps fuel (s.push x).2 ops with
      | none => rw [hr1] at hr; simp at hr
      | some r =>
        obtain ⟨s3, evs3⟩ := r
        rw [hr1] at hr
        simp only [Option.some.injEq, Prod.mk.injEq] at hr
        obtain ⟨rfl, rfl⟩ := hr
        obtain ⟨pend1, free1, h1, -, hl1, -, -, hag1, -⟩ := push_spec s pend free x h
        obtain ⟨pend2, free2, h2, hl2, hag2, hsz2⟩ := ih _ _ _ pend1 free1 h1 hr1
        refine ⟨pend2, free2, h2, ?_, by rw [hag2, hag1], ?_⟩
        · rw [pushedItems_pushed, poppedItems_pushed, List.length_append, ← hl2, hl1]
          split
          · simp
            omega
          · simp
        · intro hag
          rw [hsz2 (by rw [hag1]; exact hag)]
          have := (push_fields s x).1
          rw [this]
          simp [SPSCQueue.growsOnPush, hag]
    | pop out =>
      simp only [runOps] at hr
      cases hp : s.pop fuel out with
      | none => rw [hp] at hr; simp at hr
      | some r1 =>
        obtain ⟨ok, obj, s1⟩ := r1
        rw [hp] at hr
        simp only at hr
        cases hr1 : runOps fuel s1 ops with
        | none => rw [hr1] at hr; simp at hr
        | some r =>
          obtain ⟨s3, evs3⟩ := r
          rw [hr1] at hr
          simp only [Option.some.injEq, Prod.mk.injEq] at hr
          obtain ⟨rfl, rfl⟩ := hr
          obtain ⟨pend1, free1, h1, hl1, hag1, hsz1⟩ := pop_inv s pend free h fuel out ok obj s1 hp
          obtain ⟨pend2, free2, h2, hl2, hag2, hsz2⟩ := ih _ _ _ pend1 free1 h1 hr1
          refine ⟨pend2, free2, h2, ?_, by rw [hag2, hag1], ?_⟩
          · rw [pushedItems_popped, poppedItems_popped, List.length_append]
            cases ok
            · simp only [Bool.false_eq_true, if_false, Nat.add_zero, List.length_nil,
                Nat.zero_add] at hl1 ⊢
              omega
            · simp only [if_true, List.length_singleton] at hl1 ⊢
              omega
          · intro hag
            rw [hsz2 (by rw [hag1]; exact hag), hsz1]

theorem seg_iterate (mem : Nat → Node) (l : List Nat) :
    ∀ (a b : Nat), Seg mem a l b → Nat.iterate (fun x => (mem x).m_next) l.length a = b := by
  induction l with
  | nil => intro a b h; exact h
  | cons x l ih =>
    intro a b h
    rw [List.length_cons, Function.iterate_succ_apply, h.1]
    exact ih x b h.2

theorem nodup_covers (l : List Nat) (n : Nat) (hnd : l.Nodup)
    (hr : ∀ a ∈ l, 1 ≤ a ∧ a < n + 1) (hl : l.length = n) :
    ∀ a, 1 ≤ a → a < n + 1 → a ∈ l := by
  have hsub : l.toFinset ⊆ Finset.Icc 1 n := by
    intro a ha
    rw [List.mem_toFinset] at ha
    rw [Finset.mem_Icc]
    have := hr a ha
    omega
  have hcard : (Finset.Icc 1 n).card ≤ l.toFinset.card := by
    rw [List.toFinset_card_of_nodup hnd, hl, Nat.card_Icc]
    omega
  have heq := Finset.eq_of_subset_of_card_le hsub hcard
  intro a h1 h2
  have : a ∈ Finset.Icc 1 n := by
    rw [Finset.mem_Icc]
    omega
  rw [← heq, List.mem_toFinset] at this
  exact this

theorem push_before_write (s : SPSCQueue) (x : Nat) (h : (s.push x).1 = true) :
    s.push x = (true, SPSCQueue.writeDone (SPSCQueue.write s.beforeWrite x)) := by
  unfold SPSCQueue.push SPSCQueue.beforeWrite SPSCQueue.growsOnPush at *
  by_cases h1 : (s.mem s.m_write).m_next = s.m_read
  · by_cases h2 : s.m_autogrow = true
    · simp [h1, h2]
    · simp [h1, h2] at h
  · simp [h1]

theorem before_write_inv (s : SPSCQueue) (pend free : List Nat) (x : Nat)
    (h : Inv s pend free) (hok : (s.push x).1 = true) :
    ∃ f free0, Inv s.beforeWrite pend (f :: free0) ∧ s.beforeWrite.m_read = s.m_read ∧
      ∀ a, a < s.brk → (s.beforeWrite.mem a).m_ready = (s.mem a).m_ready ∧
        (s.beforeWrite.mem a).m_data = (s.mem a).m_data := by
  cases free with
  | nil =>
    have hfull : (s.mem s.m_write).m_next = s.m_read := h.seg_free.1
    have hag : s.m_autogrow = true := by
      by_contra hne
      have hag2 : s.m_autogrow = false := by simpa using hne
      simp [SPSCQueue.push, hfull, hag2] at hok
    have hb : s.beforeWrite = s.grow := by
      simp [SPSCQueue.beforeWrite, SPSCQueue.growsOnPush, hfull, hag]
    rw [hb]
    obtain ⟨hg, -⟩ := inv_grow s pend h
    have hlen : pend.length + 1 = s.m_size := by simpa using h.len
    obtain ⟨m, hm⟩ : ∃ m, s.m_size = m + 1 := ⟨s.m_size - 1, by omega⟩
    rw [hm, ← cons_range'] at hg
    have hwmem : s.m_write ∈ s.m_read :: pend := seg_mem_end _ _ _ _ h.seg_pend
    have hwb : s.m_write < s.brk := (h.alloc _ (by simpa using hwmem)).2
    exact ⟨s.brk, List.range' (s.brk + 1) m, hg, rfl, (grow_mem s hwb).1⟩
  | cons f free =>
    have hf : (s.mem s.m_write).m_next = f := h.seg_free.1
    have hne : f ≠ s.m_read := by
      have := (List.nodup_cons.1 h.nodup).1
      intro e
      apply this
      rw [← e]
      simp
    have hb : s.beforeWrite = s := by
      simp [SPSCQueue.beforeWrite, SPSCQueue.growsOnPush, hf, hne]
    rw [hb]
    exact ⟨f, free, h, rfl, fun a _ => ⟨rfl, rfl⟩⟩

theorem ring_covers (s : SPSCQueue) (pend free : List Nat) (h : Inv s pend free) :
    ∀ a, a ∈ s.m_read :: (pend ++ free) ↔ 1 ≤ a ∧ a < s.brk := by
  intro a
  constructor
  · exact h.alloc a
  · intro ⟨h1, h2⟩
    have hl : (s.m_read :: (pend ++ free)).length = s.m_size := by
      rw [List.length_cons]
      exact h.len
    refine nodup_covers _ s.m_size h.nodup ?_ hl a h1 (by rw [← h.brk_eq]; exact h2)
    intro b hb
    have := h.alloc b hb
    rw [h.brk_eq] at this
    exact this

/-- C15. Ready-flag discipline: in every state reached from a fresh queue of capacity `c ≥ 1` by
`push` and `pop` calls that returned, with `pend` the slots after the read cursor up to and
including the write cursor, a slot has its ready flag set exactly when it is in `pend`; the read
cursor is not in `pend`; and a `push` that succeeds stores into the slot after the write cursor
(of the ring as `grow()` left it, when it ran), whose ready flag is clear at that moment and which
is not the slot at the read cursor, whose item and flag it leaves alone. -/
theorem ready_flag_discipline (c : Nat) (hc : 1 ≤ c) (ag : Bool) (bt : Int) (fuel : Nat)
    (ops : List Op) (s : SPSCQueue) (evs : List Ev)
    (h : runOps fuel (SPSCQueue.new c ag bt) ops = some (s, evs)) :
    ∃ pend free,
      Seg s.mem s.m_read pend s.m_write ∧
      Seg s.mem s.m_write (free ++ [s.m_read]) s.m_read ∧
      (∀ a, a ∈ s.m_read :: (pend ++ free) ↔ 1 ≤ a ∧ a < s.brk) ∧
      (∀ a, 1 ≤ a → a < s.brk → ((s.mem a).m_ready = true ↔ a ∈ pend)) ∧
      s.m_read ∉ pend ∧
      (∀ x, (s.push x).1 = true →
        (s.push x).2.m_write = (s.beforeWrite.mem s.beforeWrite.m_write).m_next ∧
        (s.beforeWrite.mem (s.push x).2.m_write).m_ready = false ∧
        (s.push x).2.m_write ≠ s.m_read ∧
        ((s.push x).2.mem (s.push x).2.m_write).m_data = x ∧
        ((s.push x).2.mem (s.push x).2.m_write).m_ready = true ∧
        (∀ a, a ≠ (s.push x).2.m_write → (s.push x).2.mem a = s.beforeWrite.mem a) ∧
        ((s.push x).2.mem s.m_read).m_data = (s.mem s.m_read).m_data ∧
        ((s.push x).2.mem s.m_read).m_ready = (s.mem s.m_read).m_ready) := by
  obtain ⟨pend, free, hinv, -, -, -⟩ := run_reach fuel ops _ _ _ _ _ (inv_new c ag bt hc) h
  have hcov := ring_covers s pend free hinv
  have hrp : s.m_read ∉ pend := by
    have := (List.nodup_cons.1 hinv.nodup).1
    intro hm
    exact this (List.mem_append_left _ hm)
  refine ⟨pend, free, hinv.seg_pend, hinv.seg_free, hcov, ?_, hrp, ?_⟩
  · intro a h1 h2
    have ha := (hcov a).2 ⟨h1, h2⟩
    constructor
    · intro hr
      rcases List.mem_cons.1 ha with rfl | ha
      · rw [hinv.ready_read] at hr
        simp at hr
      · rcases List.mem_append.1 ha with ha | ha
        · exact ha
        · rw [hinv.ready_free a ha] at hr
          simp at hr
    · exact hinv.ready_pend a
  · intro x hok
    obtain ⟨f, free0, h0, hr0, hsame0⟩ := before_write_inv s pend free x hinv hok
    rw [push_before_write s x hok]
    obtain ⟨-, hw, -, -, -, -, -⟩ := write_fields s.beforeWrite x
    obtain ⟨-, hsame, hrdy, hdat⟩ := write_mem s.beforeWrite x
    have hf : (s.beforeWrite.mem s.beforeWrite.m_write).m_next = f := h0.seg_free.1
    simp only
    rw [hw, hf]
    rw [hf] at hsame hrdy hdat
    have hfr : f ≠ s.m_read := by
      have := (List.nodup_cons.1 h0.nodup).1
      rw [hr0] at this
      intro e
      apply this
      rw [← e]
      simp
    have hrb : s.m_read < s.brk := (hinv.alloc _ (List.mem_cons_self _ _)).2
    refine ⟨rfl, h0.ready_free f (List.mem_cons_self _ _), hfr, hdat, hrdy, hsame, ?_, ?_⟩
    · rw [hsame _ (Ne.symm hfr)]
      exact (hsame0 _ hrb).2
    · rw [hsame _ (Ne.symm hfr)]
      exact (hsame0 _ hrb).1

/-- Witness of C15: capacity 1 with autogrow, a push (which grows the ring) and a pop. -/
theorem ready_flag_discipline_witness :
    ∃ s evs, runOps 1 (SPSCQueue.new 1 true 0) [Op.push 10, Op.pop 0] = some (s, evs) ∧
    ∃ pend free,
      Seg s.mem s.m_read pend s.m_write ∧
      Seg s.mem s.m_write (free ++ [s.m_read]) s.m_read ∧
      (∀ a, a ∈ s.m_read :: (pend ++ free) ↔ 1 ≤ a ∧ a < s.brk) ∧
      (∀ a, 1 ≤ a → a < s.brk → ((s.mem a).m_ready = true ↔ a ∈ pend)) ∧
      s.m_read ∉ pend ∧
      (∀ x, (s.push x).1 = true →
        (s.push x).2.m_write = (s.beforeWrite.mem s.beforeWrite.m_write).m_next ∧
        (s.beforeWrite.mem (s.push x).2.m_write).m_ready = false ∧
        (s.push x).2.m_write ≠ s.m_read ∧
        ((s.push x).2.mem (s.push x).2.m_write).m_data = x ∧
        ((s.push x).2.mem (s.push x).2.m_write).m_ready = true ∧
        (∀ a, a ≠ (s.push x).2.m_write → (s.push x).2.mem a = s.beforeWrite.mem a) ∧
        ((s.push x).2.mem s.m_read).m_data = (s.mem s.m_read).m_data ∧
        ((s.push x).2.mem s.m_read).m_ready = (s.mem s.m_read).m_ready) :=
  ⟨_, _, rfl, ready_flag_discipline 1 (le_refl 1) true 0 1 [Op.push 10, Op.pop 0] _ _ rfl⟩

/-- C17. Ring well-formedness: in every state reached from construction with capacity `c ≥ 1` by
`push` and `pop` calls that returned, with or without growth, the slots listed from the read
cursor along the next links are all the `size()` slots allocated, each once, and the link of the
last leads back to the read cursor; the write cursor is among them, it is reached from the read
cursor in `n < size()` steps, and the walk of `pending()` ends and returns `n`. -/
theorem ring_well_formed (c : Nat) (hc : 1 ≤ c) (ag : Bool) (bt : Int) (fuel : Nat)
    (ops : List Op) (s : SPSCQueue) (evs : List Ev)
    (h : runOps fuel (SPSCQueue.new c ag bt) ops = some (s, evs)) :
    ∃ rest : List Nat,
      (s.m_read :: rest).Nodup ∧ (s.m_read :: rest).length = s.size ∧
      (∀ a, a ∈ s.m_read :: rest ↔ 1 ≤ a ∧ a < s.brk) ∧ s.brk = s.size + 1 ∧
      s.m_write ∈ s.m_read :: rest ∧
      Seg s.mem s.m_read (rest ++ [s.m_read]) s.m_read ∧
      ∃ n, n < s.size ∧ Nat.iterate (fun a => (s.mem a).m_next) n s.m_read = s.m_write ∧
        ∀ pf, s.size ≤ pf → s.pending pf = some n := by
  obtain ⟨pend, free, hinv, -, -, -⟩ := run_reach fuel ops _ _ _ _ _ (inv_new c ag bt hc) h
  have hl := hinv.len
  rw [List.length_append] at hl
  have hsz : s.size = s.m_size := rfl
  refine ⟨pend ++ free, hinv.nodup, ?_, ring_covers s pend free hinv, hinv.brk_eq, ?_, ?_,
    pend.length, by omega, seg_iterate _ _ _ _ hinv.seg_pend, ?_⟩
  · rw [List.length_cons, hsz]
    exact hinv.len
  · have := seg_mem_end _ _ _ _ hinv.seg_pend
    rcases List.mem_cons.1 this with e | hm
    · rw [e]
      exact List.mem_cons_self _ _
    · exact List.mem_cons_of_mem _ (List.mem_append_left _ hm)
  · rw [List.append_assoc, seg_append]
    exact ⟨s.m_write, hinv.seg_pend, hinv.seg_free⟩
  · intro pf hpf
    exact pending_inv s pend free hinv pf (by omega)

/-- Witness of C17: capacity 1 with autogrow, two pushes (two growth events) and a pop. -/
theorem ring_well_formed_witness :
    ∃ s evs, runOps 1 (SPSCQueue.new 1 true 0) [Op.push 10, Op.push 20, Op.pop 0]
        = some (s, evs) ∧
    ∃ rest : List Nat,
      (s.m_read :: rest).Nodup ∧ (s.m_read :: rest).length = s.size ∧
      (∀ a, a ∈ s.m_read :: rest ↔ 1 ≤ a ∧ a < s.brk) ∧ s.brk = s.size + 1 ∧
      s.m_write ∈ s.m_read :: rest ∧
      Seg s.mem s.m_read (rest ++ [s.m_read]) s.m_read ∧
      ∃ n, n < s.size ∧ Nat.iterate (fun a => (s.mem a).m_next) n s.m_read = s.m_write ∧
        ∀ pf, s.size ≤ pf → s.pending pf = some n :=
  ⟨_, _, rfl,
    ring_well_formed 1 (le_refl 1) true 0 1 [Op.push 10, Op.push 20, Op.pop 0] _ _ rfl⟩

/-- C18. Usable capacity is `size() - 1`: on a queue built with capacity `c ≥ 1` and autogrow
disabled, in every state reached by `push` and `pop` calls that returned, `size()` is `c`,
`pending()` returns the number `n` of items pushed and not yet popped, `n ≤ c - 1`, and `push`
succeeds exactly when `n < size() - 1`; with `c = 1` every `push` is rejected. -/
theorem usable_capacity (c : Nat) (hc : 1 ≤ c) (bt : Int) (fuel : Nat)
    (ops : List Op) (s : SPSCQueue) (evs : List Ev)
    (h : runOps fuel (SPSCQueue.new c false bt) ops = some (s, evs)) :
    s.size = c ∧
    ∃ n, (∀ pf, s.size ≤ pf → s.pending pf = some n) ∧
      n + (poppedItems evs).length = (pushedItems evs).length ∧
      n ≤ c - 1 ∧
      (∀ x, (s.push x).1 = true ↔ n < s.size - 1) ∧
      (c = 1 → ∀ x, (s.push x).1 = false) := by
  obtain ⟨-, -, hs0, -, -, hag0, -⟩ := new_fields c false bt
  obtain ⟨pend, free, hinv, hcnt, hag, hsz⟩ :=
    run_reach fuel ops _ _ _ _ _ (inv_new c false bt hc) h
  have hsize : s.m_size = c := by rw [hsz hag0, hs0]
  have hag2 : s.m_autogrow = false := by rw [hag, hag0]
  have hl := hinv.len
  rw [List.length_append] at hl
  have hpush : ∀ x, (s.push x).1 = true ↔ pend.length < s.size - 1 := by
    intro x
    obtain ⟨_, _, -, -, -, hok, -, -, -⟩ := push_spec s pend free x hinv
    rw [hok, hag2]
    have hsz2 : s.size = s.m_size := rfl
    cases free with
    | nil =>
      simp at hl ⊢
      omega
    | cons f free =>
      simp at hl ⊢
      omega
  refine ⟨hsize, pend.length, ?_, ?_, ?_, hpush, ?_⟩
  · intro pf hpf
    exact pending_inv s pend free hinv pf (by have : s.size = s.m_size := rfl; omega)
  · simp only [List.length_nil, Nat.zero_add] at hcnt
    omega
  · omega
  · intro hc1 x
    have := hpush x
    have hsz2 : s.size = s.m_size := rfl
    cases hv : (s.push x).1 with
    | false => rfl
    | true =>
      have := this.1 hv
      omega

/-- Witness of C18: capacity 3 without autogrow, three pushes and a pop. -/
theorem usable_capacity_witness :
    ∃ s evs, runOps 1 (SPSCQueue.new 3 false 0) [Op.push 10, Op.push 20, Op.push 30, Op.pop 0]
        = some (s, evs) ∧
    s.size = 3 ∧
    ∃ n, (∀ pf, s.size ≤ pf → s.pending pf = some n) ∧
      n + (poppedItems evs).length = (pushedItems evs).length ∧
      n ≤ 3 - 1 ∧
      (∀ x, (s.push x).1 = true ↔ n < s.size - 1) ∧
      (3 = 1 → ∀ x, (s.push x).1 = false) :=
  ⟨_, _, rfl,
    usable_capacity 3 (by decide) 0 1 [Op.push 10, Op.push 20, Op.push 30, Op.pop 0] _ _ rfl⟩

/-! ## Reachable registries -/

theorem lookup_none_of_ne (c : Int) (l : List (Int × Nat)) (h : ∀ e ∈ l, e.1 ≠ c) :
    l.lookup c = none := by
  induction l with
  | nil => rfl
  | cons x l ih =>
    obtain ⟨k, v⟩ := x
    have hk : c ≠ k := fun e => h (k, v) (List.mem_cons_self _ _) e.symm
    have hb : (c == k) = false := by simpa using hk
    rw [List.lookup, hb]
    exact ih (fun e he => h e (List.mem_cons_of_mem _ he))

theorem lookup_some_mem (c : Int) (v : Nat) (l : List (Int × Nat)) (h : l.lookup c = some v) :
    (c, v) ∈ l := by
  induction l with
  | nil => simp [List.lookup] at h
  | cons x l ih =>
    obtain ⟨k, w⟩ := x
    by_cases hk : c = k
    · subst hk
      simp [List.lookup] at h
      subst h
      exact List.mem_cons_self _ _
    · have hb : (c == k) = false := by simpa using hk
      rw [List.lookup, hb] at h
      exact List.mem_cons_of_mem _ (ih h)

theorem lookup_append_ne (c k : Int) (v : Nat) (l : List (Int × Nat)) (h : c ≠ k) :
    (l ++ [(k, v)]).lookup c = l.lookup c := by
  induction l with
  | nil =>
    have hb : (c == k) = false := by simpa using h
    simp [List.lookup, hb]
  | cons x l ih =>
    obtain ⟨k2, w⟩ := x
    by_cases hk : c = k2
    · subst hk
      simp [List.lookup]
    · have hb : (c == k2) = false := by simpa using hk
      rw [List.cons_append, List.lookup, hb, List.lookup, hb]
      exact ih

theorem assign_new (m : ThreadManager) (k : Int) (v : Nat) (h : m.threads_.lookup k = none) :
    (m.assign k v).threads_ = m.threads_ ++ [(k, v)] := by
  simp [ThreadManager.assign, h]

theorem registered_fields (m : ThreadManager) (c : Int) (occupy : Bool) (name : String)
    (now f1 f2 : Nat) (tn : String) (hnew : m.find c = none) :
    (registered m c occupy name now f1 f2 tn).threads_ = m.threads_ ++ [(c, m.nobjs)] ∧
    (registered m c occupy name now f1 f2 tn).nobjs = m.nobjs + 1 ∧
    (registered m c occupy name now f1 f2 tn).floating_core_id_ = m.floating_core_id_ ∧
    (∀ a, a ≠ m.nobjs → (registered m c occupy name now f1 f2 tn).objs a = m.objs a) ∧
    ((registered m c occupy name now f1 f2 tn).objs m.nobjs).cpu_ = c ∧
    ((registered m c occupy name now f1 f2 tn).objs m.nobjs).occupy_core_ = occupy := by
  have hl : m.threads_.lookup c = none := hnew
  refine ⟨?_, rfl, rfl, ?_, ?_, ?_⟩
  · simp [registered, ThreadManager.update, ThreadManager.assign, ThreadManager.newThread, hl]
  · intro a ha
    simp [registered, ThreadManager.update, ThreadManager.assign, ThreadManager.newThread, ha]
  · simp [registered, ThreadManager.update, ThreadManager.assign, ThreadManager.newThread,
      Thread.add_setup_task, Thread.add_task, Thread.set_cpu, Thread.set_exclusively_occupy_core]
  · simp [registered, ThreadManager.update, ThreadManager.assign, ThreadManager.newThread,
      Thread.add_setup_task, Thread.add_task, Thread.set_cpu, Thread.set_exclusively_occupy_core]

theorem floated_fields (m : ThreadManager) (name : String) (now f1 f2 : Nat) (tn : String)
    (hnew : m.threads_.lookup (m.floating_core_id_ - 1) = none) :
    (floated m name now f1 f2 tn).threads_
      = m.threads_ ++ [(m.floating_core_id_ - 1, m.nobjs)] ∧
    (floated m name now f1 f2 tn).nobjs = m.nobjs + 1 ∧
    (floated m name now f1 f2 tn).floating_core_id_ = m.floating_core_id_ - 1 ∧
    (∀ a, a ≠ m.nobjs → (floated m name now f1 f2 tn).objs a = m.objs a) ∧
    ((floated m name now f1 f2 tn).objs m.nobjs).cpu_ = m.floating_core_id_ ∧
    ((floated m name now f1 f2 tn).objs m.nobjs).occupy_core_ = false := by
  refine ⟨?_, rfl, rfl, ?_, ?_, ?_⟩
  · simp [floated, ThreadManager.update, ThreadManager.assign, ThreadManager.newThread, hnew]
  · intro a ha
    simp [floated, ThreadManager.update, ThreadManager.assign, ThreadManager.newThread, ha]
  · simp [floated, ThreadManager.update, ThreadManager.assign, ThreadManager.newThread,
      Thread.add_setup_task, Thread.add_task, Thread.set_cpu]
  · simp [floated, ThreadManager.update, ThreadManager.assign, ThreadManager.newThread,
      Thread.add_setup_task, Thread.add_task, Thread.set_cpu, Thread.new]

/-- A registration for a negative core id always creates a Thread. -/
theorem add_task_floating (m : ThreadManager) (c : Int) (hc : c < 0) (hobj : m.nobjs ≠ 0)
    (now f1 f2 : Nat) (occupy : Bool) (n name : String) :
    m.add_task_to_thread now f1 f2 c occupy n name
      = Except.ok (m.nobjs, floated m name now f1 f2 n) := by
  have hc2 : ¬ (0 ≤ c) := by omega
  simp only [ThreadManager.add_task_to_thread, ThreadManager.get_thread, ge_iff_le, hc2,
    if_false, ne_eq, hobj, not_false_eq_true, floated, ThreadManager.newThread,
    ThreadManager.update, if_true]

/-- A registration on a core held by an exclusive thread raises. -/
theorem add_task_exclusive_conflict (m : ThreadManager) (c : Int) (hc : 0 ≤ c) (thr : Nat)
    (hfind : m.find c = some thr) (hex : (m.objs thr).occupy_core_ = true)
    (now f1 f2 : Nat) (occupy : Bool) (n name : String) :
    m.add_task_to_thread now f1 f2 c occupy n name
      = Except.error (ConfigError.exclusive c (m.objs thr).name) ∧
    m.get_thread now c occupy name
      = Except.error (ConfigError.exclusive c (m.objs thr).name) := by
  simp only [ThreadManager.add_task_to_thread, ThreadManager.get_thread, ge_iff_le, hc,
    if_true, hfind, Thread.exclusively_occupy_core, hex, report_fatal_configuration_error,
    and_self]

/-- An exclusive registration on a core held by a sharing thread raises. -/
theorem add_task_shared_conflict (m : ThreadManager) (c : Int) (hc : 0 ≤ c) (thr : Nat)
    (hfind : m.find c = some thr) (hsh : (m.objs thr).occupy_core_ = false)
    (now f1 f2 : Nat) (n name : String) :
    m.add_task_to_thread now f1 f2 c true n name
      = Except.error (ConfigError.shared c (m.objs thr).name) ∧
    m.get_thread now c true name
      = Except.error (ConfigError.shared c (m.objs thr).name) := by
  simp only [ThreadManager.add_task_to_thread, ThreadManager.get_thread, ge_iff_le, hc,
    if_true, hfind, Thread.exclusively_occupy_core, hsh, Bool.false_eq_true, if_false,
    report_fatal_configuration_error, and_self]

theorem get_thread_shared (m : ThreadManager) (c : Int) (hc : 0 ≤ c) (thr : Nat)
    (hfind : m.find c = some thr) (hsh : (m.objs thr).occupy_core_ = false)
    (now : Nat) (name : String) :
    m.get_thread now c false name = Except.ok (thr, m) := by
  simp only [ThreadManager.get_thread, ge_iff_le, hc,
    if_true, hfind, Thread.exclusively_occupy_core, hsh, Bool.false_eq_true, if_false]

theorem same_refl (m : ThreadManager) : SameRegistry m m :=
  ⟨rfl, rfl, rfl, fun _ => ⟨rfl, rfl, rfl⟩⟩

theorem same_trans (m1 m2 m3 : ThreadManager) (h1 : SameRegistry m1 m2)
    (h2 : SameRegistry m2 m3) : SameRegistry m1 m3 :=
  ⟨h2.1.trans h1.1, h2.2.1.trans h1.2.1, h2.2.2.1.trans h1.2.2.1,
    fun a => ⟨(h2.2.2.2 a).1.trans (h1.2.2.2 a).1, (h2.2.2.2 a).2.1.trans (h1.2.2.2 a).2.1,
      (h2.2.2.2 a).2.2.trans (h1.2.2.2 a).2.2⟩⟩

theorem same_update (m : ThreadManager) (thr : Nat) (g : Thread → Thread)
    (hg : ∀ t, (g t).cpu_ = t.cpu_ ∧ (g t).occupy_core_ = t.occupy_core_ ∧ (g t).name_ = t.name_) :
    SameRegistry m (m.update thr g) := by
  refine ⟨rfl, rfl, rfl, ?_⟩
  intro a
  have e : (m.update thr g).objs a = if a = thr then g (m.objs thr) else m.objs a := rfl
  rw [e]
  by_cases h : a = thr
  · rw [if_pos h, h]
    exact hg _
  · rw [if_neg h]
    exact ⟨rfl, rfl, rfl⟩

theorem same_foldl (G : ThreadManager → Int × Nat → ThreadManager)
    (hG : ∀ m kv, SameRegistry m (G m kv)) (l : List (Int × Nat)) :
    ∀ m, SameRegistry m (l.foldl G m) := by
  induction l with
  | nil => intro m; exact same_refl m
  | cons x l ih =>
    intro m
    exact same_trans _ _ _ (hG m x) (ih (G m x))

theorem same_set (m : ThreadManager) (thr : Nat) (t : Thread)
    (ht : t.cpu_ = (m.objs thr).cpu_ ∧ t.occupy_core_ = (m.objs thr).occupy_core_ ∧
      t.name_ = (m.objs thr).name_) :
    SameRegistry m (m.update thr (fun _ => t)) := by
  refine ⟨rfl, rfl, rfl, ?_⟩
  intro a
  have e : (m.update thr (fun _ => t)).objs a = if a = thr then t else m.objs a := rfl
  rw [e]
  by_cases h : a = thr
  · rw [if_pos h, h]
    exact ht
  · rw [if_neg h]
    exact ⟨rfl, rfl, rfl⟩

theorem start_fields (t t2 : Thread) (h : t.start = some t2) :
    t2.cpu_ = t.cpu_ ∧ t2.occupy_core_ = t.occupy_core_ ∧ t2.name_ = t.name_ := by
  unfold Thread.start at h
  split at h
  · split at h
    · simp at h
    · simp only [Option.some.injEq] at h
      subst h
      exact ⟨rfl, rfl, rfl⟩
  · simp only [Option.some.injEq] at h
    subst h
    exact ⟨rfl, rfl, rfl⟩

theorem taskLoop_fields (env : Env) (fuel : Nat) :
    ∀ (k : Nat) (t : Thread) (tr : List Call),
      (Thread.taskLoop env fuel k t tr).thread.cpu_ = t.cpu_ ∧
      (Thread.taskLoop env fuel k t tr).thread.occupy_core_ = t.occupy_core_ ∧
      (Thread.taskLoop env fuel k t tr).thread.name_ = t.name_ ∧
      (Thread.taskLoop env fuel k t tr).thread.thr_ = t.thr_ := by
  induction fuel with
  | zero => intro k t tr; exact ⟨rfl, rfl, rfl, rfl⟩
  | succ n ih =>
    intro k t tr
    have hstep : ∀ t1 : Thread, t1.cpu_ = t.cpu_ → t1.occupy_core_ = t.occupy_core_ →
        t1.name_ = t.name_ → t1.thr_ = t.thr_ →
        (if t1.stop_ then
          Thread.taskLoop env n (k + 1) (t1.timeval (env.manager_time k))
            (tr ++ t1.tasks_.map Call.task)
        else { finished := true, thread := t1, trace := tr }).thread.cpu_ = t.cpu_ ∧
        (if t1.stop_ then
          Thread.taskLoop env n (k + 1) (t1.timeval (env.manager_time k))
            (tr ++ t1.tasks_.map Call.task)
        else { finished := true, thread := t1, trace := tr }).thread.occupy_core_
          = t.occupy_core_ ∧
        (if t1.stop_ then
          Thread.taskLoop env n (k + 1) (t1.timeval (env.manager_time k))
            (tr ++ t1.tasks_.map Call.task)
        else { finished := true, thread := t1, trace := tr }).thread.name_ = t.name_ ∧
        (if t1.stop_ then
          Thread.taskLoop env n (k + 1) (t1.timeval (env.manager_time k))
            (tr ++ t1.tasks_.map Call.task)
        else { finished := true, thread := t1, trace := tr }).thread.thr_ = t.thr_ := by
      intro t1 h1 h2 h3 h4
      cases hs : t1.stop_ with
      | true =>
        simp only [if_true]
        obtain ⟨a1, a2, a3, a4⟩ := ih (k + 1) (t1.timeval (env.manager_time k))
          (tr ++ t1.tasks_.map Call.task)
        exact ⟨a1.trans h1, a2.trans h2, a3.trans h3, a4.trans h4⟩
      | false =>
        simp only [Bool.false_eq_true, if_false]
        exact ⟨h1, h2, h3, h4⟩
    unfold Thread.taskLoop
    by_cases he : env.stop_called k = true
    · simp only [he, if_true]
      exact hstep (Thread.stop t) rfl rfl rfl rfl
    · have he2 : env.stop_called k = false := by simpa using he
      simp only [he2, Bool.false_eq_true, if_false]
      exact hstep t rfl rfl rfl rfl

theorem execute_fields (env : Env) (t : Thread) (fuel : Nat) :
    (t.execute fuel env).thread.cpu_ = t.cpu_ ∧
    (t.execute fuel env).thread.occupy_core_ = t.occupy_core_ ∧
    (t.execute fuel env).thread.name_ = t.name_ ∧
    (t.execute fuel env).thread.thr_ = t.thr_ := by
  unfold Thread.execute
  simp only
  have hp : ∀ t0 : Thread,
      (if t0.sched_policy_ > 0 ∧ t0.priority_ ≥ 0
        then (Thread.set_sched_policy env t0 t0.sched_policy_ t0.priority_).2
        else (t0, [])).1.cpu_ = t0.cpu_ ∧
      (if t0.sched_policy_ > 0 ∧ t0.priority_ ≥ 0
        then (Thread.set_sched_policy env t0 t0.sched_policy_ t0.priority_).2
        else (t0, [])).1.occupy_core_ = t0.occupy_core_ ∧
      (if t0.sched_policy_ > 0 ∧ t0.priority_ ≥ 0
        then (Thread.set_sched_policy env t0 t0.sched_policy_ t0.priority_).2
        else (t0, [])).1.name_ = t0.name_ ∧
      (if t0.sched_policy_ > 0 ∧ t0.priority_ ≥ 0
        then (Thread.set_sched_policy env t0 t0.sched_policy_ t0.priority_).2
        else (t0, [])).1.thr_ = t0.thr_ := by
    intro t0
    unfold Thread.set_sched_policy
    split
    · simp only
      split <;> exact ⟨rfl, rfl, rfl, rfl⟩
    · exact ⟨rfl, rfl, rfl, rfl⟩
  obtain ⟨a1, a2, a3, a4⟩ := taskLoop_fields env fuel 0
    (if ({ t with tid_ := env.gettid } : Thread).sched_policy_ > 0 ∧
          ({ t with tid_ := env.gettid } : Thread).priority_ ≥ 0
        then (Thread.set_sched_policy env { t with tid_ := env.gettid }
          ({ t with tid_ := env.gettid } : Thread).sched_policy_
          ({ t with tid_ := env.gettid } : Thread).priority_).2
        else ({ t with tid_ := env.gettid }, [])).1
    (((if ({ t with tid_ := env.gettid } : Thread).cpu_ ≥ 0
        then (Thread.set_affinity env { t with tid_ := env.gettid }).2 else []) ++
      (if ({ t with tid_ := env.gettid } : Thread).sched_policy_ > 0 ∧
          ({ t with tid_ := env.gettid } : Thread).priority_ ≥ 0
        then (Thread.set_sched_policy env { t with tid_ := env.gettid }
          ({ t with tid_ := env.gettid } : Thread).sched_policy_
          ({ t with tid_ := env.gettid } : Thread).priority_).2
        else ({ t with tid_ := env.gettid }, [])).2) ++
      (if ({ t with tid_ := env.gettid } : Thread).sched_policy_ > 0 ∧
          ({ t with tid_ := env.gettid } : Thread).priority_ ≥ 0
        then (Thread.set_sched_policy env { t with tid_ := env.gettid }
          ({ t with tid_ := env.gettid } : Thread).sched_policy_
          ({ t with tid_ := env.gettid } : Thread).priority_).2
        else ({ t with tid_ := env.gettid }, [])).1.setup_tasks_.map Call.setup)
  obtain ⟨b1, b2, b3, b4⟩ := hp { t with tid_ := env.gettid }
  exact ⟨a1.trans b1, a2.trans b2, a3.trans b3, a4.trans b4⟩

theorem runs_fields (env : Env) (t : Thread) :
    (t.runs env).cpu_ = t.cpu_ ∧ (t.runs env).occupy_core_ = t.occupy_core_ ∧
    (t.runs env).name_ = t.name_ := by
  obtain ⟨a1, a2, a3, -⟩ := execute_fields env t 1
  unfold Thread.runs
  split
  · split
    · exact ⟨a1, a2, a3⟩
    · exact ⟨rfl, rfl, rfl⟩
  · exact ⟨rfl, rfl, rfl⟩

theorem join_fields (env : Env) (t t2 : Thread) (h : t.join env = some t2) :
    t2.cpu_ = t.cpu_ ∧ t2.occupy_core_ = t.occupy_core_ ∧ t2.name_ = t.name_ := by
  obtain ⟨a1, a2, a3⟩ := runs_fields env t
  unfold Thread.join at h
  split at h
  · simp at h
  · split at h
    · simp only [Option.some.injEq] at h
      subst h
      exact ⟨a1, a2, a3⟩
    · simp at h

theorem same_startAll (l : List (Int × Nat)) :
    ∀ m m2, ThreadManager.startAll l m = some m2 → SameRegistry m m2 := by
  induction l with
  | nil =>
    intro m m2 h
    simp only [ThreadManager.startAll, Option.some.injEq] at h
    subst h
    exact same_refl m
  | cons kv l ih =>
    intro m m2 h
    unfold ThreadManager.startAll at h
    split at h
    · exact ih m m2 h
    · split at h
      · simp at h
      · rename_i t ht
        exact same_trans _ _ _ (same_set m kv.2 t (start_fields _ t ht)) (ih _ m2 h)

theorem same_start (m m2 : ThreadManager) (h : m.start_threads = some m2) :
    SameRegistry m m2 :=
  same_startAll m.threads_ m m2 h

theorem same_joinAll (envs : Nat → Env) (l : List (Int × Nat)) :
    ∀ m m2, ThreadManager.joinAll envs l m = some m2 → SameRegistry m m2 := by
  induction l with
  | nil =>
    intro m m2 h
    simp only [ThreadManager.joinAll, Option.some.injEq] at h
    subst h
    exact same_refl m
  | cons kv l ih =>
    intro m m2 h
    unfold ThreadManager.joinAll at h
    split at h
    · simp at h
    · rename_i t ht
      exact same_trans _ _ _ (same_set m kv.2 t (join_fields _ _ t ht)) (ih _ m2 h)

/-- A `join_threads()` that returns has kept every Thread's cpu index, exclusivity flag and
name, and has emptied the map. -/
theorem join_threads_spec (envs : Nat → Env) (m m2 : ThreadManager)
    (h : m.join_threads envs = some m2) :
    m2.threads_ = [] ∧ m2.nobjs = m.nobjs ∧ m2.floating_core_id_ = m.floating_core_id_ ∧
    ∀ a, (m2.objs a).cpu_ = (m.objs a).cpu_ := by
  unfold ThreadManager.join_threads at h
  cases hj : ThreadManager.joinAll envs m.threads_ m with
  | none => rw [hj] at h; simp at h
  | some m1 =>
    rw [hj] at h
    simp only [Option.map_some', Option.some.injEq] at h
    subst h
    have hs := same_joinAll envs _ _ _ hj
    exact ⟨rfl, hs.2.1, hs.2.2.1, fun a => (hs.2.2.2 a).1⟩

theorem same_runs (m : ThreadManager) (thr : Nat) (env : Env) :
    SameRegistry m (m.update thr (Thread.runs env)) :=
  same_update m thr (Thread.runs env) (fun t => runs_fields env t)

theorem same_stop (m : ThreadManager) : SameRegistry m m.stop_threads := by
  unfold ThreadManager.stop_threads
  apply same_foldl
  intro m1 kv
  exact same_update m1 kv.2 Thread.stop (fun _ => ⟨rfl, rfl, rfl⟩)

theorem same_attach (m : ThreadManager) (thr f1 f2 : Nat) (tn : String) :
    SameRegistry m ((m.update thr (fun t => t.add_setup_task f1)).update thr
      (fun t => t.add_task f2 tn)) :=
  same_trans _ _ _ (same_update m thr (fun t => t.add_setup_task f1) (fun _ => ⟨rfl, rfl, rfl⟩))
    (same_update _ thr (fun t => t.add_task f2 tn) (fun _ => ⟨rfl, rfl, rfl⟩))

theorem minv_same (m m2 : ThreadManager) (h : MInv m) (hs : SameRegistry m m2) : MInv m2 := by
  obtain ⟨h1, h2, h3, h4⟩ := hs
  refine ⟨?_, ?_, ?_, ?_, ?_⟩
  · rw [h3]; exact h.counter
  · rw [h2]; exact h.nobjs_pos
  · rw [h1, h3]; exact h.keys
  · rw [h1, h2]; exact h.handles
  · intro a ha1 ha2
    rw [h3, (h4 a).1]
    exact h.ids a ha1 (by rw [← h2]; exact ha2)

theorem minv_new : MInv ThreadManager.new := by
  refine ⟨by decide, by decide, ?_, ?_, ?_⟩
  · intro e he; simp [ThreadManager.new] at he
  · intro e he; simp [ThreadManager.new] at he
  · intro a h1 h2
    simp [ThreadManager.new] at h2
    omega

theorem minv_registered (m : ThreadManager) (h : MInv m) (c : Int) (hc : 0 ≤ c)
    (hnew : m.find c = none) (occupy : Bool) (name : String) (now f1 f2 : Nat) (tn : String) :
    MInv (registered m c occupy name now f1 f2 tn) := by
  obtain ⟨ht, hn, hf, hsame, hcpu, -⟩ := registered_fields m c occupy name now f1 f2 tn hnew
  have hcnt := h.counter
  refine ⟨?_, ?_, ?_, ?_, ?_⟩
  · rw [hf]; exact hcnt
  · rw [hn]; omega
  · intro e he
    rw [ht, List.mem_append, List.mem_singleton] at he
    rw [hf]
    rcases he with he | rfl
    · exact h.keys e he
    · show m.floating_core_id_ ≤ c
      omega
  · intro e he
    rw [ht, List.mem_append, List.mem_singleton] at he
    rw [hn]
    rcases he with he | rfl
    · have := h.handles e he
      omega
    · have := h.nobjs_pos
      exact ⟨this, Nat.lt_succ_self _⟩
  · intro a h1 h2
    rw [hf]
    by_cases ha : a = m.nobjs
    · subst ha
      rw [hcpu]
      omega
    · rw [hsame a ha]
      exact h.ids a h1 (by rw [hn] at h2; omega)

theorem floating_key_new (m : ThreadManager) (h : MInv m) :
    m.threads_.lookup (m.floating_core_id_ - 1) = none := by
  apply lookup_none_of_ne
  intro e he
  have := h.keys e he
  omega

theorem minv_floated (m : ThreadManager) (h : MInv m) (name : String) (now f1 f2 : Nat)
    (tn : String) : MInv (floated m name now f1 f2 tn) := by
  obtain ⟨ht, hn, hf, hsame, hcpu, -⟩ :=
    floated_fields m name now f1 f2 tn (floating_key_new m h)
  have hcnt := h.counter
  refine ⟨?_, ?_, ?_, ?_, ?_⟩
  · rw [hf]; omega
  · rw [hn]; omega
  · intro e he
    rw [ht, List.mem_append, List.mem_singleton] at he
    rw [hf]
    rcases he with he | rfl
    · have := h.keys e he
      omega
    · exact le_refl _
  · intro e he
    rw [ht, List.mem_append, List.mem_singleton] at he
    rw [hn]
    rcases he with he | rfl
    · have := h.handles e he
      omega
    · have := h.nobjs_pos
      exact ⟨this, Nat.lt_succ_self _⟩
  · intro a h1 h2
    rw [hf]
    by_cases ha : a = m.nobjs
    · subst ha
      rw [hcpu]
      omega
    · rw [hsame a ha]
      have := h.ids a h1 (by rw [hn] at h2; omega)
      omega

/-- The outcome of a registration on a registry reached from the fresh one: a conflict on a
registered core, the Thread already registered for a shared core, a new pinned Thread, or a new
floating Thread. -/
theorem add_task_cases (m : ThreadManager) (h : MInv m) (now f1 f2 : Nat) (c : Int)
    (occupy : Bool) (tn name : String) :
    (0 ≤ c ∧ ∃ thr e, m.find c = some thr ∧
        ((m.objs thr).occupy_core_ = true ∨ occupy = true) ∧
        m.add_task_to_thread now f1 f2 c occupy tn name = Except.error e) ∨
    (0 ≤ c ∧ occupy = false ∧ ∃ thr, m.find c = some thr ∧ (m.objs thr).occupy_core_ = false ∧
        m.add_task_to_thread now f1 f2 c occupy tn name
          = Except.ok (thr, (m.update thr (fun t => t.add_setup_task f1)).update thr
              (fun t => t.add_task f2 tn))) ∨
    (0 ≤ c ∧ m.find c = none ∧
        m.add_task_to_thread now f1 f2 c occupy tn name
          = Except.ok (m.nobjs, registered m c occupy name now f1 f2 tn)) ∨
    (c < 0 ∧
        m.add_task_to_thread now f1 f2 c occupy tn name
          = Except.ok (m.nobjs, floated m name now f1 f2 tn)) := by
  have hobj : m.nobjs ≠ 0 := by have := h.nobjs_pos; omega
  by_cases hc : 0 ≤ c
  · cases hfind : m.find c with
    | none =>
      exact Or.inr (Or.inr (Or.inl ⟨hc, rfl, add_task_fresh m c hc hfind hobj now f1 f2 occupy tn name⟩))
    | some thr =>
      have hthr : thr ≠ 0 := by
        have := (h.handles _ (lookup_some_mem c thr m.threads_ hfind)).1
        exact fun e => by rw [e] at this; omega
      cases hex : (m.objs thr).occupy_core_ with
      | true =>
        exact Or.inl ⟨hc, thr, _, rfl, Or.inl hex,
          (add_task_exclusive_conflict m c hc thr hfind hex now f1 f2 occupy tn name).1⟩
      | false =>
        cases occupy with
        | true =>
          exact Or.inl ⟨hc, thr, _, rfl, Or.inr rfl,
            (add_task_shared_conflict m c hc thr hfind hex now f1 f2 tn name).1⟩
        | false =>
          exact Or.inr (Or.inl ⟨hc, rfl, thr, rfl, hex,
            add_task_shared m c hc thr hfind hthr hex now f1 f2 tn name⟩)
  · exact Or.inr (Or.inr (Or.inr ⟨by omega,
      add_task_floating m c (by omega) hobj now f1 f2 occupy tn name⟩))

theorem execute_finished (env : Env) (t : Thread) (fuel : Nat)
    (h : (t.execute fuel env).finished = true) : t.stop_ = false := by
  cases hs : t.stop_ with
  | false => rfl
  | true =>
    have hp := prologue_thread env { t with tid_ := env.gettid }
    have hf : (t.execute fuel env).finished = false := by
      unfold Thread.execute
      simp only
      exact (taskLoop_spins env fuel 0 _ _ (Or.inl (by rw [hp.1]; exact hs))).1
    rw [hf] at h
    simp at h

/-- A `join()` that returns was made on a Thread that had been started, whose `std::thread`
was joinable, and whose thread of execution was not in the task loop and, if it had not yet
evaluated the loop condition, was to find `stop_` clear. -/
theorem join_needs (env : Env) (t t2 : Thread) (h : t.join env = some t2) :
    (∃ o, t.thr_ = some o ∧ o.joinable = true ∧ o.state ≠ OsState.looping ∧
      (o.state = OsState.spawned → t.stop_ = false)) ∧
    t2.thr_ = some { joinable := false, state := OsState.returned } := by
  unfold Thread.join at h
  cases ht : t.thr_ with
  | none =>
    have hr : t.runs env = t := by simp [Thread.runs, ht]
    rw [hr, ht] at h
    simp at h
  | some o =>
    by_cases hsp : o.state = OsState.spawned
    · have hr : (t.runs env).thr_ = some (OsThread.mk o.joinable
          (if (t.execute 1 env).finished then OsState.returned else OsState.looping)) := by
        simp [Thread.runs, ht, hsp]
      rw [hr] at h
      simp only at h
      cases hfin : (t.execute 1 env).finished with
      | false =>
        rw [hfin] at h
        simp at h
      | true =>
        cases hj : o.joinable with
        | false =>
          rw [hj] at h
          simp at h
        | true =>
          rw [hfin, hj] at h
          simp only [if_true, and_self, Option.some.injEq] at h
          subst h
          refine ⟨⟨o, rfl, hj, ?_, fun _ => execute_finished env t 1 hfin⟩, rfl⟩
          rw [hsp]
          simp
    · have hr : t.runs env = t := by simp [Thread.runs, ht, hsp]
      rw [hr, ht] at h
      simp only at h
      by_cases hc : o.joinable = true ∧ o.state = OsState.returned
      · rw [if_pos hc] at h
        simp only [Option.some.injEq] at h
        subst h
        refine ⟨⟨o, rfl, hc.1, ?_, fun e => absurd e hsp⟩, rfl⟩
        rw [hc.2]
        simp
      · rw [if_neg hc] at h
        simp at h

/-- A `join_threads()` that returns was made on a registry in which every registered Thread
had been started, with a joinable `std::thread` whose thread of execution was not in the task
loop and, if it had not yet evaluated the loop condition, was to find `stop_` clear. -/
theorem joinAll_needs (envs : Nat → Env) (l : List (Int × Nat)) :
    ∀ m m2, ThreadManager.joinAll envs l m = some m2 →
      ∀ e ∈ l, ∃ o, (m.objs e.2).thr_ = some o ∧ o.joinable = true ∧
        o.state ≠ OsState.looping ∧ (o.state = OsState.spawned → (m.objs e.2).stop_ = false) := by
  induction l with
  | nil => intro m m2 _ e he; simp at he
  | cons kv l ih =>
    intro m m2 h e he
    unfold ThreadManager.joinAll at h
    split at h
    · simp at h
    · rename_i t ht
      obtain ⟨hhead, ht2⟩ := join_needs _ _ t ht
      rcases List.mem_cons.1 he with rfl | he
      · exact hhead
      · obtain ⟨o, ho, hj, hl, hs⟩ := ih _ m2 h e he
        have hobj : (m.update kv.2 (fun _ => t)).objs e.2
            = if e.2 = kv.2 then t else m.objs e.2 := rfl
        by_cases hk : e.2 = kv.2
        · rw [hobj, if_pos hk, ht2] at ho
          simp only [Option.some.injEq] at ho
          rw [← ho] at hj
          simp at hj
        · rw [hobj, if_neg hk] at ho hs
          exact ⟨o, ho, hj, hl, hs⟩

/-- A `start()` that returns was made on a Thread whose `std::thread`, if any, was not
joinable. -/
theorem start_needs (t t2 : Thread) (h : t.start = some t2) :
    (∀ o, t.thr_ = some o → o.joinable = false) ∧ t2.started_ = true := by
  unfold Thread.start at h
  split at h
  · rename_i o ho
    split at h
    · simp at h
    · rename_i hj
      simp only [Option.some.injEq] at h
      subst h
      refine ⟨?_, rfl⟩
      intro o2 ho2
      rw [ho] at ho2
      simp only [Option.some.injEq] at ho2
      rw [← ho2]
      simpa using hj
  · rename_i ho
    simp only [Option.some.injEq] at h
    subst h
    refine ⟨?_, rfl⟩
    intro o2 ho2
    rw [ho] at ho2
    simp at ho2

/-- A `start_threads()` that returns was made on a registry in which no registered Thread that
was not started held a joinable `std::thread`. -/
theorem startAll_needs (l : List (Int × Nat)) :
    ∀ m m2, ThreadManager.startAll l m = some m2 →
      ∀ e ∈ l, (m.objs e.2).started_ = false →
        ∀ o, (m.objs e.2).thr_ = some o → o.joinable = false := by
  induction l with
  | nil => intro m m2 _ e he; simp at he
  | cons kv l ih =>
    intro m m2 h e he hst
    unfold ThreadManager.startAll at h
    split at h
    · rename_i hstarted
      rcases List.mem_cons.1 he with rfl | he
      · rw [hst] at hstarted
        simp at hstarted
      · exact ih m m2 h e he hst
    · split at h
      · simp at h
      · rename_i t ht
        obtain ⟨hhead, ht2⟩ := start_needs _ t ht
        rcases List.mem_cons.1 he with rfl | he
        · exact hhead
        · have hobj : (m.update kv.2 (fun _ => t)).objs e.2
              = if e.2 = kv.2 then t else m.objs e.2 := rfl
          by_cases hk : e.2 = kv.2
          · rw [hk]
            exact hhead
          · have := ih _ m2 h e he
            rw [hobj, if_neg hk] at this
            exact this hst

theorem join_threads_needs (envs : Nat → Env) (m m2 : ThreadManager)
    (h : m.join_threads envs = some m2) :
    ∀ e ∈ m.threads_, ∃ o, (m.objs e.2).thr_ = some o ∧ o.joinable = true ∧
      o.state ≠ OsState.looping ∧ (o.state = OsState.spawned → (m.objs e.2).stop_ = false) := by
  unfold ThreadManager.join_threads at h
  cases hj : ThreadManager.joinAll envs m.threads_ m with
  | none => rw [hj] at h; simp at h
  | some m1 => exact joinAll_needs envs _ _ _ hj

theorem step_spec (envs : Nat → Env) (m : ThreadManager) (h : MInv m) (op : MgrOp)
    (m2 : ThreadManager) (l : List (Nat × Int)) (hstep : m.step envs op = some (m2, l)) :
    MInv m2 ∧ m.nobjs ≤ m2.nobjs ∧ m2.floating_core_id_ ≤ m.floating_core_id_ ∧
    ∀ e ∈ l, 1 ≤ e.1 ∧ e.1 < m2.nobjs ∧ m2.floating_core_id_ < e.2 := by
  have hsame : ∀ m3, SameRegistry m m3 → m.step envs op = some (m3, []) →
      MInv m2 ∧ m.nobjs ≤ m2.nobjs ∧ m2.floating_core_id_ ≤ m.floating_core_id_ ∧
      ∀ e ∈ l, 1 ≤ e.1 ∧ e.1 < m2.nobjs ∧ m2.floating_core_id_ < e.2 := by
    intro m3 hs he
    rw [he] at hstep
    simp only [Option.some.injEq, Prod.mk.injEq] at hstep
    obtain ⟨rfl, rfl⟩ := hstep
    exact ⟨minv_same _ _ h hs, by rw [hs.2.1], by rw [hs.2.2.1], fun e he => by simp at he⟩
  cases op with
  | add_task_to_thread now f1 f2 c occupy tn name =>
    rcases add_task_cases m h now f1 f2 c occupy tn name with
      ⟨-, thr, e, -, -, hr⟩ | ⟨hc, -, thr, hfind, -, hr⟩ | ⟨hc, hfind, hr⟩ | ⟨hc, hr⟩
    · exact hsame m (same_refl m) (by simp only [ThreadManager.step, hr])
    · simp only [ThreadManager.step, hr, Option.some.injEq, Prod.mk.injEq] at hstep
      obtain ⟨rfl, rfl⟩ := hstep
      have hs := same_attach m thr f1 f2 tn
      have hm2 := minv_same _ _ h hs
      have hh := h.handles _ (lookup_some_mem c thr m.threads_ hfind)
      refine ⟨hm2, by rw [hs.2.1], by rw [hs.2.2.1], ?_⟩
      intro e he
      rw [List.mem_singleton] at he
      subst he
      refine ⟨hh.1, by rw [hs.2.1]; exact hh.2, ?_⟩
      exact hm2.ids thr hh.1 (by rw [hs.2.1]; exact hh.2)
    · simp only [ThreadManager.step, hr, Option.some.injEq, Prod.mk.injEq] at hstep
      obtain ⟨rfl, rfl⟩ := hstep
      have hm2 := minv_registered m h c hc hfind occupy name now f1 f2 tn
      obtain ⟨-, hn, hf, -, -, -⟩ := registered_fields m c occupy name now f1 f2 tn hfind
      refine ⟨hm2, by rw [hn]; omega, by rw [hf], ?_⟩
      intro e he
      rw [List.mem_singleton] at he
      subst he
      have hp := h.nobjs_pos
      refine ⟨hp, by rw [hn]; omega, ?_⟩
      exact hm2.ids m.nobjs hp (by rw [hn]; omega)
    · simp only [ThreadManager.step, hr, Option.some.injEq, Prod.mk.injEq] at hstep
      obtain ⟨rfl, rfl⟩ := hstep
      have hm2 := minv_floated m h name now f1 f2 tn
      obtain ⟨-, hn, hf, -, -, -⟩ := floated_fields m name now f1 f2 tn (floating_key_new m h)
      refine ⟨hm2, by rw [hn]; omega, by rw [hf]; omega, ?_⟩
      intro e he
      rw [List.mem_singleton] at he
      subst he
      have hp := h.nobjs_pos
      refine ⟨hp, by rw [hn]; omega, ?_⟩
      exact hm2.ids m.nobjs hp (by rw [hn]; omega)
  | start_threads =>
    cases hst : m.start_threads with
    | none => simp [ThreadManager.step, hst] at hstep
    | some m3 =>
      exact hsame m3 (same_start m m3 hst) (by simp only [ThreadManager.step, hst])
  | stop_threads => exact hsame _ (same_stop m) rfl
  | join_threads =>
    cases hj : m.join_threads envs with
    | none => simp [ThreadManager.step, hj] at hstep
    | some m3 =>
      simp only [ThreadManager.step, hj, Option.some.injEq, Prod.mk.injEq] at hstep
      obtain ⟨rfl, rfl⟩ := hstep
      obtain ⟨ht, hn, hf, hcpu⟩ := join_threads_spec envs m _ hj
      refine ⟨⟨by rw [hf]; exact h.counter, by rw [hn]; exact h.nobjs_pos, ?_, ?_, ?_⟩,
        by rw [hn], by rw [hf], fun e he => by simp at he⟩
      · intro e he
        rw [ht] at he
        simp at he
      · intro e he
        rw [ht] at he
        simp at he
      · intro a h1 h2
        rw [hf, hcpu a]
        exact h.ids a h1 (by rw [← hn]; exact h2)
  | thread_runs thr => exact hsame _ (same_runs m thr (envs thr)) rfl

theorem run_minv (envs : Nat → Env) (ops : List MgrOp) :
    ∀ m m2 log, MInv m → m.runMgr envs ops = some (m2, log) →
      MInv m2 ∧ m.nobjs ≤ m2.nobjs ∧ m2.floating_core_id_ ≤ m.floating_core_id_ ∧
      ∀ e ∈ log, 1 ≤ e.1 ∧ e.1 < m2.nobjs ∧ m2.floating_core_id_ < e.2 := by
  induction ops with
  | nil =>
    intro m m2 log h hr
    simp only [ThreadManager.runMgr, Option.some.injEq, Prod.mk.injEq] at hr
    obtain ⟨rfl, rfl⟩ := hr
    exact ⟨h, le_refl _, le_refl _, fun e he => by simp at he⟩
  | cons op ops ih =>
    intro m m2 log h hr
    unfold ThreadManager.runMgr at hr
    cases hs : m.step envs op with
    | none => rw [hs] at hr; simp at hr
    | some r1 =>
      obtain ⟨m1, l1⟩ := r1
      rw [hs] at hr
      simp only at hr
      cases hr2 : ThreadManager.runMgr envs m1 ops with
      | none => rw [hr2] at hr; simp at hr
      | some r2 =>
        obtain ⟨m3, l2⟩ := r2
        rw [hr2] at hr
        simp only [Option.some.injEq, Prod.mk.injEq] at hr
        obtain ⟨rfl, rfl⟩ := hr
        obtain ⟨h1, hn1, hf1, hl1⟩ := step_spec envs m h op m1 l1 hs
        obtain ⟨h2, hn2, hf2, hl2⟩ := ih m1 _ _ h1 hr2
        refine ⟨h2, le_trans hn1 hn2, le_trans hf2 hf1, ?_⟩
        intro e he
        rcases List.mem_append.1 he with he | he
        · have := hl1 e he
          omega
        · exact hl2 e he

theorem registered_name (m : ThreadManager) (c : Int) (occupy : Bool) (name : String)
    (now f1 f2 : Nat) (tn : String) :
    ((registered m c occupy name now f1 f2 tn).objs m.nobjs).name_ = name := by
  simp [registered, ThreadManager.update, ThreadManager.assign, ThreadManager.newThread,
    Thread.add_setup_task, Thread.add_task, Thread.set_cpu, Thread.set_exclusively_occupy_core,
    Thread.new]

theorem step_keeps_exclusive (envs : Nat → Env) (m : ThreadManager) (h : MInv m) (c : Int)
    (hc : 0 ≤ c) (thr : Nat) (nm : String) (hfind : m.find c = some thr)
    (hex : (m.objs thr).occupy_core_ = true) (hnm : (m.objs thr).name_ = nm)
    (op : MgrOp) (hop : op ≠ MgrOp.join_threads)
    (m2 : ThreadManager) (l : List (Nat × Int)) (hstep : m.step envs op = some (m2, l)) :
    m2.find c = some thr ∧ (m2.objs thr).occupy_core_ = true ∧ (m2.objs thr).name_ = nm := by
  have hthr := h.handles _ (lookup_some_mem c thr m.threads_ hfind)
  have hsame : ∀ m3, SameRegistry m m3 → m.step envs op = some (m3, []) →
      m2.find c = some thr ∧ (m2.objs thr).occupy_core_ = true ∧ (m2.objs thr).name_ = nm := by
    intro m3 hs he
    rw [he] at hstep
    simp only [Option.some.injEq, Prod.mk.injEq] at hstep
    obtain ⟨rfl, rfl⟩ := hstep
    refine ⟨?_, ?_, ?_⟩
    · unfold ThreadManager.find
      rw [hs.1]
      exact hfind
    · rw [(hs.2.2.2 thr).2.1]
      exact hex
    · rw [(hs.2.2.2 thr).2.2]
      exact hnm
  cases op with
  | add_task_to_thread now f1 f2 c2 occupy tn name =>
    rcases add_task_cases m h now f1 f2 c2 occupy tn name with
      ⟨-, thr2, e, -, -, hr⟩ | ⟨-, -, thr2, -, -, hr⟩ | ⟨hc2, hfind2, hr⟩ | ⟨hc2, hr⟩
    · exact hsame m (same_refl m) (by simp only [ThreadManager.step, hr])
    · simp only [ThreadManager.step, hr, Option.some.injEq, Prod.mk.injEq] at hstep
      obtain ⟨rfl, rfl⟩ := hstep
      have hs := same_attach m thr2 f1 f2 tn
      refine ⟨?_, ?_, ?_⟩
      · unfold ThreadManager.find
        rw [hs.1]
        exact hfind
      · rw [(hs.2.2.2 thr).2.1]
        exact hex
      · rw [(hs.2.2.2 thr).2.2]
        exact hnm
    · simp only [ThreadManager.step, hr, Option.some.injEq, Prod.mk.injEq] at hstep
      obtain ⟨rfl, rfl⟩ := hstep
      obtain ⟨ht, -, -, hobjs, -, -⟩ := registered_fields m c2 occupy name now f1 f2 tn hfind2
      have hne : c ≠ c2 := by
        intro e
        rw [e, hfind2] at hfind
        simp at hfind
      have hthr2 : thr ≠ m.nobjs := by omega
      refine ⟨?_, ?_, ?_⟩
      · unfold ThreadManager.find
        rw [ht, lookup_append_ne c c2 _ _ hne]
        exact hfind
      · rw [hobjs thr hthr2]
        exact hex
      · rw [hobjs thr hthr2]
        exact hnm
    · simp only [ThreadManager.step, hr, Option.some.injEq, Prod.mk.injEq] at hstep
      obtain ⟨rfl, rfl⟩ := hstep
      obtain ⟨ht, -, -, hobjs, -, -⟩ :=
        floated_fields m name now f1 f2 tn (floating_key_new m h)
      have hne : c ≠ m.floating_core_id_ - 1 := by
        have := h.counter
        omega
      have hthr2 : thr ≠ m.nobjs := by omega
      refine ⟨?_, ?_, ?_⟩
      · unfold ThreadManager.find
        rw [ht, lookup_append_ne c _ _ _ hne]
        exact hfind
      · rw [hobjs thr hthr2]
        exact hex
      · rw [hobjs thr hthr2]
        exact hnm
  | start_threads =>
    cases hst : m.start_threads with
    | none => simp [ThreadManager.step, hst] at hstep
    | some m3 =>
      exact hsame m3 (same_start m m3 hst) (by simp only [ThreadManager.step, hst])
  | stop_threads => exact hsame _ (same_stop m) rfl
  | join_threads => exact absurd rfl hop
  | thread_runs thr2 => exact hsame _ (same_runs m thr2 (envs thr2)) rfl

theorem run_keeps_exclusive (envs : Nat → Env) (c : Int) (hc : 0 ≤ c) (thr : Nat) (nm : String)
    (ops : List MgrOp) :
    ∀ m m2 log, MInv m → m.find c = some thr → (m.objs thr).occupy_core_ = true →
      (m.objs thr).name_ = nm → MgrOp.join_threads ∉ ops →
      m.runMgr envs ops = some (m2, log) →
      MInv m2 ∧ m2.find c = some thr ∧ (m2.objs thr).occupy_core_ = true ∧
      (m2.objs thr).name_ = nm := by
  induction ops with
  | nil =>
    intro m m2 log h hf he hn _ hr
    simp only [ThreadManager.runMgr, Option.some.injEq, Prod.mk.injEq] at hr
    obtain ⟨rfl, rfl⟩ := hr
    exact ⟨h, hf, he, hn⟩
  | cons op ops ih =>
    intro m m2 log h hf he hn hj hr
    have hop : op ≠ MgrOp.join_threads := fun e => hj (by rw [e]; exact List.mem_cons_self _ _)
    unfold ThreadManager.runMgr at hr
    cases hs : m.step envs op with
    | none => rw [hs] at hr; simp at hr
    | some r1 =>
      obtain ⟨m1, l1⟩ := r1
      rw [hs] at hr
      simp only at hr
      cases hr2 : ThreadManager.runMgr envs m1 ops with
      | none => rw [hr2] at hr; simp at hr
      | some r2 =>
        obtain ⟨m3, l2⟩ := r2
        rw [hr2] at hr
        simp only [Option.some.injEq, Prod.mk.injEq] at hr
        obtain ⟨rfl, rfl⟩ := hr
        obtain ⟨h1, h2, h3⟩ := step_keeps_exclusive envs m h c hc thr nm hf he hn op hop m1 l1 hs
        exact ih m1 _ _ (step_spec envs m h op m1 l1 hs).1 h1 h2 h3
          (fun hm => hj (List.mem_cons_of_mem _ hm)) hr2

/-- C11. Exclusive-core conflict: for a core `c ≥ 0` already registered to the Thread `thr`,
`get_thread(c, occupy, name)` raises exactly when `thr` is exclusive or `occupy` is asked for,
and returns `thr` (registry untouched) otherwise; when it raises, the error names the core and
the thread, `add_task_to_thread` raises the same error and attaches nothing: the registry and
every Thread are as before, whatever the threads of execution do. -/
theorem exclusive_conflict_raised (m : ThreadManager) (c : Int) (hc : 0 ≤ c) (thr : Nat)
    (hfind : m.find c = some thr) (now f1 f2 : Nat) (occupy : Bool) (tn name : String) :
    ((∃ e, m.get_thread now c occupy name = Except.error e) ↔
      ((m.objs thr).exclusively_occupy_core = true ∨ occupy = true)) ∧
    (¬ ((m.objs thr).exclusively_occupy_core = true ∨ occupy = true) →
      m.get_thread now c occupy name = Except.ok (thr, m)) ∧
    (∀ e, m.get_thread now c occupy name = Except.error e →
      (e = ConfigError.exclusive c (m.objs thr).name ∨
        e = ConfigError.shared c (m.objs thr).name) ∧
      m.add_task_to_thread now f1 f2 c occupy tn name = Except.error e ∧
      ∀ envs, m.step envs (MgrOp.add_task_to_thread now f1 f2 c occupy tn name)
        = some (m, [])) := by
  cases hex : (m.objs thr).occupy_core_ with
  | true =>
    obtain ⟨h1, h2⟩ := add_task_exclusive_conflict m c hc thr hfind hex now f1 f2 occupy tn name
    refine ⟨⟨fun _ => Or.inl hex, fun _ => ⟨_, h2⟩⟩, ?_, ?_⟩
    · intro hn
      exact absurd (Or.inl hex) hn
    · intro e he
      rw [h2] at he
      have he2 : ConfigError.exclusive c (m.objs thr).name = e := by
        simpa using he
      subst he2
      refine ⟨Or.inl rfl, h1, ?_⟩
      intro envs
      simp only [ThreadManager.step, h1]
  | false =>
    cases occupy with
    | true =>
      obtain ⟨h1, h2⟩ := add_task_shared_conflict m c hc thr hfind hex now f1 f2 tn name
      refine ⟨⟨fun _ => Or.inr rfl, fun _ => ⟨_, h2⟩⟩, ?_, ?_⟩
      · intro hn
        exact absurd (Or.inr rfl) hn
      · intro e he
        rw [h2] at he
        have he2 : ConfigError.shared c (m.objs thr).name = e := by
          simpa using he
        subst he2
        refine ⟨Or.inr rfl, h1, ?_⟩
        intro envs
        simp only [ThreadManager.step, h1]
    | false =>
      have h2 := get_thread_shared m c hc thr hfind hex now name
      refine ⟨⟨?_, ?_⟩, fun _ => h2, ?_⟩
      · rintro ⟨e, he⟩
        rw [h2] at he
        simp at he
      · intro hor
        rcases hor with hor | hor
        · rw [Thread.exclusively_occupy_core, hex] at hor
          simp at hor
        · simp at hor
      · intro e he
        rw [h2] at he
        simp at he

/-- Witness of C11: core 3 registered exclusively on a fresh registry, then asked for again. -/
theorem exclusive_conflict_raised_witness :
    ((∃ e, (registered ThreadManager.new 3 true "w" 0 11 12 "a").get_thread 0 3 false "v"
        = Except.error e) ↔
      (((registered ThreadManager.new 3 true "w" 0 11 12 "a").objs 1).exclusively_occupy_core
        = true ∨ false = true)) ∧
    (¬ (((registered ThreadManager.new 3 true "w" 0 11 12 "a").objs 1).exclusively_occupy_core
        = true ∨ false = true) →
      (registered ThreadManager.new 3 true "w" 0 11 12 "a").get_thread 0 3 false "v"
        = Except.ok (1, registered ThreadManager.new 3 true "w" 0 11 12 "a")) ∧
    (∀ e, (registered ThreadManager.new 3 true "w" 0 11 12 "a").get_thread 0 3 false "v"
        = Except.error e →
      (e = ConfigError.exclusive 3
          ((registered ThreadManager.new 3 true "w" 0 11 12 "a").objs 1).name ∨
        e = ConfigError.shared 3
          ((registered ThreadManager.new 3 true "w" 0 11 12 "a").objs 1).name) ∧
      (registered ThreadManager.new 3 true "w" 0 11 12 "a").add_task_to_thread
        0 21 22 3 false "b" "v" = Except.error e ∧
      ∀ envs, (registered ThreadManager.new 3 true "w" 0 11 12 "a").step envs
        (MgrOp.add_task_to_thread 0 21 22 3 false "b" "v")
        = some (registered ThreadManager.new 3 true "w" 0 11 12 "a", [])) :=
  exclusive_conflict_raised (registered ThreadManager.new 3 true "w" 0 11 12 "a") 3 (by decide)
    1 rfl 0 21 22 false "b" "v"

/-- C12, the claim as written fails: core 3 is registered exclusively, the threads are started
and joined (the thread of execution finds `stop_` clear and returns, so `join_threads` returns
and clears the registry), and a later registration for core 3 succeeds. -/
theorem exclusive_core_counterexample :
    succeeded (ThreadManager.new.add_task_to_thread 0 11 12 3 true "a" "w") = true ∧
    ∃ m log, ThreadManager.new.runMgr quietEnvs
        [MgrOp.add_task_to_thread 0 11 12 3 true "a" "w", MgrOp.start_threads,
          MgrOp.join_threads] = some (m, log) ∧
      succeeded (m.add_task_to_thread 0 21 22 3 false "b" "v") = true :=
  ⟨by decide, _, _, rfl, rfl⟩

/-- C12, amended. On a registry reached from the fresh one by a run in which every operation
returned, once a registration with `exclusive = true` for a core `c ≥ 0` has succeeded, then
after any further run of `add_task_to_thread`, `start_threads` and `stop_threads` operations
(no `join_threads`) in which every operation returned, whatever the threads of execution did in
between, every registration for `c`, exclusive or not, raises the configuration error naming
`c` and the thread that holds it; and if a `join_threads` then returns (which needs every
registered Thread to have been started, with a joinable `std::thread` whose thread of execution
is not in the task loop and, if it has not yet evaluated the loop condition, finds `stop_`
clear), it has cleared the registry and a registration for `c` succeeds again. -/
theorem exclusive_core_stays (envs : Nat → Env) (ops0 : List MgrOp) (m0 : ThreadManager)
    (log0 : List (Nat × Int)) (hrun0 : ThreadManager.new.runMgr envs ops0 = some (m0, log0))
    (c : Int) (hc : 0 ≤ c) (now f1 f2 : Nat) (tn name : String) (thr : Nat)
    (m1 : ThreadManager)
    (hreg : m0.add_task_to_thread now f1 f2 c true tn name = Except.ok (thr, m1))
    (ops : List MgrOp) (hops : MgrOp.join_threads ∉ ops) (m2 : ThreadManager)
    (log : List (Nat × Int)) (hrun : m1.runMgr envs ops = some (m2, log))
    (now2 g1 g2 : Nat) (occupy2 : Bool) (tn2 name2 : String) :
    m2.add_task_to_thread now2 g1 g2 c occupy2 tn2 name2
      = Except.error (ConfigError.exclusive c name) ∧
    ∀ m3, m2.join_threads envs = some m3 →
      (∀ e ∈ m2.threads_, ∃ o, (m2.objs e.2).thr_ = some o ∧ o.joinable = true ∧
        o.state ≠ OsState.looping ∧
        (o.state = OsState.spawned → (m2.objs e.2).stop_ = false)) ∧
      m3.threads_ = [] ∧
      succeeded (m3.add_task_to_thread now2 g1 g2 c occupy2 tn2 name2) = true := by
  have h0 := (run_minv envs ops0 _ _ _ minv_new hrun0).1
  have hm1 : MInv m1 ∧ m1.find c = some thr ∧ (m1.objs thr).occupy_core_ = true ∧
      (m1.objs thr).name_ = name := by
    rcases add_task_cases _ h0 now f1 f2 c true tn name with
      ⟨-, thr2, e, -, -, hr⟩ | ⟨-, hocc, -⟩ | ⟨-, hfind, hr⟩ | ⟨hc2, -⟩
    · rw [hr] at hreg
      simp at hreg
    · simp at hocc
    · rw [hr] at hreg
      simp only [Except.ok.injEq, Prod.mk.injEq] at hreg
      obtain ⟨rfl, rfl⟩ := hreg
      obtain ⟨ht, -, -, -, -, hocc⟩ := registered_fields _ c true name now f1 f2 tn hfind
      refine ⟨minv_registered _ h0 c hc hfind true name now f1 f2 tn, ?_, hocc,
        registered_name _ c true name now f1 f2 tn⟩
      unfold ThreadManager.find
      rw [ht]
      exact lookup_append_new c _ _ hfind
    · omega
  obtain ⟨ha, hb, hd, he⟩ := hm1
  obtain ⟨h2, hf2, hx2, hn2⟩ :=
    run_keeps_exclusive envs c hc thr name ops m1 m2 log ha hb hd he hops hrun
  refine ⟨?_, ?_⟩
  · have := (add_task_exclusive_conflict _ c hc thr hf2 hx2 now2 g1 g2 occupy2 tn2 name2).1
    rw [this, Thread.name, hn2]
  · intro m3 hj
    obtain ⟨ht, hn, -, -⟩ := join_threads_spec envs m2 m3 hj
    have hobj : m3.nobjs ≠ 0 := by
      have := h2.nobjs_pos
      rw [hn]
      omega
    have hfind : m3.find c = none := by
      unfold ThreadManager.find
      rw [ht]
      rfl
    refine ⟨join_threads_needs envs m2 m3 hj, ht, ?_⟩
    rw [add_task_fresh m3 c hc hfind hobj now2 g1 g2 occupy2 tn2 name2]
    rfl

/-- Witness of C12 amended: core 3 is registered exclusively on a fresh registry; then a
floating registration, `start_threads`, and the thread of execution of the first Thread running
to its end; a shared registration for core 3 raises; `join_threads` returns, after which the
registration succeeds. -/
theorem exclusive_core_stays_witness :
    ∃ m2 log, (registered ThreadManager.new 3 true "w" 0 11 12 "a").runMgr quietEnvs
        [MgrOp.add_task_to_thread 0 31 32 (-1) false "f" "u", MgrOp.start_threads,
          MgrOp.thread_runs 1] = some (m2, log) ∧
      m2.add_task_to_thread 0 21 22 3 false "b" "v"
        = Except.error (ConfigError.exclusive 3 "w") ∧
      ∃ m3, m2.join_threads quietEnvs = some m3 ∧
        (∀ e ∈ m2.threads_, ∃ o, (m2.objs e.2).thr_ = some o ∧ o.joinable = true ∧
          o.state ≠ OsState.looping ∧
          (o.state = OsState.spawned → (m2.objs e.2).stop_ = false)) ∧
        m3.threads_ = [] ∧
        succeeded (m3.add_task_to_thread 0 21 22 3 false "b" "v") = true :=
  by
  have hex : ∃ m2 log, (registered ThreadManager.new 3 true "w" 0 11 12 "a").runMgr quietEnvs
        [MgrOp.add_task_to_thread 0 31 32 (-1) false "f" "u", MgrOp.start_threads,
          MgrOp.thread_runs 1] = some (m2, log) ∧
      ∃ m3, m2.join_threads quietEnvs = some m3 := ⟨_, _, rfl, _, rfl⟩
  obtain ⟨m2, log, hrun, m3, hj⟩ := hex
  have h := exclusive_core_stays quietEnvs [] ThreadManager.new [] rfl 3 (by decide) 0 11 12
    "a" "w" 1 (registered ThreadManager.new 3 true "w" 0 11 12 "a") rfl
    [MgrOp.add_task_to_thread 0 31 32 (-1) false "f" "u", MgrOp.start_threads,
      MgrOp.thread_runs 1] (by decide) m2 log hrun 0 21 22 false "b" "v"
  exact ⟨m2, log, hrun, h.1, m3, hj, h.2 m3 hj⟩

/-- C13. Floating threads are always fresh: on the registry `m` reached from the fresh one by
any run (`join_threads` included) in which every operation returned, whatever the threads of
execution did in between, with `log` the handles returned so far and their cpu indices, a
registration with a negative core id succeeds; the Thread it returns is none of those
returned or created before; its cpu index is negative and differs from that of every Thread
returned or created before; the map gains exactly one entry, under a key it did not hold, and
keeps every entry it had; and no other Thread is touched. -/
theorem floating_always_fresh (envs : Nat → Env) (ops : List MgrOp) (m : ThreadManager)
    (log : List (Nat × Int)) (hrun : ThreadManager.new.runMgr envs ops = some (m, log))
    (now f1 f2 : Nat) (c : Int) (hc : c < 0) (occupy : Bool) (tn name : String) :
    ∃ thr m2, m.add_task_to_thread now f1 f2 c occupy tn name = Except.ok (thr, m2) ∧
      (∀ e ∈ log, e.1 ≠ thr) ∧
      (∀ a, 1 ≤ a → a < m.nobjs → a ≠ thr) ∧ m.nobjs ≤ thr ∧
      (m2.objs thr).cpu < 0 ∧
      (∀ e ∈ log, e.2 ≠ (m2.objs thr).cpu) ∧
      (∀ a, 1 ≤ a → a < m.nobjs → (m.objs a).cpu ≠ (m2.objs thr).cpu) ∧
      (∃ k, k < 0 ∧ m.find k = none ∧ m2.threads_ = m.threads_ ++ [(k, thr)]) ∧
      (∀ a, a ≠ thr → m2.objs a = m.objs a) := by
  obtain ⟨hinv, -, -, hlog⟩ := run_minv envs ops _ _ _ minv_new hrun
  have hobj : m.nobjs ≠ 0 := by have := hinv.nobjs_pos; omega
  have hkey := floating_key_new m hinv
  obtain ⟨ht, -, -, hsame, hcpu, -⟩ := floated_fields m name now f1 f2 tn hkey
  have hcnt := hinv.counter
  refine ⟨m.nobjs, floated m name now f1 f2 tn,
    add_task_floating m c hc hobj now f1 f2 occupy tn name, ?_, ?_, le_refl _, ?_, ?_, ?_, ?_,
    hsame⟩
  · intro e he
    have := hlog e he
    omega
  · intro a _ h2
    omega
  · show ((floated m name now f1 f2 tn).objs m.nobjs).cpu_ < 0
    rw [hcpu]
    omega
  · intro e he
    have := hlog e he
    show e.2 ≠ ((floated m name now f1 f2 tn).objs m.nobjs).cpu_
    rw [hcpu]
    omega
  · intro a h1 h2
    have := hinv.ids a h1 h2
    show (m.objs a).cpu_ ≠ ((floated m name now f1 f2 tn).objs m.nobjs).cpu_
    rw [hcpu]
    omega
  · exact ⟨m.floating_core_id_ - 1, by omega, hkey, ht⟩

/-- Witness of C13: a pinned and a floating registration, `start_threads`, `join_threads`
(both threads of execution find `stop_` clear and return), then a floating registration. -/
theorem floating_always_fresh_witness :
    ∃ m log, ThreadManager.new.runMgr quietEnvs
        [MgrOp.add_task_to_thread 0 11 12 3 false "a" "w",
          MgrOp.add_task_to_thread 0 21 22 (-1) false "b" "v", MgrOp.start_threads,
          MgrOp.join_threads] = some (m, log) ∧
    ∃ thr m2, m.add_task_to_thread 0 31 32 (-7) false "c" "u" = Except.ok (thr, m2) ∧
      (∀ e ∈ log, e.1 ≠ thr) ∧
      (∀ a, 1 ≤ a → a < m.nobjs → a ≠ thr) ∧ m.nobjs ≤ thr ∧
      (m2.objs thr).cpu < 0 ∧
      (∀ e ∈ log, e.2 ≠ (m2.objs thr).cpu) ∧
      (∀ a, 1 ≤ a → a < m.nobjs → (m.objs a).cpu ≠ (m2.objs thr).cpu) ∧
      (∃ k, k < 0 ∧ m.find k = none ∧ m2.threads_ = m.threads_ ++ [(k, thr)]) ∧
      (∀ a, a ≠ thr → m2.objs a = m.objs a) :=
  by
  have hex : ∃ m log, ThreadManager.new.runMgr quietEnvs
        [MgrOp.add_task_to_thread 0 11 12 3 false "a" "w",
          MgrOp.add_task_to_thread 0 21 22 (-1) false "b" "v", MgrOp.start_threads,
          MgrOp.join_threads] = some (m, log) := ⟨_, _, rfl⟩
  obtain ⟨m, log, hrun⟩ := hex
  exact ⟨m, log, hrun, floating_always_fresh quietEnvs
    [MgrOp.add_task_to_thread 0 11 12 3 false "a" "w",
      MgrOp.add_task_to_thread 0 21 22 (-1) false "b" "v", MgrOp.start_threads,
      MgrOp.join_threads] m log hrun
    0 31 32 (-7) (by decide) false "c" "u"⟩

theorem callableCalls_append (a b : List Call) :
    callableCalls (a ++ b) = callableCalls a ++ callableCalls b := by
  induction a with
  | nil => rfl
  | cons x a ih => cases x <;> simp [callableCalls, ih]

theorem callableCalls_setup (l : List Nat) :
    callableCalls (l.map Call.setup) = l.map Call.setup := by
  induction l with
  | nil => rfl
  | cons x l ih => simp [callableCalls, ih]

theorem callableCalls_task (l : List Nat) :
    callableCalls (l.map Call.task) = l.map Call.task := by
  induction l with
  | nil => rfl
  | cons x l ih => simp [callableCalls, ih]

theorem affinityCalls_append (a b : List Call) :
    affinityCalls (a ++ b) = affinityCalls a ++ affinityCalls b := by
  induction a with
  | nil => rfl
  | cons x a ih => cases x <;> simp [affinityCalls, ih]

theorem affinityCalls_setup (l : List Nat) : affinityCalls (l.map Call.setup) = [] := by
  induction l with
  | nil => rfl
  | cons x l ih => simpa [affinityCalls] using ih

theorem affinityCalls_task (l : List Nat) : affinityCalls (l.map Call.task) = [] := by
  induction l with
  | nil => rfl
  | cons x l ih => simpa [affinityCalls] using ih

/-- The trace of the task loop: what was there, then whole passes over the task list. -/
theorem taskLoop_trace (env : Env) (fuel : Nat) :
    ∀ (k : Nat) (t : Thread) (tr : List Call), ∃ passes, passes ≤ fuel ∧
      (Thread.taskLoop env fuel k t tr).trace
        = tr ++ ((List.replicate passes t.tasks_).flatten).map Call.task := by
  induction fuel with
  | zero =>
    intro k t tr
    exact ⟨0, le_refl _, by simp [Thread.taskLoop]⟩
  | succ n ih =>
    intro k t tr
    have hstep : ∀ t1 : Thread, t1.tasks_ = t.tasks_ → ∃ passes, passes ≤ n + 1 ∧
        (if t1.stop_ then
          Thread.taskLoop env n (k + 1) (t1.timeval (env.manager_time k))
            (tr ++ t1.tasks_.map Call.task)
        else { finished := true, thread := t1, trace := tr }).trace
          = tr ++ ((List.replicate passes t.tasks_).flatten).map Call.task := by
      intro t1 ht
      cases hs : t1.stop_ with
      | true =>
        obtain ⟨p, hp, he⟩ := ih (k + 1) (t1.timeval (env.manager_time k))
          (tr ++ t1.tasks_.map Call.task)
        refine ⟨p + 1, by omega, ?_⟩
        simp only [if_true]
        rw [he]
        simp [Thread.timeval, ht, List.replicate_succ]
      | false =>
        exact ⟨0, by omega, by simp⟩
    unfold Thread.taskLoop
    by_cases he : env.stop_called k = true
    · simp only [he, if_true]
      exact hstep (Thread.stop t) rfl
    · have he2 : env.stop_called k = false := by simpa using he
      simp only [he2, Bool.false_eq_true, if_false]
      exact hstep t rfl

/-- The trace of `execute`: the collaborator calls, the setup callables, then whole passes over
the task list. -/
theorem execute_trace (env : Env) (t : Thread) (fuel : Nat) :
    ∃ passes, passes ≤ fuel ∧
      (t.execute fuel env).trace
        = (if t.cpu_ ≥ 0 then [Call.set_thread_affinity t.cpu_] else []) ++
          (if t.sched_policy_ > 0 ∧ t.priority_ ≥ 0
            then [Call.set_scheduler_policy t.sched_policy_ t.priority_] else []) ++
          t.setup_tasks_.map Call.setup ++
          ((List.replicate passes t.tasks_).flatten).map Call.task := by
  unfold Thread.execute
  simp only
  have hp := prologue_thread env { t with tid_ := env.gettid }
  obtain ⟨p, hple, he⟩ := taskLoop_trace env fuel 0
    (if ({ t with tid_ := env.gettid } : Thread).sched_policy_ > 0 ∧
          ({ t with tid_ := env.gettid } : Thread).priority_ ≥ 0
        then (Thread.set_sched_policy env { t with tid_ := env.gettid }
          ({ t with tid_ := env.gettid } : Thread).sched_policy_
          ({ t with tid_ := env.gettid } : Thread).priority_).2
        else ({ t with tid_ := env.gettid }, [])).1
    (((if ({ t with tid_ := env.gettid } : Thread).cpu_ ≥ 0
        then (Thread.set_affinity env { t with tid_ := env.gettid }).2 else []) ++
      (if ({ t with tid_ := env.gettid } : Thread).sched_policy_ > 0 ∧
          ({ t with tid_ := env.gettid } : Thread).priority_ ≥ 0
        then (Thread.set_sched_policy env { t with tid_ := env.gettid }
          ({ t with tid_ := env.gettid } : Thread).sched_policy_
          ({ t with tid_ := env.gettid } : Thread).priority_).2
        else ({ t with tid_ := env.gettid }, [])).2) ++
      (if ({ t with tid_ := env.gettid } : Thread).sched_policy_ > 0 ∧
          ({ t with tid_ := env.gettid } : Thread).priority_ ≥ 0
        then (Thread.set_sched_policy env { t with tid_ := env.gettid }
          ({ t with tid_ := env.gettid } : Thread).sched_policy_
          ({ t with tid_ := env.gettid } : Thread).priority_).2
        else ({ t with tid_ := env.gettid }, [])).1.setup_tasks_.map Call.setup)
  refine ⟨p, hple, ?_⟩
  rw [he, hp.2.1, hp.2.2]
  congr 2
  congr 1
  · by_cases h1 : t.cpu_ ≥ 0
    · have h2 : ¬ t.cpu_ < 0 := by omega
      simp [Thread.set_affinity, h1, h2]
    · simp [h1]
  · by_cases h1 : t.sched_policy_ > 0 ∧ t.priority_ ≥ 0
    · simp [Thread.set_sched_policy, h1]
    · simp [h1]

/-- C14. Setup callables run once, first: whatever the collaborators return and however long
`execute` has run, the calls of callables in its trace are the setup callables, each once and in
registration order, followed only by whole passes over the task list. -/
theorem setup_runs_once_first (env : Env) (t : Thread) (fuel : Nat) :
    ∃ passes, passes ≤ fuel ∧
      callableCalls (t.execute fuel env).trace
        = t.setup_tasks_.map Call.setup ++
          ((List.replicate passes t.tasks_).flatten).map Call.task := by
  obtain ⟨p, hp, he⟩ := execute_trace env t fuel
  refine ⟨p, hp, ?_⟩
  rw [he, callableCalls_append, callableCalls_append, callableCalls_append, callableCalls_setup,
    callableCalls_task]
  have h1 : callableCalls (if t.cpu_ ≥ 0 then [Call.set_thread_affinity t.cpu_] else []) = [] := by
    split <;> rfl
  have h2 : callableCalls (if t.sched_policy_ > 0 ∧ t.priority_ ≥ 0
      then [Call.set_scheduler_policy t.sched_policy_ t.priority_] else []) = [] := by
    split <;> rfl
  rw [h1, h2]
  rfl

theorem execute_affinity (env : Env) (t : Thread) (fuel : Nat) :
    affinityCalls (t.execute fuel env).trace = if 0 ≤ t.cpu then [t.cpu] else [] := by
  obtain ⟨p, -, he⟩ := execute_trace env t fuel
  rw [he, affinityCalls_append, affinityCalls_append, affinityCalls_append, affinityCalls_setup,
    affinityCalls_task]
  have h2 : affinityCalls (if t.sched_policy_ > 0 ∧ t.priority_ ≥ 0
      then [Call.set_scheduler_policy t.sched_policy_ t.priority_] else []) = [] := by
    split <;> rfl
  rw [h2]
  simp only [List.append_nil, Thread.cpu, ge_iff_le]
  split <;> rfl

/-- C16. Floating threads are never pinned: `execute` calls the CPU-affinity collaborator
exactly when the cpu index is `≥ 0`, once and with that index; on a registry reached from the
fresh one by a run in which every operation returned, a registration that creates a Thread for a negative core id gives it a negative cpu
index, so its `execute` never calls the collaborator, and one that creates a Thread for a core
`c ≥ 0` gives it the index `c`, so its `execute` calls the collaborator once, with `c`. -/
theorem floating_never_pinned (envs : Nat → Env) (ops : List MgrOp) (m : ThreadManager)
    (log : List (Nat × Int)) (hrun : ThreadManager.new.runMgr envs ops = some (m, log))
    (now f1 f2 : Nat) (c : Int) (occupy : Bool) (tn name : String)
    (hcreate : c < 0 ∨ m.find c = none) (env : Env) (fuel : Nat) :
    (∀ t : Thread, affinityCalls (t.execute fuel env).trace
      = if 0 ≤ t.cpu then [t.cpu] else []) ∧
    ∃ thr m2, m.add_task_to_thread now f1 f2 c occupy tn name = Except.ok (thr, m2) ∧
      (c < 0 → (m2.objs thr).cpu < 0 ∧
        affinityCalls ((m2.objs thr).execute fuel env).trace = []) ∧
      (0 ≤ c → (m2.objs thr).cpu = c ∧
        affinityCalls ((m2.objs thr).execute fuel env).trace = [c]) := by
  obtain ⟨hinv, -, -, -⟩ := run_minv envs ops _ _ _ minv_new hrun
  have hobj : m.nobjs ≠ 0 := by have := hinv.nobjs_pos; omega
  refine ⟨fun t => execute_affinity env t fuel, ?_⟩
  by_cases hc : c < 0
  · have hkey := floating_key_new m hinv
    obtain ⟨-, -, -, -, hcpu, -⟩ := floated_fields m name now f1 f2 tn hkey
    have hcnt := hinv.counter
    have hneg : ((floated m name now f1 f2 tn).objs m.nobjs).cpu < 0 := by
      show ((floated m name now f1 f2 tn).objs m.nobjs).cpu_ < 0
      rw [hcpu]
      omega
    refine ⟨m.nobjs, floated m name now f1 f2 tn,
      add_task_floating m c hc hobj now f1 f2 occupy tn name, ?_, ?_⟩
    · intro _
      refine ⟨hneg, ?_⟩
      rw [execute_affinity, if_neg (by omega)]
    · intro h0
      omega
  · have hc0 : 0 ≤ c := by omega
    have hfind : m.find c = none := hcreate.resolve_left hc
    obtain ⟨-, -, -, -, hcpu, -⟩ := registered_fields m c occupy name now f1 f2 tn hfind
    have hcpu2 : ((registered m c occupy name now f1 f2 tn).objs m.nobjs).cpu = c := hcpu
    refine ⟨m.nobjs, registered m c occupy name now f1 f2 tn,
      add_task_fresh m c hc0 hfind hobj now f1 f2 occupy tn name, ?_, ?_⟩
    · intro h0
      omega
    · intro _
      refine ⟨hcpu2, ?_⟩
      rw [execute_affinity, hcpu2, if_pos hc0]

/-- Witness of C16: a floating registration after a pinned one. -/
theorem floating_never_pinned_witness :
    ∃ m log, ThreadManager.new.runMgr quietEnvs
        [MgrOp.add_task_to_thread 0 11 12 3 false "a" "w"] = some (m, log) ∧
    (∀ t : Thread, affinityCalls (t.execute 2 quietEnv).trace
      = if 0 ≤ t.cpu then [t.cpu] else []) ∧
    ∃ thr m2, m.add_task_to_thread 0 21 22 (-1) false "b" "v" = Except.ok (thr, m2) ∧
      ((-1 : Int) < 0 → (m2.objs thr).cpu < 0 ∧
        affinityCalls ((m2.objs thr).execute 2 quietEnv).trace = []) ∧
      ((0 : Int) ≤ -1 → (m2.objs thr).cpu = -1 ∧
        affinityCalls ((m2.objs thr).execute 2 quietEnv).trace = [-1]) :=
  by
  have hex : ∃ m log, ThreadManager.new.runMgr quietEnvs
        [MgrOp.add_task_to_thread 0 11 12 3 false "a" "w"] = some (m, log) := ⟨_, _, rfl⟩
  obtain ⟨m, log, hrun⟩ := hex
  exact ⟨m, log, hrun, floating_never_pinned quietEnvs
    [MgrOp.add_task_to_thread 0 11 12 3 false "a" "w"] m log hrun
    0 21 22 (-1) false "b" "v" (Or.inl (by decide)) quietEnv 2⟩

/-- C19 (the code departs from the claim). On a registry reached from the fresh one by a run
in which every operation returned, a registration with a negative core id enters the new Thread under the key `floating_core_id_ - 1`
while the Thread carries the cpu index `floating_core_id_`: the key is not the Thread's id. -/
theorem floating_key_off_by_one (envs : Nat → Env) (ops : List MgrOp) (m : ThreadManager)
    (log : List (Nat × Int)) (hrun : ThreadManager.new.runMgr envs ops = some (m, log))
    (now f1 f2 : Nat) (c : Int) (hc : c < 0) (occupy : Bool) (tn name : String) :
    ∃ thr m2, m.add_task_to_thread now f1 f2 c occupy tn name = Except.ok (thr, m2) ∧
      m2.find (m.floating_core_id_ - 1) = some thr ∧
      (m.floating_core_id_ - 1, thr) ∈ m2.threads_ ∧
      (m2.objs thr).cpu = m.floating_core_id_ ∧
      (m2.objs thr).cpu ≠ m.floating_core_id_ - 1 := by
  obtain ⟨hinv, -, -, -⟩ := run_minv envs ops _ _ _ minv_new hrun
  have hobj : m.nobjs ≠ 0 := by have := hinv.nobjs_pos; omega
  have hkey := floating_key_new m hinv
  obtain ⟨ht, -, -, -, hcpu, -⟩ := floated_fields m name now f1 f2 tn hkey
  have hcpu2 : ((floated m name now f1 f2 tn).objs m.nobjs).cpu = m.floating_core_id_ := hcpu
  refine ⟨m.nobjs, floated m name now f1 f2 tn,
    add_task_floating m c hc hobj now f1 f2 occupy tn name, ?_, ?_, hcpu2, ?_⟩
  · unfold ThreadManager.find
    rw [ht]
    exact lookup_append_new _ _ _ hkey
  · rw [ht]
    simp
  · rw [hcpu2]
    omega

/-- Witness of C19: the first floating registration on a fresh registry is entered under the
key `-2` and carries the cpu index `-1`. -/
theorem floating_key_off_by_one_witness :
    ∃ thr m2, ThreadManager.new.add_task_to_thread 0 11 12 (-1) false "t" "" = Except.ok (thr, m2) ∧
      m2.find (-2) = some thr ∧
      ((-2 : Int), thr) ∈ m2.threads_ ∧
      (m2.objs thr).cpu = -1 ∧
      (m2.objs thr).cpu ≠ -2 :=
  floating_key_off_by_one quietEnvs [] ThreadManager.new [] rfl 0 11 12 (-1) (by decide)
    false "t" ""


/-- A `join_threads()` on a registry whose Thread was never started does not return normally
(`thr_` is empty). -/
theorem join_threads_never_started :
    (ThreadManager.new.runMgr quietEnvs
      [MgrOp.add_task_to_thread 0 11 12 3 true "a" "w", MgrOp.join_threads]).isSome = false := by
  decide

/-- A Thread started after `stop()` is in the task loop for good: `join_threads()` does not
return. -/
theorem join_threads_after_stop :
    (ThreadManager.new.runMgr quietEnvs
      [MgrOp.add_task_to_thread 0 11 12 3 true "a" "w", MgrOp.stop_threads,
        MgrOp.start_threads, MgrOp.join_threads]).isSome = false := by
  decide

/-- A second `start()` on a Thread that was stopped and not joined does not return
(`std::terminate`). -/
theorem start_threads_twice :
    (ThreadManager.new.runMgr quietEnvs
      [MgrOp.add_task_to_thread 0 11 12 3 true "a" "w", MgrOp.start_threads,
        MgrOp.stop_threads, MgrOp.start_threads]).isSome = false := by
  decide

end core
